import Mathlib

/-! # stcdetail/ini.go: the INI parser

A shallow embedding of `src/stcdetail/ini.go` and theorems about it.

Conventions of the embedding.

* A Go `[]byte` or `string` is a `Bytes`, a list of byte values (`Nat`, each
  below 256 in a real buffer).  A Go `rune` is an `Int`; `eofRune` is `-1`.
* The parser object `*iniParse` is a value `iniParse` passed explicitly.  Its
  two function fields `Value` and `Section` are set once by `newParser` and
  never change, so they travel as the separate parameter `IniSink`.
* A sink callback is an arbitrary deterministic Go function with hidden state.
  It is modelled as a function of the history of callbacks delivered so far
  (`iniParse.calls`, ghost state that is not in the Go struct) and of its
  arguments.  A callback is taken to return normally and to leave the
  `IniSection` it is handed unchanged.
* A Go panic is a result, not an exception: `Res.throw` is
  `panic(ParseError{...})` and keeps the parser state at the panic, since
  `do1` resynchronises from that state; `Res.fault` is a Go run-time panic
  (index or slice bound out of range), which `do1` re-panics.
* The two unbounded loops (`getValue`, `do`) and the scan loop of
  `getSubsection` run on fuel; `Res.outOfFuel` is an artefact of the model and
  the fuel handed out by the callers is shown to suffice where a result is
  claimed.
* `lineno` and `colno` are Go `int`s.  They grow by at most 8 per input byte,
  so they stay far below `2^63` for every buffer that fits in memory; they are
  `Nat` here.
-/

namespace stcdetail

/-- Go byte strings. -/
abbrev Bytes := List Nat

/-- The bytes of an ASCII literal. -/
def bytes (s : String) : Bytes := s.toList.map Char.toNat

def tabwidth : Nat := 8

def eofRune : Int := -1

/-- Section of an INI file; `Subsection` is a Go `*string`. -/
structure IniSection where
  Section : Bytes
  Subsection : Option Bytes
deriving DecidableEq

/-- A non-nil Go `error` returned by a sink callback: a `BadKey`, a `BadValue`
or any other error value, each with the text its `Error()` returns. -/
inductive SinkError where
  | BadKey (msg : Bytes)
  | BadValue (msg : Bytes)
  | other (msg : Bytes)
deriving DecidableEq

/-- The method `Error()` of the Go error value. -/
def SinkError.Error : SinkError → Bytes
  | .BadKey msg => msg
  | .BadValue msg => msg
  | .other msg => msg

/-- A single parse error in an IniFile. -/
structure ParseError where
  File : Bytes
  Lineno : Nat
  Colno : Nat
  Msg : Bytes
deriving DecidableEq

/-- The collection of parse errors that resulted from parsing a file. -/
abbrev ParseErrors := List ParseError

structure position where
  lineno : Nat
  colno : Nat
deriving DecidableEq

/-- One callback delivered to the sink. -/
inductive Call where
  | Value (sec : Option IniSection) (k : Bytes) (v : Bytes)
  | Section (sec : IniSection)
deriving DecidableEq

/-- The sink: `Value` is mandatory (`IniSink`); `Section` is present when the
sink also implements `IniSecSink`.  Each callback sees the calls made before
it and answers `none` for a nil error. -/
structure IniSink where
  Value : List Call → Option IniSection → Bytes → Bytes → Option SinkError
  Section : Option (List Call → IniSection → Option SinkError)

/-- The parser state; `calls` is the ghost history of sink callbacks. -/
structure iniParse extends position where
  input : Bytes
  file : Bytes
  sec : Option IniSection
  calls : List Call
deriving DecidableEq

/-- Outcome of a parser method. -/
inductive Res (α : Type) where
  | ok (a : α) (l : iniParse)
  | throw (e : ParseError) (l : iniParse)
  | fault (l : iniParse)
  | outOfFuel
deriving DecidableEq

/-- What a caller of the parser observes on a normal return: the returned
value and the callbacks the sink received. -/
def Res.result {α : Type} : Res α → Option (α × List Call)
  | .ok a l => some (a, l.calls)
  | _ => none

/-- The Go method `throwAt`: panic with a positioned `ParseError`. -/
def throwAt {α : Type} (l : iniParse) (pos : position) (msg : Bytes) : Res α :=
  .throw { File := l.file, Lineno := pos.lineno + 1, Colno := pos.colno + 1, Msg := msg } l

/-- The Go method `throw`, with the message already formatted. -/
def throw {α : Type} (l : iniParse) (msg : Bytes) : Res α :=
  throwAt l l.toposition msg

def peek (l : iniParse) : Int :=
  match l.input with
  | [] => eofRune
  | c :: _ => (c : Int)

/-- One turn of the loop of `skip`: the position after consuming byte `c`. -/
def advance (p : position) (c : Nat) : position :=
  if c = 10 then { lineno := p.lineno + 1, colno := 0 }
  else if c = 9 then { lineno := p.lineno, colno := p.colno + (8 - p.colno % tabwidth) }
  else { lineno := p.lineno, colno := p.colno + 1 }

/-- The loop `for i := 0; i < n; i++` of `skip`, entered at index `i` with
`k = n - i` turns to go.  The clamp of `skip` gives `i < n ≤ len(l.input)`,
so `l.input[i]` is in range at every turn. -/
def skipLoop (input : Bytes) : Nat → Nat → position → position
  | 0, _, p => p
  | k + 1, i, p => skipLoop input k (i + 1) (advance p (input.getD i 0))

def skip (n : Nat) (l : iniParse) : iniParse :=
  let n := if n > l.input.length then l.input.length else n
  { l with toposition := skipLoop l.input n 0 l.toposition,
           input := l.input.drop n }

/-- The Go method `take`; the slice `l.input[:n]` faults when `n` exceeds the length. -/
def take (n : Nat) (l : iniParse) : Res Bytes :=
  if n > l.input.length then .fault l
  else .ok (l.input.take n) (skip n l)

/-- The Go method `match`. -/
def match_ (text : Bytes) (l : iniParse) : Bool × iniParse :=
  let n := text.length
  if l.input.length ≥ n ∧ l.input.take n = text then (true, skip n l)
  else (false, l)

/-- The counting loop shared by `skipWhile` and `takeWhile`. -/
def countWhile (fn : Int → Bool) : Bytes → Nat
  | [] => 0
  | c :: cs => if fn (c : Int) then countWhile fn cs + 1 else 0

def skipWhile (fn : Int → Bool) (l : iniParse) : Bool × iniParse :=
  let n := countWhile fn l.input
  if n > 0 then (true, skip n l) else (false, l)

/-- The function `bytes.IndexByte`, with `none` for `-1`. -/
def indexByte (c : Nat) : Bytes → Option Nat
  | [] => none
  | b :: bs => if b = c then some 0 else (indexByte c bs).map (· + 1)

def skipTo (c : Nat) (l : iniParse) : Bool × iniParse :=
  match indexByte c l.input with
  | some i => (true, skip i l)
  | none => (false, skip l.input.length l)

def takeWhile (fn : Int → Bool) (l : iniParse) : Res Bytes :=
  take (countWhile fn l.input) l

def skipWS (l : iniParse) : Bool × iniParse :=
  skipWhile (fun r => r = 32 || r = 9) l

/-- The Go expression `c &^ 0x20` on a rune: bit 5 cleared, by floor division
(two's complement, so `-1` becomes `-33`). -/
def clearBit5 (c : Int) : Int := c - 32 * ((c / 32) % 2)

def isAlpha (c : Int) : Bool :=
  let c := clearBit5 c
  decide (c ≥ 65 ∧ c ≤ 90)

def isKeyChar (c : Int) : Bool :=
  isAlpha c || decide (c ≥ 48 ∧ c ≤ 57) || decide (c = 45)

def getKey (l : iniParse) : Res Bytes :=
  takeWhile isKeyChar l

/-- How the labelled loop of `getSubsection` ends. -/
inductive SubScan where
  | retNil
  | exit (i : Nat) (ret : Bytes)
  | fault
  | outOfFuel
deriving DecidableEq

/-- The loop `for i = 1; i + 1 < len(l.input); i++` of `getSubsection`,
entered at index `i` with `ret` written so far. -/
def getSubsectionLoop (input : Bytes) : Nat → Nat → Bytes → SubScan
  | 0, _, _ => .outOfFuel
  | fuel + 1, i, ret =>
    if i + 1 < input.length then
      match input[i]? with
      | none => .fault
      | some c =>
        if c = 34 then .exit i ret
        else if c = 0 ∨ c = 10 then .retNil
        else if c = 92 then
          match input[i + 1]? with
          | none => .fault
          | some nc =>
            getSubsectionLoop input fuel (i + 1 + 1)
              (if nc = 92 ∨ nc = 34 then ret ++ [nc] else ret)
        else getSubsectionLoop input fuel (i + 1) (ret ++ [c])
    else .exit i ret

def getSubsection (l : iniParse) : Res (Option Bytes) :=
  if l.input.length < 2 then .ok none l
  else
    match l.input[0]? with
    | none => .fault l
    | some c0 =>
      if c0 ≠ 34 then .ok none l
      else
        match getSubsectionLoop l.input l.input.length 1 [] with
        | .retNil => .ok none l
        | .fault => .fault l
        | .outOfFuel => .outOfFuel
        | .exit i ret =>
          match l.input[i]? with
          | none => .fault l
          | some c =>
            if c ≠ 34 then .ok none l
            else .ok (some ret) (skip (i + 1) l)

def getSection (l : iniParse) : Res (Option IniSection) :=
  match match_ [91] l with
  | (false, l) => .ok none l
  | (true, l) =>
    match getKey l with
    | .throw e l => .throw e l
    | .fault l => .fault l
    | .outOfFuel => .outOfFuel
    | .ok name l =>
      if name.length = 0 then throw l (bytes "expected section name after '['")
      else
        match match_ [93] l with
        | (true, l) => .ok (some { Section := name, Subsection := none }) l
        | (false, l) =>
          match skipWS l with
          | (false, l) => throw l (bytes "expected ']' or space followed by quoted-subsection")
          | (true, l) =>
            match getSubsection l with
            | .throw e l => .throw e l
            | .fault l => .fault l
            | .outOfFuel => .outOfFuel
            | .ok none l => throw l (bytes "expected quoted subsection after space")
            | .ok (some sub) l =>
              match match_ [93] l with
              | (false, l) => throw l (bytes "expected ']'")
              | (true, l) => .ok (some { Section := name, Subsection := some sub }) l

/-- The verb `%c` of `fmt.Sprintf` on a rune in 0..255: its UTF-8 encoding. -/
def fmtRune (c : Int) : Bytes :=
  if c < 128 then [c.toNat] else [192 + c.toNat / 64, 128 + c.toNat % 64]

/-- The loop `for { ... }` of `getValue`, with its locals `i`, `ret`,
`escape`, `inquote`.  After a comment the source goes round again without
resetting `i`; so does this loop. -/
def getValueLoop : Nat → iniParse → Nat → Bytes → Bool → Bool → Res Bytes
  | 0, _, _, _, _, _ => .outOfFuel
  | fuel + 1, l, i, ret, escape, inquote =>
    let c : Int := if i < l.input.length then (l.input.getD i 0 : Int) else eofRune
    let i := i + 1
    if escape then
      if c = 34 ∨ c = 92 then getValueLoop fuel l i (ret ++ [c.toNat]) false inquote
      else if c = 110 then getValueLoop fuel l i (ret ++ [10]) false inquote
      else if c = 116 then getValueLoop fuel l i (ret ++ [9]) false inquote
      else if c = 98 then getValueLoop fuel l i (ret ++ [8]) false inquote
      else if c = 10 then getValueLoop fuel l i ret false inquote
      else if i < 2 then .fault l
      else
        let l := skip (i - 2) l
        if c = eofRune then throw l (bytes "incomplete escape sequence at EOF")
        else throw l (bytes "invalid escape sequence \\" ++ fmtRune c)
    else if c = 92 then getValueLoop fuel l i ret true inquote
    else if c = 34 then getValueLoop fuel l i ret false (!inquote)
    else if c = 10 ∨ c = eofRune then
      if inquote then throw (skip (i - 1) l) (bytes "missing close quotes")
      else .ok ret (skip i l)
    else if !inquote ∧ (c = 35 ∨ c = 59) then
      getValueLoop fuel (skipTo 10 (skip i l)).2 i ret false inquote
    else getValueLoop fuel l i (ret ++ [c.toNat]) false inquote

/-- Every turn of the loop raises `i`, and a turn with `i` at or past the end
of the input leaves the loop, so `len(l.input) + 1` turns are enough. -/
def getValue (l : iniParse) : Res Bytes :=
  getValueLoop (l.input.length + 1) l 0 [] false false

/-- The field `Section` that `newParser` installs: the sink's callback, or a
function returning nil when the sink is not an `IniSecSink`. -/
def callSection (s : IniSink) (l : iniParse) (sec : IniSection) : Option SinkError × iniParse :=
  match s.Section with
  | none => (none, l)
  | some f => (f l.calls sec, { l with calls := l.calls ++ [Call.Section sec] })

/-- The field `Value` that `newParser` installs. -/
def callValue (s : IniSink) (l : iniParse) (sec : Option IniSection) (k v : Bytes) :
    Option SinkError × iniParse :=
  (s.Value l.calls sec k v, { l with calls := l.calls ++ [Call.Value sec k v] })

/-- The call `l.Value(l.sec, k, v)` of `do1` and the repositioning of the
error it returns: at the key for a `BadKey`, at the value otherwise. -/
def deliverValue (s : IniSink) (keypos valpos : position) (k v : Bytes) (l : iniParse) :
    Res Unit :=
  match callValue s l l.sec k v with
  | (none, l) => .ok () l
  | (some (.BadKey ke), l) => throwAt l keypos ke
  | (some err, l) => throwAt l valpos err.Error

/-- The key/value branch of `do1`, after `getKey` returned `k`. -/
def do1KeyValue (s : IniSink) (keypos : position) (k : Bytes) (l : iniParse) : Res Unit :=
  let l := (skipWS l).2
  match match_ [61] l with
  | (false, l) =>
    let c := peek l
    if c ≠ 10 ∧ c ≠ 35 ∧ c ≠ 59 ∧ c ≠ eofRune then
      throw l (bytes "Expected '=' after " ++ k)
    else deliverValue s keypos l.toposition k [] l
  | (true, l) =>
    let l := (skipWS l).2
    let valpos := l.toposition
    match getValue l with
    | .ok v l => deliverValue s keypos valpos k v l
    | .throw e l => .throw e l
    | .fault l => .fault l
    | .outOfFuel => .outOfFuel

/-- The body of `do1`, before the deferred recover. -/
def do1Body (s : IniSink) (l : iniParse) : Res Unit :=
  let l := (skipWS l).2
  let keypos := l.toposition
  match getSection l with
  | .throw e l => .throw e l
  | .fault l => .fault l
  | .outOfFuel => .outOfFuel
  | .ok (some sec) l =>
    let l := { l with sec := some sec }
    match callSection s l sec with
    | (some err, l) => throwAt l keypos err.Error
    | (none, l) => .ok () l
  | .ok none l =>
    if isAlpha (peek l) then
      match getKey l with
      | .throw e l => .throw e l
      | .fault l => .fault l
      | .outOfFuel => .outOfFuel
      | .ok k l => do1KeyValue s keypos k l
    else
      let c := peek l
      if c = 35 ∨ c = 59 ∨ c = 10 then .ok () (skip 1 (skipTo 10 l).2)
      else throw l (bytes "Expected section or key")

/-- The deferred function of `do1` turns a `ParseError` panic into the
returned error and skips to the next newline; any other panic goes on. -/
def do1 (s : IniSink) (l : iniParse) : Res (Option ParseError) :=
  match do1Body s l with
  | .ok _ l => .ok none l
  | .throw pe l => .ok (some pe) (skipTo 10 l).2
  | .fault l => .fault l
  | .outOfFuel => .outOfFuel

/-- The loop `for len(l.input) > 0` of `do`, with `err` collected so far. -/
def doLoop (s : IniSink) : Nat → iniParse → ParseErrors → Res ParseErrors
  | 0, l, err => if l.input.length > 0 then .outOfFuel else .ok err l
  | fuel + 1, l, err =>
    if l.input.length > 0 then
      match do1 s l with
      | .ok (some e) l => doLoop s fuel l (err ++ [e])
      | .ok none l => doLoop s fuel l err
      | .throw e l => .throw e l
      | .fault l => .fault l
      | .outOfFuel => .outOfFuel
    else .ok err l

/-- The Go method `do`: `none` is the nil error, `some err` a non-empty
`ParseErrors`.  Each `do1` on a non-empty input consumes a byte, so
`len(l.input)` turns are enough. -/
def do_ (s : IniSink) (l : iniParse) : Res (Option ParseErrors) :=
  match doLoop s l.input.length l [] with
  | .ok [] l => .ok none l
  | .ok err l => .ok (some err) l
  | .throw e l => .throw e l
  | .fault l => .fault l
  | .outOfFuel => .outOfFuel

def newParser (path : Bytes) (input : Bytes) : iniParse :=
  { lineno := 0, colno := 0, input := input, file := path, sec := none, calls := [] }

/-- Parse the contents of an INI file. -/
def IniParseContents (sink : IniSink) (filename : Bytes) (contents : Bytes) :
    Res (Option ParseErrors) :=
  do_ sink (newParser filename contents)

/-- A lower-case hexadecimal digit, as `strconv` writes it. -/
def hexDigit (n : Nat) : Nat := if n < 10 then 48 + n else 87 + n

/-- What `strconv.Quote` (the verb `%q`) writes for one ASCII byte: a quote
and a backslash get a backslash, the other printable bytes stand as they
are, the control bytes become `\a \b \f \n \r \t \v` or `\xNN`.  A byte
from 128 on depends on UTF-8 decoding and on the tables of `unicode.IsPrint`,
which are not embedded: the answer is `none`. -/
def quoteByte (c : Nat) : Option Bytes :=
  if c = 34 ∨ c = 92 then some [92, c]
  else if 32 ≤ c ∧ c ≤ 126 then some [c]
  else if c = 7 then some [92, 97]
  else if c = 8 then some [92, 98]
  else if c = 12 then some [92, 102]
  else if c = 10 then some [92, 110]
  else if c = 13 then some [92, 114]
  else if c = 9 then some [92, 116]
  else if c = 11 then some [92, 118]
  else if c < 128 then some [92, 120, hexDigit (c / 16), hexDigit (c % 16)]
  else none

def quoteBytes : Bytes → Option Bytes
  | [] => some []
  | c :: t =>
    match quoteByte c, quoteBytes t with
    | some a, some b => some (a ++ b)
    | _, _ => none

/-- The Go method `String` of `IniSection`: `[%s %q]` with a subsection,
`[%s]` without; `none` when the subsection lies outside the embedded part of
`%q`. -/
def IniSection.String (s : IniSection) : Option Bytes :=
  match s.Subsection with
  | some sub =>
    match quoteBytes sub with
    | some q => some (91 :: (s.Section ++ 32 :: 34 :: (q ++ [34, 93])))
    | none => none
  | none => some (91 :: (s.Section ++ [93]))

/-! ## Vocabulary of the statements

Plain descriptions of inputs and of expected results, used to state the
theorems; none of them is part of the parser. -/

/-- The position reached from `p` after consuming `bs` (the loop of `skip`). -/
def posAfter (p : position) (bs : Bytes) : position := bs.foldl advance p

/-- The column rule in plain words: a tab moves column `x` to the least
multiple of 8 strictly greater than `x`, any other byte to `x + 1`. -/
def colFold (x : Nat) (w : Bytes) : Nat :=
  w.foldl (fun x c => if c = 9 then 8 * (x / 8 + 1) else x + 1) x

/-- An ASCII letter. -/
def IsLetter (c : Nat) : Prop := (65 ≤ c ∧ c ≤ 90) ∨ (97 ≤ c ∧ c ≤ 122)

/-- A key character: letter, digit or hyphen. -/
def IsKeyByte (c : Nat) : Prop := IsLetter c ∨ (48 ≤ c ∧ c ≤ 57) ∨ c = 45

/-- A key: a letter followed by key characters. -/
def IsKey : Bytes → Prop
  | [] => False
  | c :: t => IsLetter c ∧ ∀ x ∈ t, IsKeyByte x

/-- A run of spaces and tabs. -/
def IsBlanks (w : Bytes) : Prop := ∀ c ∈ w, c = 32 ∨ c = 9

/-- The first byte of `bs`, if any, is neither a space nor a tab. -/
def NoLeadingBlank (bs : Bytes) : Prop := ∀ c ∈ bs.head?, c ≠ 32 ∧ c ≠ 9

/-- A value free of backslash, double quote, '#', ';' and newline. -/
def IsPlainValue (v : Bytes) : Prop :=
  ∀ c ∈ v, c ≠ 92 ∧ c ≠ 34 ∧ c ≠ 35 ∧ c ≠ 59 ∧ c ≠ 10

/-- The rest of the buffer is empty or starts with a newline. -/
def AtLineEnd (tail : Bytes) : Prop := ∀ c ∈ tail.head?, c = 10

/-- A line that opens no statement: non-empty, newline-free, and beginning with
a byte that is not a space, tab, letter, '[', '#' or ';'. -/
def IsStrayLine : Bytes → Prop
  | [] => False
  | c :: t => c ≠ 32 ∧ c ≠ 9 ∧ ¬ IsLetter c ∧ c ≠ 91 ∧ c ≠ 35 ∧ c ≠ 59 ∧ 10 ∉ c :: t

/-- The document made of the given lines, each followed by a newline. -/
def joinLines : List Bytes → Bytes
  | [] => []
  | ln :: more => ln ++ 10 :: joinLines more

/-- A sink that accepts every callback and implements `Section`. -/
def acceptAll : IniSink :=
  { Value := fun _ _ _ _ => none, Section := some (fun _ _ => none) }

/-- A sink whose `Value` answers every call with the error `e`. -/
def rejectAll (e : SinkError) : IniSink :=
  { Value := fun _ _ _ _ => some e, Section := none }

/-- The escape of one byte inside a quoted value: backslash-quote,
two backslashes, backslash-n, backslash-t, backslash-b, or the byte itself. -/
def escByte (c : Nat) : Bytes :=
  if c = 34 then [92, 34]
  else if c = 92 then [92, 92]
  else if c = 10 then [92, 110]
  else if c = 9 then [92, 116]
  else if c = 8 then [92, 98]
  else [c]

def escBody : Bytes → Bytes
  | [] => []
  | c :: t => escByte c ++ escBody t

/-- The quoted source text of the value `s`. -/
def enc (s : Bytes) : Bytes := 34 :: (escBody s ++ [34])

/-- The text of a subsection between its quotes: a double quote and a
backslash are written with a backslash before them. -/
def quoteBody : Bytes → Bytes
  | [] => []
  | c :: t => if c = 34 ∨ c = 92 then 92 :: c :: quoteBody t else c :: quoteBody t

/-- The header line of a section, without its newline: `[name]` or
`[name "sub"]`. -/
def headerText (sec : IniSection) : Bytes :=
  match sec.Subsection with
  | none => 91 :: (sec.Section ++ [93])
  | some sub => 91 :: (sec.Section ++ 32 :: 34 :: (quoteBody sub ++ [34, 93]))

/-- A line of a well-formed document: a section header or `key=value`. -/
inductive Stmt where
  | header (sec : IniSection)
  | keyValue (k : Bytes) (v : Bytes)

def renderStmt : Stmt → Bytes
  | .header sec => headerText sec ++ [10]
  | .keyValue k v => k ++ 61 :: (v ++ [10])

def renderDoc : List Stmt → Bytes
  | [] => []
  | st :: more => renderStmt st ++ renderDoc more

/-- A section name is a non-empty string of key characters and a subsection
holds no NUL and no newline; a key is a letter followed by key characters and
a value is a token free of backslash, quote, '#', ';' and newline that does
not begin with a blank (blanks after the '=' are not part of the value). -/
def WellFormedStmt : Stmt → Prop
  | .header sec =>
    sec.Section ≠ [] ∧ (∀ c ∈ sec.Section, IsKeyByte c)
      ∧ ∀ sub ∈ sec.Subsection, ∀ c ∈ sub, c ≠ 0 ∧ c ≠ 10
  | .keyValue k v => IsKey k ∧ IsPlainValue v ∧ NoLeadingBlank v

/-- The callbacks of a document in document order, `cur` being the section
open before its first line. -/
def expectedCalls (cur : Option IniSection) : List Stmt → List Call
  | [] => []
  | .header sec :: more => Call.Section sec :: expectedCalls (some sec) more
  | .keyValue k v :: more => Call.Value cur k v :: expectedCalls cur more

/-- The sink answers nil to every callback. -/
def IniSink.Accepts (s : IniSink) : Prop :=
  (∀ h sec k v, s.Value h sec k v = none)
    ∧ ∀ g, s.Section = some g → ∀ h sec, g h sec = none

/-- The record of a section callback: one call when the sink implements
`Section`, none otherwise. -/
def sectionCall (s : IniSink) (sec : IniSection) : List Call :=
  match s.Section with
  | none => []
  | some _ => [Call.Section sec]

/-- The column blamed for a sink error: the key's for a `BadKey`, the
value's for any other error. -/
def blameColumn (e : SinkError) (keycol valcol : Nat) : Nat :=
  match e with
  | .BadKey _ => keycol
  | _ => valcol

/-- What may follow a bare key and its blanks: the end of the input, a
newline, or a comment opened by '#' or ';' that runs to the end of its line. -/
def IsBareTail (tail : Bytes) : Prop :=
  tail = [] ∨ tail = [10]
    ∨ ∃ c cmt nl, (c = 35 ∨ c = 59) ∧ 10 ∉ cmt ∧ (nl = [] ∨ nl = [10]) ∧ tail = c :: (cmt ++ nl)

/-- The position step in the words of the position rule: a newline goes to
the start of the next line, a tab to the least multiple of 8 strictly greater
than the column, any other byte one column on. -/
def stepSpec (p : position) (c : Nat) : position :=
  if c = 10 then { lineno := p.lineno + 1, colno := 0 }
  else if c = 9 then { lineno := p.lineno, colno := 8 * (p.colno / 8 + 1) }
  else { lineno := p.lineno, colno := p.colno + 1 }

/-- What `skip(n)` is said to do: remove `min n len` bytes from the front and
fold the position step over them. -/
def skipSpec (n : Nat) (l : iniParse) : iniParse :=
  { l with
    toposition := (l.input.take (min n l.input.length)).foldl stepSpec l.toposition,
    input := l.input.drop (min n l.input.length) }

/-- The parser `l'` is the parser `l` after some bytes `a` of its input were
consumed: same file, the input lost the front `a`, and the position moved
over `a` by the position rule. -/
def Advances (l l' : iniParse) : Prop :=
  l'.file = l.file ∧ ∃ a, l.input = a ++ l'.input ∧ l'.toposition = posAfter l.toposition a

/-- What every parser method started on `l`, at or after line index `ln`,
keeps: it returns or panics (never runs out of fuel), the parser only
advances, and a `ParseError` it raises lies between line `ln` and the line
where it stopped. -/
def Res.Sound {α : Type} (ln : Nat) (l : iniParse) : Res α → Prop
  | .ok _ l' => Advances l l'
  | .throw e l' =>
    Advances l l' ∧ ln + 1 ≤ e.Lineno ∧ e.Lineno ≤ l'.lineno + 1 ∧ 1 ≤ e.Colno
  | .fault _ => True
  | .outOfFuel => False

/-- What one call of `do1` on `l` yields: it returns (or a run-time panic
goes through), the remaining input is strictly shorter, and a diagnostic it
returns lies between the start and the end line and leaves the parser at a
newline or at the end of the input. -/
def Step (l : iniParse) : Res (Option ParseError) → Prop
  | .ok none l' => Advances l l' ∧ l'.input.length < l.input.length
  | .ok (some e) l' =>
    Advances l l' ∧ l'.input.length < l.input.length
      ∧ l.lineno + 1 ≤ e.Lineno ∧ e.Lineno ≤ l'.lineno + 1 ∧ 1 ≤ e.Colno
      ∧ AtLineEnd l'.input
  | .throw _ _ => False
  | .fault _ => True
  | .outOfFuel => False

/-- The result of a parse that follows a line with the diagnostic `d`. -/
def resumeAfter (d : ParseError) : Res (Option ParseErrors) → Res (Option ParseErrors)
  | .ok none l => .ok (some [d]) l
  | .ok (some es) l => .ok (some (d :: es)) l
  | r => r

/-- The diagnostics collected so far, put before those of the result. -/
def Res.prepend (e0 : ParseErrors) : Res ParseErrors → Res ParseErrors
  | .ok es l => .ok (e0 ++ es) l
  | r => r

/-! ## Lemmas -/

/-! ## Cursor primitives -/

theorem skipLoop_foldl (input : Bytes) :
    ∀ (k i : Nat) (p : position), i + k ≤ input.length →
      skipLoop input k i p = ((input.drop i).take k).foldl advance p := by
  intro k
  induction k with
  | zero =>
    intro i p _
    simp [skipLoop]
  | succ k ih =>
    intro i p h
    have hi : i < input.length := by omega
    have hd : input.drop i = input.getD i 0 :: input.drop (i + 1) := by
      rw [List.drop_eq_getElem_cons hi]
      simp [List.getD_eq_getElem?_getD, List.getElem?_eq_getElem hi]
    rw [skipLoop, ih (i + 1) _ (by omega), hd]
    simp

/-- The loop of `skip` is a left fold of `advance` over the bytes consumed. -/
theorem skip_fold (n : Nat) (l : iniParse) :
    skip n l
      = { l with
          toposition := (l.input.take (if n > l.input.length then l.input.length else n)).foldl
            advance l.toposition,
          input := l.input.drop (if n > l.input.length then l.input.length else n) } := by
  unfold skip
  have h : 0 + (if n > l.input.length then l.input.length else n) ≤ l.input.length := by
    split <;> omega
  have e := skipLoop_foldl l.input _ 0 l.toposition h
  simp only [List.drop_zero] at e
  simp only [e]

theorem skip_front (p : position) (a b f : Bytes) (sec : Option IniSection) (calls : List Call) :
    skip a.length ⟨p, a ++ b, f, sec, calls⟩ = ⟨posAfter p a, b, f, sec, calls⟩ := by
  simp [skip_fold, posAfter]

theorem skip_past (p : position) (a f : Bytes) (sec : Option IniSection) (calls : List Call)
    (n : Nat) (h : a.length ≤ n) :
    skip n ⟨p, a, f, sec, calls⟩ = ⟨posAfter p a, [], f, sec, calls⟩ := by
  rw [skip_fold]
  unfold posAfter
  by_cases h' : n > a.length
  · simp [h']
  · have hn : n = a.length := by
      simp only [gt_iff_lt, not_lt] at h'
      omega
    subst hn
    simp

theorem skip_zero (l : iniParse) : skip 0 l = l := by
  simp [skip_fold]

theorem skip_one (p : position) (c : Nat) (b f : Bytes) (sec : Option IniSection)
    (calls : List Call) :
    skip 1 ⟨p, c :: b, f, sec, calls⟩ = ⟨advance p c, b, f, sec, calls⟩ := by
  simp [skip_fold]

theorem posAfter_append (p : position) (a b : Bytes) :
    posAfter p (a ++ b) = posAfter (posAfter p a) b := by
  simp [posAfter]

theorem posAfter_nil (p : position) : posAfter p [] = p := rfl

theorem posAfter_cons (p : position) (c : Nat) (a : Bytes) :
    posAfter p (c :: a) = posAfter (advance p c) a := rfl

theorem posAfter_line (ln col : Nat) (w : Bytes) (h : 10 ∉ w) :
    posAfter ⟨ln, col⟩ w = ⟨ln, colFold col w⟩ := by
  induction w generalizing col with
  | nil => rfl
  | cons c t ih =>
    have hc : c ≠ 10 := fun e => h (by simp [e])
    have ht : 10 ∉ t := fun e => h (by simp [e])
    simp only [posAfter_cons, colFold, List.foldl_cons]
    by_cases h9 : c = 9
    · have e : col + (8 - col % 8) = 8 * (col / 8 + 1) := by omega
      simp [advance, h9, tabwidth, e, ih _ ht, colFold]
    · simp [advance, hc, h9, ih _ ht, colFold]

theorem posAfter_newline (p : position) : advance p 10 = ⟨p.lineno + 1, 0⟩ := by
  simp [advance]

/-! ## Character classes -/

theorem isAlpha_iff (c : Nat) : isAlpha (c : Int) = true ↔ IsLetter c := by
  unfold isAlpha clearBit5 IsLetter
  simp only [decide_eq_true_eq]
  omega

theorem isKeyChar_iff (c : Nat) : isKeyChar (c : Int) = true ↔ IsKeyByte c := by
  have h := isAlpha_iff c
  unfold isKeyChar IsKeyByte
  simp only [Bool.or_eq_true, decide_eq_true_eq, h]
  unfold IsLetter
  omega

theorem isAlpha_eof : isAlpha eofRune = false := by decide

/-! ## Counting loops -/

theorem countWhile_front (fn : Int → Bool) (a b : Bytes)
    (ha : ∀ c ∈ a, fn (c : Int) = true) (hb : ∀ c ∈ b.head?, fn (c : Int) = false) :
    countWhile fn (a ++ b) = a.length := by
  induction a with
  | nil =>
    cases b with
    | nil => rfl
    | cons c t => simp [countWhile, hb c (by simp)]
  | cons x t ih =>
    have hx := ha x (by simp)
    have ht : ∀ c ∈ t, fn (c : Int) = true := fun c hc => ha c (by simp [hc])
    simp [countWhile, hx, ih ht]

theorem skipWS_snd (l : iniParse) :
    (skipWS l).2 = skip (countWhile (fun r => r = 32 || r = 9) l.input) l := by
  unfold skipWS skipWhile
  by_cases h : countWhile (fun r => r = 32 || r = 9) l.input > 0
  · simp [h]
  · have h0 : countWhile (fun r => r = 32 || r = 9) l.input = 0 := by omega
    simp [h0, skip_zero]

theorem skipWS_blanks (p : position) (w rest f : Bytes) (sec : Option IniSection)
    (calls : List Call) (hw : IsBlanks w) (hr : NoLeadingBlank rest) :
    (skipWS ⟨p, w ++ rest, f, sec, calls⟩).2 = ⟨posAfter p w, rest, f, sec, calls⟩ := by
  rw [skipWS_snd]
  have hc : countWhile (fun r => r = 32 || r = 9) (w ++ rest) = w.length := by
    apply countWhile_front
    · intro c hc
      rcases hw c hc with h | h <;> simp [h]
    · intro c hc
      have := hr c hc
      simp only [Bool.or_eq_false_iff, decide_eq_false_iff_not]
      omega
  simp only [hc]
  exact skip_front p w rest f sec calls

theorem match_hit (p : position) (c : Nat) (rest f : Bytes) (sec : Option IniSection)
    (calls : List Call) :
    match_ [c] ⟨p, c :: rest, f, sec, calls⟩ = (true, ⟨advance p c, rest, f, sec, calls⟩) := by
  simp [match_, skip_fold]

theorem match_miss (c : Nat) (l : iniParse) (h : l.input.head? ≠ some c) :
    match_ [c] l = (false, l) := by
  unfold match_
  cases hi : l.input with
  | nil => simp
  | cons x t =>
    have hx : x ≠ c := by
      intro e
      apply h
      simp [hi, e]
    simp [hx]

theorem take_front (p : position) (a b f : Bytes) (sec : Option IniSection) (calls : List Call) :
    take a.length ⟨p, a ++ b, f, sec, calls⟩ = .ok a ⟨posAfter p a, b, f, sec, calls⟩ := by
  unfold take
  simp [skip_front]

theorem getKey_front (p : position) (k rest f : Bytes) (sec : Option IniSection)
    (calls : List Call) (hk : ∀ x ∈ k, IsKeyByte x) (hr : ∀ c ∈ rest.head?, ¬ IsKeyByte c) :
    getKey ⟨p, k ++ rest, f, sec, calls⟩ = .ok k ⟨posAfter p k, rest, f, sec, calls⟩ := by
  unfold getKey takeWhile
  have hc : countWhile isKeyChar (k ++ rest) = k.length := by
    apply countWhile_front
    · intro c hc
      exact (isKeyChar_iff c).2 (hk c hc)
    · intro c hc
      have := hr c hc
      cases h : isKeyChar (c : Int) with
      | false => rfl
      | true => exact absurd ((isKeyChar_iff c).1 h) this
  simp only [hc]
  exact take_front p k rest f sec calls

theorem peek_cons (p : position) (c : Nat) (rest f : Bytes) (sec : Option IniSection)
    (calls : List Call) : peek ⟨p, c :: rest, f, sec, calls⟩ = (c : Int) := rfl

theorem peek_nil (p : position) (f : Bytes) (sec : Option IniSection)
    (calls : List Call) : peek ⟨p, [], f, sec, calls⟩ = eofRune := rfl

theorem indexByte_front (c : Nat) (a rest : Bytes) (h : c ∉ a) :
    indexByte c (a ++ c :: rest) = some a.length := by
  induction a with
  | nil => simp [indexByte]
  | cons x t ih =>
    have hx : x ≠ c := fun e => h (by simp [e])
    have ht : c ∉ t := fun e => h (by simp [e])
    simp [indexByte, hx, ih ht]

theorem indexByte_none (c : Nat) (a : Bytes) (h : c ∉ a) : indexByte c a = none := by
  induction a with
  | nil => rfl
  | cons x t ih =>
    have hx : x ≠ c := fun e => h (by simp [e])
    have ht : c ∉ t := fun e => h (by simp [e])
    simp [indexByte, hx, ih ht]

theorem skipTo_line (p : position) (a rest f : Bytes) (sec : Option IniSection)
    (calls : List Call) (h : 10 ∉ a) :
    (skipTo 10 ⟨p, a ++ 10 :: rest, f, sec, calls⟩).2
      = ⟨posAfter p a, 10 :: rest, f, sec, calls⟩ := by
  unfold skipTo
  simp only [indexByte_front 10 a rest h]
  exact skip_front p a (10 :: rest) f sec calls

theorem skipTo_end (p : position) (a f : Bytes) (sec : Option IniSection)
    (calls : List Call) (h : 10 ∉ a) :
    (skipTo 10 ⟨p, a, f, sec, calls⟩).2 = ⟨posAfter p a, [], f, sec, calls⟩ := by
  unfold skipTo
  simp only [indexByte_none 10 a h]
  exact skip_past p a f sec calls a.length (le_refl _)

theorem getSection_miss (l : iniParse) (h : l.input.head? ≠ some 91) :
    getSection l = .ok none l := by
  unfold getSection
  rw [match_miss 91 l h]

theorem skipTo_stop (p : position) (a tail f : Bytes) (sec : Option IniSection)
    (calls : List Call) (h : 10 ∉ a) (ht : AtLineEnd tail) :
    (skipTo 10 ⟨p, a ++ tail, f, sec, calls⟩).2 = ⟨posAfter p a, tail, f, sec, calls⟩ := by
  cases tail with
  | nil =>
    have := skipTo_end p a f sec calls h
    simpa using this
  | cons c rest =>
    have hc : c = 10 := ht c (by simp)
    subst hc
    exact skipTo_line p a rest f sec calls h

/-- A line whose first byte after the leading blanks opens no statement:
`do1` reports "Expected section or key" at that byte and skips to the end of
the line. -/
theorem do1_stray (s : IniSink) (ln col c : Nat) (w t tail f : Bytes)
    (sec : Option IniSection) (calls : List Call) (hw : IsBlanks w)
    (hb : c ≠ 32 ∧ c ≠ 9) (hl : ¬ IsLetter c) (hc : c ≠ 91 ∧ c ≠ 35 ∧ c ≠ 59 ∧ c ≠ 10)
    (ht : 10 ∉ t) (htail : AtLineEnd tail) :
    do1 s ⟨⟨ln, col⟩, w ++ (c :: t ++ tail), f, sec, calls⟩
      = .ok (some ⟨f, ln + 1, colFold col w + 1, bytes "Expected section or key"⟩)
          ⟨posAfter ⟨ln, colFold col w⟩ (c :: t), tail, f, sec, calls⟩ := by
  have hw10 : 10 ∉ w := by
    intro h
    have := hw 10 h
    omega
  have hws := skipWS_blanks ⟨ln, col⟩ w (c :: t ++ tail) f sec calls hw
    (by intro x hx; simp at hx; omega)
  rw [posAfter_line ln col w hw10] at hws
  have hal : isAlpha (c : Int) = false := by
    cases h : isAlpha (c : Int) with
    | false => rfl
    | true => exact absurd ((isAlpha_iff c).1 h) hl
  have hline : 10 ∉ c :: t := by
    simp only [List.mem_cons, not_or]
    exact ⟨fun e => hc.2.2.2 e.symm, ht⟩
  have hskip := skipTo_stop ⟨ln, colFold col w⟩ (c :: t) tail f sec calls hline htail
  unfold do1 do1Body
  simp only [hws]
  rw [getSection_miss _ (by simp; omega)]
  simp only [List.cons_append, peek_cons, hal]
  have h1 : ¬ ((c : Int) = 35 ∨ (c : Int) = 59 ∨ (c : Int) = 10) := by omega
  simp only [Bool.false_eq_true, if_false, h1, throw, throwAt]
  simp only [List.cons_append] at hskip
  rw [hskip]

/-- An empty line: `do1` consumes the newline and reports nothing. -/
theorem do1_newline (s : IniSink) (p : position) (rest f : Bytes)
    (sec : Option IniSection) (calls : List Call) :
    do1 s ⟨p, 10 :: rest, f, sec, calls⟩
      = .ok none ⟨⟨p.lineno + 1, 0⟩, rest, f, sec, calls⟩ := by
  have hws := skipWS_blanks p [] (10 :: rest) f sec calls
    (by intro x hx; simp at hx) (by intro x hx; simp at hx; omega)
  simp only [List.nil_append, posAfter_nil] at hws
  have hskip := skipTo_line p [] rest f sec calls (by simp)
  simp only [List.nil_append, posAfter_nil] at hskip
  unfold do1 do1Body
  simp only [hws]
  rw [getSection_miss _ (by simp)]
  have hal : isAlpha ((10 : Nat) : Int) = false := by decide
  simp only [peek_cons, hal, hskip, skip_one, posAfter_newline]
  simp

theorem doLoop_done (s : IniSink) (fuel : Nat) (p : position) (f : Bytes)
    (sec : Option IniSection) (calls : List Call) (err : ParseErrors) :
    doLoop s fuel ⟨p, [], f, sec, calls⟩ err = .ok err ⟨p, [], f, sec, calls⟩ := by
  cases fuel <;> simp [doLoop]

theorem doLoop_some (s : IniSink) (fuel : Nat) (l l' : iniParse) (e : ParseError)
    (err : ParseErrors) (hl : l.input ≠ []) (h : do1 s l = .ok (some e) l') :
    doLoop s (fuel + 1) l err = doLoop s fuel l' (err ++ [e]) := by
  have hpos : l.input.length > 0 := List.length_pos.2 hl
  simp [doLoop, hpos, h]

theorem doLoop_none (s : IniSink) (fuel : Nat) (l l' : iniParse)
    (err : ParseErrors) (hl : l.input ≠ []) (h : do1 s l = .ok none l') :
    doLoop s (fuel + 1) l err = doLoop s fuel l' err := by
  have hpos : l.input.length > 0 := List.length_pos.2 hl
  simp [doLoop, hpos, h]

/-- The result of `do` read off the result of its loop. -/
theorem do_of_loop (s : IniSink) (l l' : iniParse) (err : ParseErrors)
    (h : doLoop s l.input.length l [] = .ok err l') :
    (do_ s l).result = some (if err = [] then none else some err, l'.calls) := by
  unfold do_
  rw [h]
  cases err <;> simp [Res.result]

theorem stray_lines_loop (s : IniSink) (f : Bytes) (sec : Option IniSection)
    (calls : List Call) (lines : List Bytes) (hl : ∀ x ∈ lines, IsStrayLine x) :
    ∀ (fuel ln : Nat) (err : ParseErrors), (joinLines lines).length ≤ fuel →
      doLoop s fuel ⟨⟨ln, 0⟩, joinLines lines, f, sec, calls⟩ err
        = .ok (err ++ (List.range lines.length).map
                (fun i => ⟨f, ln + i + 1, 1, bytes "Expected section or key"⟩))
            ⟨⟨ln + lines.length, 0⟩, [], f, sec, calls⟩ := by
  induction lines with
  | nil =>
    intro fuel ln err _
    simp [joinLines, doLoop_done]
  | cons line more ih =>
    intro fuel ln err hfuel
    have hline := hl line (by simp)
    have hmore : ∀ x ∈ more, IsStrayLine x := fun x hx => hl x (by simp [hx])
    cases line with
    | nil => exact absurd hline (by simp [IsStrayLine])
    | cons c t =>
      simp only [IsStrayLine, List.mem_cons, not_or] at hline
      obtain ⟨h32, h9, hlet, h91, h35, h59, h10, ht⟩ := hline
      simp only [joinLines, List.cons_append, List.length_cons, List.length_append] at hfuel ⊢
      obtain ⟨fuel2, rfl⟩ : ∃ k, fuel = k + 1 + 1 := ⟨fuel - 2, by omega⟩
      have h1 := do1_stray s ln 0 c [] t (10 :: joinLines more) f sec calls
        (by intro x hx; simp at hx) ⟨h32, h9⟩ hlet ⟨h91, h35, h59, fun e => h10 e.symm⟩ ht
        (by intro x hx; simp at hx; exact hx.symm)
      simp only [List.nil_append, List.cons_append, colFold, List.foldl_nil] at h1
      rw [doLoop_some s _ _ _ _ _ (by simp) h1,
        doLoop_none s _ _ _ _ (by simp) (do1_newline s _ _ f sec calls)]
      have hp : (posAfter ⟨ln, 0⟩ (c :: t)).lineno = ln := by
        rw [posAfter_line ln 0 (c :: t) (by simp [ht]; exact h10)]
      rw [hp, ih hmore fuel2 (ln + 1) _ (by omega)]
      have hr : List.range (more.length + 1) = 0 :: (List.range more.length).map (· + 1) := by
        rw [List.range_succ_eq_map]
      simp only [List.length_cons, hr, List.map_cons, List.map_map, List.append_assoc,
        List.singleton_append]
      have e1 : ln + 1 + more.length = ln + (more.length + 1) := by omega
      rw [e1]
      congr 3
      apply List.map_congr_left
      intro i _
      simp only [Function.comp]
      have e2 : ln + 1 + i + 1 = ln + (i + 1) + 1 := by omega
      rw [e2]

/-! ## The scan loop of `getValue`

Each lemma describes one turn of the loop at index `i` of a buffer split as
`pre ++ c :: post` with `i = len(pre)`. -/

theorem getD_at (pre : Bytes) (c : Nat) (post : Bytes) :
    (pre ++ c :: post).getD pre.length 0 = c := by
  induction pre with
  | nil => rfl
  | cons x t ih => simpa [List.getD_cons_succ] using ih

theorem lt_at (pre : Bytes) (c : Nat) (post : Bytes) :
    pre.length < (pre ++ c :: post).length := by
  simp

/-- A byte copied as it stands: not a backslash, quote or newline, and not a
comment marker unless inside quotes. -/
theorem getValueLoop_copy (fuel i : Nat) (p : position) (inp pre : Bytes) (c : Nat)
    (post f : Bytes) (sec : Option IniSection) (calls : List Call) (ret : Bytes)
    (inquote : Bool) (hin : inp = pre ++ c :: post) (hi : i = pre.length)
    (hc : c ≠ 92 ∧ c ≠ 34 ∧ c ≠ 10) (hq : inquote = true ∨ (c ≠ 35 ∧ c ≠ 59)) :
    getValueLoop (fuel + 1) ⟨p, inp, f, sec, calls⟩ i ret false inquote
      = getValueLoop fuel ⟨p, inp, f, sec, calls⟩ (i + 1) (ret ++ [c]) false inquote := by
  subst hin hi
  rw [getValueLoop]
  simp only [lt_at, if_true, getD_at]
  have h1 : ¬ ((c : Int) = 92) := by omega
  have h2 : ¬ ((c : Int) = 34) := by omega
  have h3 : ¬ ((c : Int) = 10 ∨ (c : Int) = eofRune) := by
    unfold eofRune
    omega
  have h4 : ¬ ((!inquote) = true ∧ ((c : Int) = 35 ∨ (c : Int) = 59)) := by
    rcases hq with h | h
    · simp [h]
    · intro hh
      omega
  simp only [Bool.false_eq_true, if_false, h1, h2, h3, h4, Int.toNat_ofNat]

theorem getValueLoop_backslash (fuel i : Nat) (p : position) (inp pre : Bytes)
    (post f : Bytes) (sec : Option IniSection) (calls : List Call) (ret : Bytes)
    (inquote : Bool) (hin : inp = pre ++ 92 :: post) (hi : i = pre.length) :
    getValueLoop (fuel + 1) ⟨p, inp, f, sec, calls⟩ i ret false inquote
      = getValueLoop fuel ⟨p, inp, f, sec, calls⟩ (i + 1) ret true inquote := by
  subst hin hi
  rw [getValueLoop]
  simp only [lt_at, if_true, getD_at]
  simp

theorem getValueLoop_quote (fuel i : Nat) (p : position) (inp pre : Bytes)
    (post f : Bytes) (sec : Option IniSection) (calls : List Call) (ret : Bytes)
    (inquote : Bool) (hin : inp = pre ++ 34 :: post) (hi : i = pre.length) :
    getValueLoop (fuel + 1) ⟨p, inp, f, sec, calls⟩ i ret false inquote
      = getValueLoop fuel ⟨p, inp, f, sec, calls⟩ (i + 1) ret false (!inquote) := by
  subst hin hi
  rw [getValueLoop]
  simp only [lt_at, if_true, getD_at]
  simp

/-- The decoding of the byte after a backslash, for the five escapes that
`getValue` accepts. -/
theorem getValueLoop_escaped (fuel i : Nat) (p : position) (inp pre : Bytes) (c d : Nat)
    (post f : Bytes) (sec : Option IniSection) (calls : List Call) (ret : Bytes)
    (inquote : Bool) (hin : inp = pre ++ c :: post) (hi : i = pre.length)
    (h : (c = 34 ∧ d = 34) ∨ (c = 92 ∧ d = 92) ∨ (c = 110 ∧ d = 10)
      ∨ (c = 116 ∧ d = 9) ∨ (c = 98 ∧ d = 8)) :
    getValueLoop (fuel + 1) ⟨p, inp, f, sec, calls⟩ i ret true inquote
      = getValueLoop fuel ⟨p, inp, f, sec, calls⟩ (i + 1) (ret ++ [d]) false inquote := by
  subst hin hi
  rw [getValueLoop]
  simp only [lt_at, if_true, getD_at]
  rcases h with ⟨rfl, rfl⟩ | ⟨rfl, rfl⟩ | ⟨rfl, rfl⟩ | ⟨rfl, rfl⟩ | ⟨rfl, rfl⟩ <;>
    norm_num <;> rfl

/-- An unquoted newline ends the value and is consumed with it. -/
theorem getValueLoop_newline (fuel i : Nat) (p : position) (inp pre : Bytes)
    (post f : Bytes) (sec : Option IniSection) (calls : List Call) (ret : Bytes)
    (hin : inp = pre ++ 10 :: post) (hi : i = pre.length) :
    getValueLoop (fuel + 1) ⟨p, inp, f, sec, calls⟩ i ret false false
      = .ok ret ⟨posAfter p (pre ++ [10]), post, f, sec, calls⟩ := by
  subst hin hi
  rw [getValueLoop]
  simp only [lt_at, if_true, getD_at]
  have hs := skip_front p (pre ++ [10]) post f sec calls
  simp only [List.length_append, List.length_singleton, List.append_assoc,
    List.singleton_append] at hs
  norm_num [eofRune]
  exact hs

/-- The end of the buffer outside quotes ends the value. -/
theorem getValueLoop_eof (fuel : Nat) (p : position) (inp f : Bytes)
    (sec : Option IniSection) (calls : List Call) (ret : Bytes) (i : Nat)
    (hi : inp.length ≤ i) :
    getValueLoop (fuel + 1) ⟨p, inp, f, sec, calls⟩ i ret false false
      = .ok ret ⟨posAfter p inp, [], f, sec, calls⟩ := by
  rw [getValueLoop]
  have h : ¬ (i < inp.length) := by omega
  simp only [h, if_false]
  simp [eofRune, skip_past p inp f sec calls (i + 1) (by omega)]

/-- A run of bytes that are copied as they stand. -/
theorem getValueLoop_run (seg : Bytes) (inquote : Bool)
    (hseg : ∀ c ∈ seg, (c ≠ 92 ∧ c ≠ 34 ∧ c ≠ 10) ∧ (inquote = true ∨ (c ≠ 35 ∧ c ≠ 59))) :
    ∀ (fuel k i : Nat) (p : position) (inp pre post f : Bytes) (sec : Option IniSection)
      (calls : List Call) (ret : Bytes), inp = pre ++ (seg ++ post) → i = pre.length →
      fuel = k + seg.length →
      getValueLoop fuel ⟨p, inp, f, sec, calls⟩ i ret false inquote
        = getValueLoop k ⟨p, inp, f, sec, calls⟩ (i + seg.length) (ret ++ seg)
            false inquote := by
  induction seg with
  | nil =>
    intro fuel k i p inp pre post f sec calls ret _ _ hf
    simp at hf
    simp [hf]
  | cons c t ih =>
    intro fuel k i p inp pre post f sec calls ret hin hi hf
    have hc := hseg c (by simp)
    have ht : ∀ x ∈ t, (x ≠ 92 ∧ x ≠ 34 ∧ x ≠ 10) ∧ (inquote = true ∨ (x ≠ 35 ∧ x ≠ 59)) :=
      fun x hx => hseg x (by simp [hx])
    have e1 : fuel = (k + t.length) + 1 := by
      simp only [List.length_cons] at hf
      omega
    rw [e1, getValueLoop_copy _ i p inp pre c (t ++ post) f sec calls ret inquote
      (by simpa using hin) hi hc.1 hc.2]
    rw [ih ht (k + t.length) k (i + 1) p inp (pre ++ [c]) post f sec calls (ret ++ [c])
      (by simpa using hin) (by simp [hi]) rfl]
    have e4 : i + 1 + t.length = i + (c :: t).length := by
      simp only [List.length_cons]
      omega
    rw [e4]
    simp

/-- The escaped text of `s` inside quotes is decoded back to `s`. -/
theorem getValueLoop_escBody (s : Bytes) :
    ∀ (fuel k i : Nat) (p : position) (inp pre post f : Bytes) (sec : Option IniSection)
      (calls : List Call) (ret : Bytes), inp = pre ++ (escBody s ++ post) → i = pre.length →
      fuel = k + (escBody s).length →
      getValueLoop fuel ⟨p, inp, f, sec, calls⟩ i ret false true
        = getValueLoop k ⟨p, inp, f, sec, calls⟩ (i + (escBody s).length) (ret ++ s)
            false true := by
  induction s with
  | nil =>
    intro fuel k i p inp pre post f sec calls ret _ _ hf
    simp [escBody] at hf
    simp [hf, escBody]
  | cons c t ih =>
    intro fuel k i p inp pre post f sec calls ret hin hi hf
    by_cases hesc : c = 34 ∨ c = 92 ∨ c = 10 ∨ c = 9 ∨ c = 8
    · obtain ⟨x, d, hx, hxd⟩ : ∃ x d, escByte c = [92, x] ∧ d = c ∧
          ((x = 34 ∧ d = 34) ∨ (x = 92 ∧ d = 92) ∨ (x = 110 ∧ d = 10)
            ∨ (x = 116 ∧ d = 9) ∨ (x = 98 ∧ d = 8)) := by
        rcases hesc with h | h | h | h | h <;> subst h <;> simp [escByte]
      obtain ⟨hd, hxd⟩ := hxd
      subst hd
      simp only [escBody, hx, List.cons_append, List.nil_append, List.length_cons] at hin hf ⊢
      have e1 : fuel = ((k + (escBody t).length) + 1) + 1 := by omega
      rw [e1, getValueLoop_backslash _ i p inp pre (x :: (escBody t ++ post)) f sec calls ret
        true hin hi]
      rw [getValueLoop_escaped _ (i + 1) p inp (pre ++ [92]) x d (escBody t ++ post) f sec
        calls ret true (by simpa using hin) (by simp [hi]) hxd]
      rw [ih (k + (escBody t).length) k (i + 1 + 1) p inp (pre ++ [92, x]) post f sec calls
        (ret ++ [d]) (by simpa using hin) (by simp [hi]) rfl]
      have e4 : i + 1 + 1 + (escBody t).length = i + ((escBody t).length + 1 + 1) := by omega
      rw [e4]
      simp
    · have hx : escByte c = [c] := by
        simp only [not_or] at hesc
        simp [escByte, hesc]
      simp only [escBody, hx, List.cons_append, List.nil_append, List.length_cons] at hin hf ⊢
      simp only [not_or] at hesc
      have e1 : fuel = (k + (escBody t).length) + 1 := by omega
      rw [e1, getValueLoop_copy _ i p inp pre c (escBody t ++ post) f sec calls ret true
        hin hi ⟨hesc.2.1, hesc.1, hesc.2.2.1⟩ (Or.inl rfl)]
      rw [ih (k + (escBody t).length) k (i + 1) p inp (pre ++ [c]) post f sec calls
        (ret ++ [c]) (by simpa using hin) (by simp [hi]) rfl]
      have e4 : i + 1 + (escBody t).length = i + ((escBody t).length + 1) := by omega
      rw [e4]
      simp

/-- An unquoted value free of backslash, quote, comment marker and newline is
returned as it stands, and the newline that ends it is consumed. -/
theorem getValue_plain (p : position) (v tail f : Bytes) (sec : Option IniSection)
    (calls : List Call) (hv : IsPlainValue v) (ht : AtLineEnd tail) :
    getValue ⟨p, v ++ tail, f, sec, calls⟩
      = .ok v ⟨posAfter p (v ++ tail.take 1), tail.drop 1, f, sec, calls⟩ := by
  have hseg : ∀ c ∈ v, (c ≠ 92 ∧ c ≠ 34 ∧ c ≠ 10) ∧ (false = true ∨ (c ≠ 35 ∧ c ≠ 59)) := by
    intro c hc
    have := hv c hc
    exact ⟨⟨this.1, this.2.1, this.2.2.2.2⟩, Or.inr ⟨this.2.2.1, this.2.2.2.1⟩⟩
  unfold getValue
  cases tail with
  | nil =>
    have hlen : (v ++ ([] : Bytes)).length + 1 = (0 + 1) + v.length := by
      simp only [List.append_nil]
      omega
    simp only [hlen]
    rw [getValueLoop_run v false hseg _ (0 + 1) 0 p (v ++ []) [] [] f sec calls []
      (by simp) rfl rfl]
    rw [getValueLoop_eof 0 p (v ++ []) f sec calls _ _ (by simp)]
    simp
  | cons c rest =>
    have hc : c = 10 := ht c (by simp)
    subst hc
    have hlen : (v ++ 10 :: rest).length + 1 = ((rest.length + 1) + 1) + v.length := by
      simp only [List.length_append, List.length_cons]
      omega
    simp only [hlen]
    rw [getValueLoop_run v false hseg _ ((rest.length + 1) + 1) 0 p (v ++ 10 :: rest) []
      (10 :: rest) f sec calls [] (by simp) rfl rfl]
    rw [getValueLoop_newline _ _ p (v ++ 10 :: rest) v rest f sec calls _ rfl (by simp)]
    simp

/-- The branch of `do1` for a line that starts with a key: after the leading
blanks `w1` and the key `k`, the statement goes on in `do1KeyValue`. -/
theorem do1Body_key (s : IniSink) (ln col : Nat) (w1 k rest f : Bytes)
    (sec : Option IniSection) (calls : List Call) (hw1 : IsBlanks w1) (hk : IsKey k)
    (hr : ∀ c ∈ rest.head?, ¬ IsKeyByte c) :
    do1Body s ⟨⟨ln, col⟩, w1 ++ (k ++ rest), f, sec, calls⟩
      = do1KeyValue s ⟨ln, colFold col w1⟩ k
          ⟨posAfter ⟨ln, colFold col w1⟩ k, rest, f, sec, calls⟩ := by
  cases k with
  | nil => exact absurd hk (by simp [IsKey])
  | cons c t =>
    simp only [IsKey] at hk
    obtain ⟨hc, ht⟩ := hk
    have hw10 : 10 ∉ w1 := by
      intro h
      have := hw1 10 h
      omega
    have hcl : c ≠ 32 ∧ c ≠ 9 ∧ c ≠ 91 := by
      unfold IsLetter at hc
      omega
    have hws := skipWS_blanks ⟨ln, col⟩ w1 (c :: t ++ rest) f sec calls hw1
      (by intro x hx; simp at hx; omega)
    rw [posAfter_line ln col w1 hw10] at hws
    have hkb : ∀ x ∈ c :: t, IsKeyByte x := by
      intro x hx
      rcases List.mem_cons.1 hx with h | h
      · subst h
        exact Or.inl hc
      · exact ht x h
    have hkey := getKey_front ⟨ln, colFold col w1⟩ (c :: t) rest f sec calls hkb hr
    unfold do1Body
    simp only [hws]
    rw [getSection_miss _ (by simp; omega)]
    simp only [List.cons_append] at hkey ⊢
    simp only [peek_cons, (isAlpha_iff c).2 hc, if_true, hkey]

theorem deliverValue_accept (s : IniSink) (keypos valpos p : position) (k v inp f : Bytes)
    (sec : Option IniSection) (calls : List Call) (h : s.Value calls sec k v = none) :
    deliverValue s keypos valpos k v ⟨p, inp, f, sec, calls⟩
      = .ok () ⟨p, inp, f, sec, calls ++ [Call.Value sec k v]⟩ := by
  simp [deliverValue, callValue, h]

theorem deliverValue_badKey (s : IniSink) (keypos valpos p : position) (k v inp f : Bytes)
    (sec : Option IniSection) (calls : List Call) (m : Bytes)
    (h : s.Value calls sec k v = some (.BadKey m)) :
    deliverValue s keypos valpos k v ⟨p, inp, f, sec, calls⟩
      = .throw ⟨f, keypos.lineno + 1, keypos.colno + 1, m⟩
          ⟨p, inp, f, sec, calls ++ [Call.Value sec k v]⟩ := by
  simp [deliverValue, callValue, h, throwAt]

theorem deliverValue_reject (s : IniSink) (keypos valpos p : position) (k v inp f : Bytes)
    (sec : Option IniSection) (calls : List Call) (e : SinkError)
    (h : s.Value calls sec k v = some e) (hk : ∀ m, e ≠ .BadKey m) :
    deliverValue s keypos valpos k v ⟨p, inp, f, sec, calls⟩
      = .throw ⟨f, valpos.lineno + 1, valpos.colno + 1, e.Error⟩
          ⟨p, inp, f, sec, calls ++ [Call.Value sec k v]⟩ := by
  cases e with
  | BadKey m => exact absurd rfl (hk m)
  | BadValue m => simp [deliverValue, callValue, h, throwAt]
  | other m => simp [deliverValue, callValue, h, throwAt]

theorem noLeadingBlank_value (v tail : Bytes) (hv : NoLeadingBlank v) (ht : AtLineEnd tail) :
    NoLeadingBlank (v ++ tail) := by
  cases v with
  | nil =>
    intro c hc
    have := ht c (by simpa using hc)
    omega
  | cons x t =>
    intro c hc
    exact hv c (by simpa using hc)

/-- The branch of `do1KeyValue` with an '=': after the blanks `w2`, the '='
and the blanks `w3`, the plain value `v` is lexed up to the end of the line
and delivered with the position recorded just before it. -/
theorem do1KeyValue_assign (s : IniSink) (keypos p : position) (k w2 w3 v tail f : Bytes)
    (sec : Option IniSection) (calls : List Call) (hw2 : IsBlanks w2) (hw3 : IsBlanks w3)
    (hv : IsPlainValue v) (hv0 : NoLeadingBlank v) (ht : AtLineEnd tail) :
    do1KeyValue s keypos k ⟨p, w2 ++ 61 :: (w3 ++ (v ++ tail)), f, sec, calls⟩
      = deliverValue s keypos (posAfter p (w2 ++ 61 :: w3)) k v
          ⟨posAfter p (w2 ++ 61 :: (w3 ++ (v ++ tail.take 1))), tail.drop 1, f, sec, calls⟩ := by
  have h1 := skipWS_blanks p w2 (61 :: (w3 ++ (v ++ tail))) f sec calls hw2
    (by intro x hx; simp at hx; omega)
  have h2 := match_hit (posAfter p w2) 61 (w3 ++ (v ++ tail)) f sec calls
  have h3 := skipWS_blanks (advance (posAfter p w2) 61) w3 (v ++ tail) f sec calls hw3
    (noLeadingBlank_value v tail hv0 ht)
  have h4 := getValue_plain (posAfter (advance (posAfter p w2) 61) w3) v tail f sec calls hv ht
  unfold do1KeyValue
  simp only [h1, h2, h3, h4, posAfter_append, posAfter_cons]

/-- The branch of `do1KeyValue` without '=': when the byte after the blanks
`w` is a newline, a comment marker or the end of the buffer, the empty value
is delivered and nothing more is consumed. -/
theorem do1KeyValue_bare (s : IniSink) (keypos p : position) (k w tail f : Bytes)
    (sec : Option IniSection) (calls : List Call) (hw : IsBlanks w)
    (ht : ∀ c ∈ tail.head?, c = 10 ∨ c = 35 ∨ c = 59) :
    do1KeyValue s keypos k ⟨p, w ++ tail, f, sec, calls⟩
      = deliverValue s keypos (posAfter p w) k []
          ⟨posAfter p w, tail, f, sec, calls⟩ := by
  have h1 := skipWS_blanks p w tail f sec calls hw
    (by intro x hx; have := ht x hx; omega)
  have h2 : match_ [61] ⟨posAfter p w, tail, f, sec, calls⟩
      = (false, ⟨posAfter p w, tail, f, sec, calls⟩) := by
    apply match_miss
    intro h
    have := ht 61 (by simpa using h)
    omega
  unfold do1KeyValue
  simp only [h1, h2]
  cases tail with
  | nil => simp [peek_nil]
  | cons c rest =>
    have := ht c (by simp)
    have hc : ¬ ((c : Int) ≠ 10 ∧ (c : Int) ≠ 35 ∧ (c : Int) ≠ 59 ∧ (c : Int) ≠ eofRune) := by
      unfold eofRune
      omega
    simp only [peek_cons, hc, if_false]

/-- The branch of `do1KeyValue` without '=' when the byte after the blanks
`w` is none of newline, '#', ';': the statement is refused at that byte. -/
theorem do1KeyValue_noAssign (s : IniSink) (keypos p : position) (k w : Bytes) (c : Nat)
    (tail f : Bytes) (sec : Option IniSection) (calls : List Call) (hw : IsBlanks w)
    (hc : c ≠ 61 ∧ c ≠ 10 ∧ c ≠ 35 ∧ c ≠ 59) (hb : c ≠ 32 ∧ c ≠ 9) :
    do1KeyValue s keypos k ⟨p, w ++ c :: tail, f, sec, calls⟩
      = .throw ⟨f, (posAfter p w).lineno + 1, (posAfter p w).colno + 1,
            bytes "Expected '=' after " ++ k⟩
          ⟨posAfter p w, c :: tail, f, sec, calls⟩ := by
  have h1 := skipWS_blanks p w (c :: tail) f sec calls hw
    (by intro x hx; simp at hx; omega)
  have h2 : match_ [61] ⟨posAfter p w, c :: tail, f, sec, calls⟩
      = (false, ⟨posAfter p w, c :: tail, f, sec, calls⟩) := by
    apply match_miss
    simp
    omega
  have h3 : (c : Int) ≠ 10 ∧ (c : Int) ≠ 35 ∧ (c : Int) ≠ 59 ∧ (c : Int) ≠ eofRune := by
    unfold eofRune
    omega
  unfold do1KeyValue
  simp only [h1, h2, peek_cons]
  rw [if_pos h3]
  rfl

/-! ## Section headers -/

theorem getElem?_at (pre : Bytes) (c : Nat) (post : Bytes) :
    (pre ++ c :: post)[pre.length]? = some c := by
  induction pre with
  | nil => simp
  | cons x t ih => simpa using ih

theorem quoteBody_length_le (s : Bytes) : s.length ≤ (quoteBody s).length := by
  induction s with
  | nil => simp [quoteBody]
  | cons c t ih =>
    by_cases h : c = 34 ∨ c = 92
    · simp only [quoteBody, h, if_true, List.length_cons]
      omega
    · simp only [quoteBody, h, if_false, List.length_cons]
      omega

/-- The scan loop of `getSubsection` over the quoted text of `s`, when the
closing quote is not the last byte of the buffer: it stops at the closing
quote with `s` decoded. -/
theorem getSubsectionLoop_quoteBody (s : Bytes) (hs : ∀ c ∈ s, c ≠ 0 ∧ c ≠ 10) :
    ∀ (fuel i : Nat) (inp pre post ret : Bytes), inp = pre ++ (quoteBody s ++ 34 :: post) →
      post ≠ [] → i = pre.length → s.length + 1 ≤ fuel →
      getSubsectionLoop inp fuel i ret = .exit (i + (quoteBody s).length) (ret ++ s) := by
  induction s with
  | nil =>
    intro fuel i inp pre post ret hin hpost hi hf
    obtain ⟨k, rfl⟩ : ∃ k, fuel = k + 1 := ⟨fuel - 1, by omega⟩
    simp only [quoteBody, List.nil_append] at hin
    have hlen : i + 1 < inp.length := by
      have : 0 < post.length := List.length_pos.2 hpost
      simp [hin, hi]
      omega
    have hget : inp[i]? = some 34 := by
      rw [hin, hi]
      exact getElem?_at pre 34 post
    rw [getSubsectionLoop]
    simp [hlen, hget, quoteBody]
  | cons c t ih =>
    intro fuel i inp pre post ret hin hpost hi hf
    have hc := hs c (by simp)
    have ht : ∀ x ∈ t, x ≠ 0 ∧ x ≠ 10 := fun x hx => hs x (by simp [hx])
    obtain ⟨k, rfl⟩ : ∃ k, fuel = k + 1 := ⟨fuel - 1, by omega⟩
    have hk : t.length + 1 ≤ k := by
      simp only [List.length_cons] at hf
      omega
    by_cases hq : c = 34 ∨ c = 92
    · simp only [quoteBody, hq, if_true, List.cons_append, List.length_cons] at hin ⊢
      have hlen : i + 1 < inp.length := by
        simp [hin, hi]
      have hget : inp[i]? = some 92 := by
        rw [hin, hi]
        exact getElem?_at pre 92 _
      have hget2 : inp[i + 1]? = some c := by
        have e : inp = (pre ++ [92]) ++ c :: (quoteBody t ++ 34 :: post) := by simp [hin]
        have e2 : i + 1 = (pre ++ [92]).length := by simp [hi]
        rw [e, e2]
        exact getElem?_at _ c _
      rw [getSubsectionLoop]
      simp only [hlen, if_true, hget, hget2]
      have hcc : (c = 92 ∨ c = 34) := by omega
      simp only [hcc, if_true]
      rw [ih ht k (i + 1 + 1) inp (pre ++ [92, c]) post (ret ++ [c]) (by simp [hin]) hpost
        (by simp [hi]) hk]
      have e4 : i + 1 + 1 + (quoteBody t).length = i + ((quoteBody t).length + 1 + 1) := by
        omega
      simp [e4]
    · simp only [quoteBody, hq, if_false, List.cons_append, List.length_cons] at hin ⊢
      have hlen : i + 1 < inp.length := by
        simp [hin, hi]
      have hget : inp[i]? = some c := by
        rw [hin, hi]
        exact getElem?_at pre c _
      rw [getSubsectionLoop]
      simp only [hlen, if_true, hget]
      have h1 : ¬ c = 34 := by omega
      have h2 : ¬ (c = 0 ∨ c = 10) := by omega
      have h3 : ¬ c = 92 := by omega
      simp only [h1, h2, h3, if_false]
      rw [ih ht k (i + 1) inp (pre ++ [c]) post (ret ++ [c]) (by simp [hin]) hpost
        (by simp [hi]) hk]
      have e4 : i + 1 + (quoteBody t).length = i + ((quoteBody t).length + 1) := by omega
      simp [e4]

/-- A quoted subsection followed by at least one more byte is decoded and
consumed up to its closing quote. -/
theorem getSubsection_quoted (p : position) (sub post f : Bytes) (sec : Option IniSection)
    (calls : List Call) (hs : ∀ c ∈ sub, c ≠ 0 ∧ c ≠ 10) (hpost : post ≠ []) :
    getSubsection ⟨p, 34 :: (quoteBody sub ++ 34 :: post), f, sec, calls⟩
      = .ok (some sub) ⟨posAfter p (34 :: (quoteBody sub ++ [34])), post, f, sec, calls⟩ := by
  have hloop := getSubsectionLoop_quoteBody sub hs
    (34 :: (quoteBody sub ++ 34 :: post)).length 1
    (34 :: (quoteBody sub ++ 34 :: post)) [34] post [] rfl hpost rfl
    (by
      have := quoteBody_length_le sub
      simp only [List.length_cons, List.length_append]
      omega)
  have hget : (34 :: (quoteBody sub ++ 34 :: post))[1 + (quoteBody sub).length]? = some 34 := by
    have e : 34 :: (quoteBody sub ++ 34 :: post) = (34 :: quoteBody sub) ++ 34 :: post := by
      simp
    have e2 : 1 + (quoteBody sub).length = (34 :: quoteBody sub).length := by
      simp only [List.length_cons]
      omega
    rw [e, e2]
    exact getElem?_at _ 34 post
  have hskip := skip_front p (34 :: (quoteBody sub ++ [34])) post f sec calls
  have e3 : (34 :: (quoteBody sub ++ [34])).length = 1 + (quoteBody sub).length + 1 := by
    simp only [List.length_cons, List.length_append, List.length_nil]
    omega
  have e4 : 34 :: (quoteBody sub ++ [34]) ++ post = 34 :: (quoteBody sub ++ 34 :: post) := by
    simp
  rw [e3, e4] at hskip
  unfold getSubsection
  have hl2 : ¬ ((34 :: (quoteBody sub ++ 34 :: post)).length < 2) := by
    simp only [List.length_cons, List.length_append]
    omega
  simp only [hl2, if_false, List.getElem?_cons_zero, hloop, List.nil_append]
  simp only [ne_eq, not_true_eq_false, if_false, hget, hskip]

theorem skipWS_nonempty (p : position) (w rest f : Bytes) (sec : Option IniSection)
    (calls : List Call) (hw : IsBlanks w) (hne : w ≠ []) (hr : NoLeadingBlank rest) :
    skipWS ⟨p, w ++ rest, f, sec, calls⟩ = (true, ⟨posAfter p w, rest, f, sec, calls⟩) := by
  have hc : countWhile (fun r => r = 32 || r = 9) (w ++ rest) = w.length := by
    apply countWhile_front
    · intro c hc
      rcases hw c hc with h | h <;> simp [h]
    · intro c hc
      have := hr c hc
      simp only [Bool.or_eq_false_iff, decide_eq_false_iff_not]
      omega
  have hpos : w.length > 0 := List.length_pos.2 hne
  unfold skipWS skipWhile
  simp only [hc, hpos, if_true, skip_front]

theorem not_keyByte_93 : ¬ IsKeyByte 93 := by
  unfold IsKeyByte IsLetter
  omega

theorem not_keyByte_32 : ¬ IsKeyByte 32 := by
  unfold IsKeyByte IsLetter
  omega

/-- A well-formed header is lexed into its section and consumed up to and
including the closing bracket. -/
theorem getSection_header (p : position) (sec : IniSection) (rest f : Bytes)
    (cur : Option IniSection) (calls : List Call) (hwf : WellFormedStmt (.header sec)) :
    getSection ⟨p, headerText sec ++ rest, f, cur, calls⟩
      = .ok (some sec) ⟨posAfter p (headerText sec), rest, f, cur, calls⟩ := by
  obtain ⟨name, sub⟩ := sec
  simp only [WellFormedStmt] at hwf
  obtain ⟨hne, hkey, hsub⟩ := hwf
  have hlen : ¬ name.length = 0 := by
    intro h
    exact hne (List.length_eq_zero.1 h)
  cases sub with
  | none =>
    have h1 := match_hit p 91 (name ++ 93 :: rest) f cur calls
    have h2 := getKey_front (advance p 91) name (93 :: rest) f cur calls hkey
      (by intro c hc; simp at hc; subst hc; exact not_keyByte_93)
    have h3 := match_hit (posAfter (advance p 91) name) 93 rest f cur calls
    have e : headerText ⟨name, none⟩ ++ rest = 91 :: (name ++ 93 :: rest) := by
      simp [headerText]
    have ep : posAfter p (headerText ⟨name, none⟩)
        = advance (posAfter (advance p 91) name) 93 := by
      simp [headerText, posAfter_cons, posAfter_append, posAfter_nil]
    rw [e, ep]
    unfold getSection
    simp only [h1, h2, hlen, if_false, h3]
  | some sub =>
    have hs : ∀ c ∈ sub, c ≠ 0 ∧ c ≠ 10 := hsub sub rfl
    have h1 := match_hit p 91 (name ++ 32 :: 34 :: (quoteBody sub ++ 34 :: 93 :: rest)) f cur
      calls
    have h2 := getKey_front (advance p 91) name
      (32 :: 34 :: (quoteBody sub ++ 34 :: 93 :: rest)) f cur calls hkey
      (by intro c hc; simp at hc; subst hc; exact not_keyByte_32)
    have h3 : match_ [93] ⟨posAfter (advance p 91) name,
        32 :: 34 :: (quoteBody sub ++ 34 :: 93 :: rest), f, cur, calls⟩
        = (false, ⟨posAfter (advance p 91) name,
            32 :: 34 :: (quoteBody sub ++ 34 :: 93 :: rest), f, cur, calls⟩) :=
      match_miss 93 _ (by simp)
    have h4 := skipWS_nonempty (posAfter (advance p 91) name) [32]
      (34 :: (quoteBody sub ++ 34 :: 93 :: rest)) f cur calls
      (by intro c hc; simp at hc; omega) (by simp) (by intro c hc; simp at hc; omega)
    have h5 := getSubsection_quoted (posAfter (posAfter (advance p 91) name) [32]) sub
      (93 :: rest) f cur calls hs (by simp)
    have h6 := match_hit
      (posAfter (posAfter (posAfter (advance p 91) name) [32]) (34 :: (quoteBody sub ++ [34])))
      93 rest f cur calls
    simp only [List.singleton_append] at h4
    have e : headerText ⟨name, some sub⟩ ++ rest
        = 91 :: (name ++ 32 :: 34 :: (quoteBody sub ++ 34 :: 93 :: rest)) := by
      simp [headerText]
    have ep : posAfter p (headerText ⟨name, some sub⟩)
        = advance (posAfter (posAfter (posAfter (advance p 91) name) [32])
            (34 :: (quoteBody sub ++ [34]))) 93 := by
      simp [headerText, posAfter_cons, posAfter_append, posAfter_nil]
    rw [e, ep]
    unfold getSection
    simp only [h1, h2, hlen, if_false, h3, h4, h5, h6]

/-- A header line: `do1` makes the header the current section and calls the
section callback of the sink, which here returns nil. -/
theorem do1_header (s : IniSink) (p : position) (sec : IniSection) (rest f : Bytes)
    (cur : Option IniSection) (calls : List Call) (hwf : WellFormedStmt (.header sec))
    (hs : ∀ g, s.Section = some g → g calls sec = none) :
    do1 s ⟨p, headerText sec ++ rest, f, cur, calls⟩
      = .ok none ⟨posAfter p (headerText sec), rest, f, some sec,
          calls ++ sectionCall s sec⟩ := by
  have hws := skipWS_blanks p [] (headerText sec ++ rest) f cur calls
    (by intro x hx; simp at hx)
    (by
      intro x hx
      cases hsub : sec.Subsection <;> simp [headerText, hsub] at hx <;> omega)
  simp only [List.nil_append, posAfter_nil] at hws
  unfold do1 do1Body
  simp only [hws, getSection_header p sec rest f cur calls hwf]
  cases hg : s.Section with
  | none => simp [callSection, sectionCall, hg]
  | some g => simp [callSection, sectionCall, hg, hs g hg]

theorem blanks_no_newline (w : Bytes) (hw : IsBlanks w) : 10 ∉ w := by
  intro h
  have := hw 10 h
  omega

theorem keyByte_no_newline (k : Bytes) (hk : ∀ c ∈ k, IsKeyByte c) : 10 ∉ k := by
  intro h
  have := hk 10 h
  unfold IsKeyByte IsLetter at this
  omega

theorem isKey_keyBytes (k : Bytes) (hk : IsKey k) : ∀ c ∈ k, IsKeyByte c := by
  cases k with
  | nil => exact absurd hk (by simp [IsKey])
  | cons c t =>
    simp only [IsKey] at hk
    intro x hx
    rcases List.mem_cons.1 hx with h | h
    · subst h
      exact Or.inl hk.1
    · exact hk.2 x h

theorem not_keyByte_blank_or_eq (w rest : Bytes) (hw : IsBlanks w) :
    ∀ c ∈ (w ++ 61 :: rest).head?, ¬ IsKeyByte c := by
  intro c hc
  unfold IsKeyByte IsLetter
  cases w with
  | nil =>
    simp at hc
    omega
  | cons x t =>
    simp at hc
    have := hw x (by simp)
    omega

/-- A statement `w1 k w2 = w3 v` up to the end of its line: `do1` lexes the
key and the plain value and hands them to the sink, with the key position
after `w1` and the value position after `w3`. -/
theorem do1Body_assign (s : IniSink) (ln col : Nat) (w1 k w2 w3 v tail f : Bytes)
    (sec : Option IniSection) (calls : List Call) (hw1 : IsBlanks w1) (hk : IsKey k)
    (hw2 : IsBlanks w2) (hw3 : IsBlanks w3) (hv : IsPlainValue v) (hv0 : NoLeadingBlank v)
    (ht : AtLineEnd tail) :
    do1Body s ⟨⟨ln, col⟩, w1 ++ (k ++ (w2 ++ 61 :: (w3 ++ (v ++ tail)))), f, sec, calls⟩
      = deliverValue s ⟨ln, colFold col w1⟩
          ⟨ln, colFold col (w1 ++ (k ++ (w2 ++ 61 :: w3)))⟩ k v
          ⟨posAfter ⟨ln, col⟩ (w1 ++ (k ++ (w2 ++ 61 :: (w3 ++ (v ++ tail.take 1))))),
            tail.drop 1, f, sec, calls⟩ := by
  have hkb := isKey_keyBytes k hk
  have h1 := do1Body_key s ln col w1 k (w2 ++ 61 :: (w3 ++ (v ++ tail))) f sec calls hw1 hk
    (not_keyByte_blank_or_eq w2 _ hw2)
  have h2 := do1KeyValue_assign s ⟨ln, colFold col w1⟩ (posAfter ⟨ln, colFold col w1⟩ k) k w2
    w3 v tail f sec calls hw2 hw3 hv hv0 ht
  have hp1 : posAfter ⟨ln, col⟩ w1 = ⟨ln, colFold col w1⟩ :=
    posAfter_line ln col w1 (blanks_no_newline w1 hw1)
  have hn : 10 ∉ w1 ++ (k ++ (w2 ++ 61 :: w3)) := by
    have a := blanks_no_newline w1 hw1
    have b := keyByte_no_newline k hkb
    have c := blanks_no_newline w2 hw2
    have d := blanks_no_newline w3 hw3
    simp [a, b, c, d]
  have hp2 : posAfter (posAfter ⟨ln, colFold col w1⟩ k) (w2 ++ 61 :: w3)
      = ⟨ln, colFold col (w1 ++ (k ++ (w2 ++ 61 :: w3)))⟩ := by
    rw [← posAfter_line ln col _ hn, ← hp1, ← posAfter_append, ← posAfter_append]
  have hp3 : posAfter (posAfter ⟨ln, colFold col w1⟩ k)
        (w2 ++ 61 :: (w3 ++ (v ++ tail.take 1)))
      = posAfter ⟨ln, col⟩ (w1 ++ (k ++ (w2 ++ 61 :: (w3 ++ (v ++ tail.take 1))))) := by
    rw [← hp1, ← posAfter_append, ← posAfter_append]
  rw [h1, h2, hp2, hp3]

/-- A line `key=value` accepted by the sink: one `Value` call with the current
section, and the line is consumed with its newline. -/
theorem do1_keyValue_accept (s : IniSink) (p : position) (k v rest f : Bytes)
    (sec : Option IniSection) (calls : List Call) (hwf : WellFormedStmt (.keyValue k v))
    (hs : s.Value calls sec k v = none) :
    ∃ p', do1 s ⟨p, renderStmt (.keyValue k v) ++ rest, f, sec, calls⟩
      = .ok none ⟨p', rest, f, sec, calls ++ [Call.Value sec k v]⟩ := by
  obtain ⟨hk, hv, hv0⟩ := hwf
  obtain ⟨ln, col⟩ := p
  have h := do1Body_assign s ln col [] k [] [] v (10 :: rest) f sec calls
    (by intro c hc; simp at hc) hk (by intro c hc; simp at hc) (by intro c hc; simp at hc)
    hv hv0 (by intro c hc; simp at hc; exact hc.symm)
  simp only [List.nil_append, List.take_succ_cons, List.take_zero, List.drop_succ_cons,
    List.drop_zero] at h
  have e : renderStmt (.keyValue k v) ++ rest = k ++ 61 :: (v ++ 10 :: rest) := by
    simp [renderStmt]
  refine ⟨posAfter ⟨ln, col⟩ (k ++ 61 :: (v ++ [10])), ?_⟩
  unfold do1
  rw [e, h, deliverValue_accept s _ _ _ k v rest f sec calls hs]

/-- The callbacks of a well-formed document arrive in document order. -/
theorem renderDoc_loop (s : IniSink) (hs : s.Accepts) (g : List Call → IniSection → Option SinkError)
    (hg : s.Section = some g) (f : Bytes) (doc : List Stmt)
    (hwf : ∀ st ∈ doc, WellFormedStmt st) :
    ∀ (fuel : Nat) (p : position) (cur : Option IniSection) (calls : List Call)
      (err : ParseErrors), (renderDoc doc).length ≤ fuel →
      (doLoop s fuel ⟨p, renderDoc doc, f, cur, calls⟩ err).result
        = some (err, calls ++ expectedCalls cur doc) := by
  induction doc with
  | nil =>
    intro fuel p cur calls err _
    simp [renderDoc, doLoop_done, Res.result, expectedCalls]
  | cons st more ih =>
    intro fuel p cur calls err hfuel
    have hst := hwf st (by simp)
    have hmore : ∀ x ∈ more, WellFormedStmt x := fun x hx => hwf x (by simp [hx])
    cases st with
    | header sec =>
      have h1 := do1_header s p sec (10 :: renderDoc more) f cur calls hst
        (fun g' hg' => hs.2 g' hg' calls sec)
      have hcall : sectionCall s sec = [Call.Section sec] := by
        simp [sectionCall, hg]
      have hne : headerText sec ++ 10 :: renderDoc more ≠ [] := by
        cases hsub : sec.Subsection <;> simp [headerText, hsub]
      have hlen : 2 ≤ (headerText sec ++ 10 :: renderDoc more).length := by
        cases hsub : sec.Subsection <;> simp [headerText, hsub] <;> omega
      have e : renderDoc (.header sec :: more) = headerText sec ++ 10 :: renderDoc more := by
        simp [renderDoc, renderStmt]
      rw [e] at hfuel ⊢
      obtain ⟨fuel2, rfl⟩ : ∃ n, fuel = n + 1 + 1 := ⟨fuel - 2, by omega⟩
      rw [doLoop_none s _ _ _ _ hne h1,
        doLoop_none s _ _ _ _ (by simp) (do1_newline s _ _ f (some sec) _)]
      rw [ih hmore fuel2 _ (some sec) _ err (by
        simp only [List.length_append, List.length_cons] at hfuel
        have : 1 ≤ (headerText sec).length := by
          cases hsub : sec.Subsection <;> simp [headerText, hsub]
        omega)]
      simp [hcall, expectedCalls]
    | keyValue k v =>
      obtain ⟨p', h1⟩ := do1_keyValue_accept s p k v (renderDoc more) f cur calls hst
        (hs.1 calls cur k v)
      have hne : renderStmt (.keyValue k v) ++ renderDoc more ≠ [] := by
        simp [renderStmt]
      have e : renderDoc (.keyValue k v :: more)
          = renderStmt (.keyValue k v) ++ renderDoc more := rfl
      rw [e] at hfuel ⊢
      obtain ⟨fuel1, rfl⟩ : ∃ n, fuel = n + 1 := ⟨fuel - 1, by
        have : 0 < (renderStmt (.keyValue k v) ++ renderDoc more).length :=
          List.length_pos.2 hne
        omega⟩
      rw [doLoop_none s _ _ _ _ hne h1]
      rw [ih hmore fuel1 p' cur _ err (by
        have : 1 ≤ (renderStmt (.keyValue k v)).length := by
          simp only [renderStmt, List.length_append, List.length_cons]
          omega
        simp only [List.length_append] at hfuel
        omega)]
      simp [expectedCalls]

/-- What `do` returns, read off the visible result of its loop. -/
theorem do_result (s : IniSink) (l : iniParse) (err : ParseErrors) (calls : List Call)
    (h : (doLoop s l.input.length l []).result = some (err, calls)) :
    (do_ s l).result = some (if err = [] then none else some err, calls) := by
  unfold do_
  cases hr : doLoop s l.input.length l [] with
  | ok e l' =>
    rw [hr] at h
    simp only [Res.result, Option.some.injEq, Prod.mk.injEq] at h
    obtain ⟨rfl, rfl⟩ := h
    cases e <;> simp [Res.result]
  | throw e l' => simp [hr, Res.result] at h
  | fault l' => simp [hr, Res.result] at h
  | outOfFuel => simp [hr, Res.result] at h

/-- Blank lines: each turn of the loop of `do` consumes one newline. -/
theorem newlines_loop (s : IniSink) (f rest : Bytes) (sec : Option IniSection)
    (calls : List Call) (err : ParseErrors) (m : Nat) :
    ∀ (fuel ln : Nat),
      doLoop s (fuel + m) ⟨⟨ln, 0⟩, List.replicate m 10 ++ rest, f, sec, calls⟩ err
        = doLoop s fuel ⟨⟨ln + m, 0⟩, rest, f, sec, calls⟩ err := by
  induction m with
  | zero =>
    intro fuel ln
    simp
  | succ n ih =>
    intro fuel ln
    have e : fuel + (n + 1) = (fuel + n) + 1 := by omega
    rw [e, List.replicate_succ, List.cons_append,
      doLoop_none s _ _ _ _ (by simp) (do1_newline s _ _ f sec calls), ih fuel (ln + 1)]
    have e2 : ln + 1 + n = ln + (n + 1) := by omega
    rw [e2]

/-- The error returned by `do1` for a statement `w1 k w2 = w3 v` that the
sink rejects with `e`: positioned at the key for a `BadKey`, at the value
otherwise; the rest of the line (here nothing) is then skipped. -/
theorem do1_assign_rejected (s : IniSink) (ln : Nat) (w1 k w2 w3 v f : Bytes)
    (sec : Option IniSection) (calls : List Call) (e : SinkError) (hw1 : IsBlanks w1)
    (hk : IsKey k) (hw2 : IsBlanks w2) (hw3 : IsBlanks w3) (hv : IsPlainValue v)
    (hv0 : NoLeadingBlank v) (he : s.Value calls sec k v = some e) :
    ∃ p', do1 s ⟨⟨ln, 0⟩, w1 ++ (k ++ (w2 ++ 61 :: (w3 ++ v))), f, sec, calls⟩
      = .ok (some ⟨f, ln + 1,
            blameColumn e (colFold 0 w1) (colFold 0 (w1 ++ (k ++ (w2 ++ 61 :: w3)))) + 1,
            e.Error⟩)
          ⟨p', [], f, sec, calls ++ [Call.Value sec k v]⟩ := by
  have h := do1Body_assign s ln 0 w1 k w2 w3 v [] f sec calls hw1 hk hw2 hw3 hv hv0
    (by intro c hc; simp at hc)
  simp only [List.take_nil, List.drop_nil, List.append_nil] at h
  refine ⟨posAfter ⟨ln, 0⟩ (w1 ++ (k ++ (w2 ++ 61 :: (w3 ++ v)))), ?_⟩
  unfold do1
  rw [h]
  cases e with
  | BadKey msg =>
    rw [deliverValue_badKey s _ _ _ k v [] f sec calls msg he]
    simp only [skipTo_end _ [] f sec _ (by simp), posAfter_nil, SinkError.Error, blameColumn]
  | BadValue msg =>
    rw [deliverValue_reject s _ _ _ k v [] f sec calls _ he (by intro m hm; cases hm)]
    simp only [skipTo_end _ [] f sec _ (by simp), posAfter_nil, SinkError.Error, blameColumn]
  | other msg =>
    rw [deliverValue_reject s _ _ _ k v [] f sec calls _ he (by intro m hm; cases hm)]
    simp only [skipTo_end _ [] f sec _ (by simp), posAfter_nil, SinkError.Error, blameColumn]

/-- A comment line: `do1` skips it together with its newline. -/
theorem do1_comment (s : IniSink) (p : position) (c : Nat) (cmt tail f : Bytes)
    (sec : Option IniSection) (calls : List Call) (hc : c = 35 ∨ c = 59) (hcmt : 10 ∉ cmt)
    (ht : AtLineEnd tail) :
    do1 s ⟨p, c :: (cmt ++ tail), f, sec, calls⟩
      = .ok none ⟨posAfter p (c :: (cmt ++ tail.take 1)), tail.drop 1, f, sec, calls⟩ := by
  have hws := skipWS_blanks p [] (c :: (cmt ++ tail)) f sec calls
    (by intro x hx; simp at hx) (by intro x hx; simp at hx; omega)
  simp only [List.nil_append, posAfter_nil] at hws
  have hline : 10 ∉ c :: cmt := by
    simp only [List.mem_cons, not_or]
    exact ⟨by omega, hcmt⟩
  have hskip := skipTo_stop p (c :: cmt) tail f sec calls hline ht
  simp only [List.cons_append] at hskip
  have hal : isAlpha (c : Int) = false := by
    cases h : isAlpha (c : Int) with
    | false => rfl
    | true =>
      have := (isAlpha_iff c).1 h
      unfold IsLetter at this
      omega
  have hcond : (c : Int) = 35 ∨ (c : Int) = 59 ∨ (c : Int) = 10 := by omega
  unfold do1 do1Body
  simp only [hws]
  rw [getSection_miss _ (by simp; omega)]
  simp only [peek_cons, hal, Bool.false_eq_true, if_false, hcond, if_true, hskip]
  cases tail with
  | nil => simp [skip_past, posAfter_nil]
  | cons x rest =>
    have hx : x = 10 := ht x (by simp)
    subst hx
    simp [skip_one, posAfter_append, posAfter_cons, posAfter_nil]

/-- After a bare key, what is left of the line is consumed without any
diagnostic or callback. -/
theorem bareTail_loop (s : IniSink) (p : position) (tail f : Bytes)
    (sec : Option IniSection) (calls : List Call) (err : ParseErrors) (fuel : Nat)
    (ht : IsBareTail tail) (hfuel : tail.length ≤ fuel) :
    (doLoop s fuel ⟨p, tail, f, sec, calls⟩ err).result = some (err, calls) := by
  rcases ht with rfl | rfl | ⟨c, cmt, nl, hc, hcmt, hnl, rfl⟩
  · simp [doLoop_done, Res.result]
  · obtain ⟨n, rfl⟩ : ∃ n, fuel = n + 1 := ⟨fuel - 1, by simp at hfuel; omega⟩
    rw [doLoop_none s _ _ _ _ (by simp) (do1_newline s _ _ f sec calls), doLoop_done]
    simp [Res.result]
  · obtain ⟨n, rfl⟩ : ∃ n, fuel = n + 1 := ⟨fuel - 1, by simp at hfuel; omega⟩
    have hat : AtLineEnd nl := by
      rcases hnl with rfl | rfl <;> intro x hx <;> simp at hx
      exact hx.symm
    rw [doLoop_none s _ _ _ _ (by simp) (do1_comment s p c cmt nl f sec calls hc hcmt hat)]
    have hd : nl.drop 1 = [] := by
      rcases hnl with rfl | rfl <;> rfl
    rw [hd, doLoop_done]
    simp [Res.result]

theorem not_keyByte_head (w rest : Bytes) (hw : IsBlanks w)
    (hr : w = [] → ∀ c ∈ rest.head?, ¬ IsKeyByte c) :
    ∀ c ∈ (w ++ rest).head?, ¬ IsKeyByte c := by
  intro c hc
  cases w with
  | nil => exact hr rfl c (by simpa using hc)
  | cons x t =>
    simp at hc
    have := hw x (by simp)
    unfold IsKeyByte IsLetter
    omega

/-- A comment marker outside quotes: the source skips to the marker and on to
the next newline, and goes round the loop again with the index unchanged. -/
theorem getValueLoop_comment (fuel i : Nat) (p : position) (inp pre : Bytes) (c : Nat)
    (post f : Bytes) (sec : Option IniSection) (calls : List Call) (ret : Bytes)
    (hin : inp = pre ++ c :: post) (hi : i = pre.length) (hc : c = 35 ∨ c = 59) :
    getValueLoop (fuel + 1) ⟨p, inp, f, sec, calls⟩ i ret false false
      = getValueLoop fuel (skipTo 10 ⟨posAfter p (pre ++ [c]), post, f, sec, calls⟩).2
          (i + 1) ret false false := by
  subst hin hi
  rw [getValueLoop]
  simp only [lt_at, if_true, getD_at]
  have hs := skip_front p (pre ++ [c]) post f sec calls
  simp only [List.length_append, List.length_singleton, List.append_assoc,
    List.singleton_append] at hs
  have h1 : ¬ ((c : Int) = 92) := by omega
  have h2 : ¬ ((c : Int) = 34) := by omega
  have h3 : ¬ ((c : Int) = 10 ∨ (c : Int) = eofRune) := by
    unfold eofRune
    omega
  have h4 : ((!false) = true ∧ ((c : Int) = 35 ∨ (c : Int) = 59)) := by
    refine ⟨rfl, ?_⟩
    omega
  simp only [Bool.false_eq_true, if_false, h1, h2, h3, h4, if_true, hs]
  simp

/-- The branch of `do1KeyValue` with an '=', for any value text that
`getValue` lexes without error. -/
theorem do1KeyValue_lexed (s : IniSink) (keypos p : position) (k w2 w3 src f : Bytes)
    (sec : Option IniSection) (calls : List Call) (v : Bytes) (l' : iniParse)
    (hw2 : IsBlanks w2) (hw3 : IsBlanks w3) (hsrc : NoLeadingBlank src)
    (hget : getValue ⟨posAfter p (w2 ++ 61 :: w3), src, f, sec, calls⟩ = .ok v l') :
    do1KeyValue s keypos k ⟨p, w2 ++ 61 :: (w3 ++ src), f, sec, calls⟩
      = deliverValue s keypos (posAfter p (w2 ++ 61 :: w3)) k v l' := by
  have h1 := skipWS_blanks p w2 (61 :: (w3 ++ src)) f sec calls hw2
    (by intro x hx; simp at hx; omega)
  have h2 := match_hit (posAfter p w2) 61 (w3 ++ src) f sec calls
  have h3 := skipWS_blanks (advance (posAfter p w2) 61) w3 src f sec calls hw3 hsrc
  simp only [posAfter_append, posAfter_cons] at hget
  unfold do1KeyValue
  simp only [h1, h2, h3, hget, posAfter_append, posAfter_cons]

/-- The value text `"q" # real comment` followed by a newline that ends the
buffer: the closing quote, the blank before the marker and the comment are
scanned, and the value is `q` followed by that blank. -/
theorem getValue_quoted_then_comment (p : position) (q f : Bytes) (sec : Option IniSection)
    (calls : List Call) (hq : ∀ c ∈ q, c ≠ 34 ∧ c ≠ 92 ∧ c ≠ 10) :
    ∃ p', getValue ⟨p, 34 :: (q ++ 34 :: 32 :: 35 :: (bytes " real comment" ++ [10])), f, sec,
        calls⟩
      = .ok (q ++ [32]) ⟨p', [], f, sec, calls⟩ := by
  have hseg : ∀ c ∈ q, (c ≠ 92 ∧ c ≠ 34 ∧ c ≠ 10) ∧ (true = true ∨ (c ≠ 35 ∧ c ≠ 59)) := by
    intro c hc
    have := hq c hc
    exact ⟨⟨this.2.1, this.1, this.2.2⟩, Or.inl rfl⟩
  have hb : bytes " real comment" = [32, 114, 101, 97, 108, 32, 99, 111, 109, 109, 101, 110, 116] := by
    decide
  have hcm : (10 : Nat) ∉ bytes " real comment" := by
    rw [hb]
    decide
  generalize hbs : bytes " real comment" = cmt at hcm hb
  have hclen : cmt.length = 13 := by simp [hb]
  refine ⟨posAfter (posAfter (posAfter p (34 :: (q ++ [34, 32]) ++ [35])) cmt) [10], ?_⟩
  unfold getValue
  have hlen : (34 :: (q ++ 34 :: 32 :: 35 :: (cmt ++ [10]))).length + 1
      = (((((14 + 1) + 1) + 1) + 1) + q.length) + 1 := by
    simp only [List.length_cons, List.length_append, List.length_nil, hclen]
    omega
  simp only [hlen]
  rw [getValueLoop_quote _ 0 p _ [] (q ++ 34 :: 32 :: 35 :: (cmt ++ [10])) f sec calls [] false
    (by simp) rfl]
  simp only [Bool.not_false]
  rw [getValueLoop_run q true hseg _ ((((14 + 1) + 1) + 1) + 1) (0 + 1) p _ [34]
    (34 :: 32 :: 35 :: (cmt ++ [10])) f sec calls [] (by simp) rfl rfl]
  rw [getValueLoop_quote _ _ p _ (34 :: q) (32 :: 35 :: (cmt ++ [10])) f sec calls _ true
    (by simp) (by simp only [List.length_cons]; omega)]
  simp only [Bool.not_true]
  rw [getValueLoop_copy _ _ p _ (34 :: (q ++ [34])) 32 (35 :: (cmt ++ [10])) f sec calls _ false
    (by simp) (by simp only [List.length_cons, List.length_append, List.length_nil]; omega)
    (by omega) (Or.inr (by omega))]
  rw [getValueLoop_comment _ _ p _ (34 :: (q ++ [34, 32])) 35 (cmt ++ [10]) f sec calls _
    (by simp) (by simp only [List.length_cons, List.length_append, List.length_nil]; omega)
    (Or.inl rfl)]
  rw [skipTo_line _ cmt [] f sec calls hcm]
  rw [getValueLoop_eof 14 _ [10] f sec calls _ _ (by simp)]
  simp

theorem enc_length (s : Bytes) : (enc s).length = (escBody s).length + 2 := by
  simp [enc]

theorem skipWS_none (l : iniParse) (h : NoLeadingBlank l.input) : skipWS l = (false, l) := by
  have hc : countWhile (fun r => r = 32 || r = 9) l.input = 0 := by
    cases hi : l.input with
    | nil => rfl
    | cons c t =>
      have := h c (by simp [hi])
      have hf : ((fun r : Int => r = 32 || r = 9) (c : Int)) = false := by
        simp only [Bool.or_eq_false_iff, decide_eq_false_iff_not]
        omega
      simp only [countWhile, hf]
      simp
  unfold skipWS skipWhile
  simp [hc]

/-- A line of blanks that runs into the end of the buffer: after `skipWS` the
peeked rune is `eofRune`, which the blank-line test of `do1` does not list,
so the line is refused. -/
theorem do1_blanks_eof (s : IniSink) (ln col : Nat) (w f : Bytes) (sec : Option IniSection)
    (calls : List Call) (hw : IsBlanks w) :
    do1 s ⟨⟨ln, col⟩, w, f, sec, calls⟩
      = .ok (some ⟨f, ln + 1, colFold col w + 1, bytes "Expected section or key"⟩)
          ⟨⟨ln, colFold col w⟩, [], f, sec, calls⟩ := by
  have hws := skipWS_blanks ⟨ln, col⟩ w [] f sec calls hw (by intro c hc; simp at hc)
  rw [posAfter_line ln col w (blanks_no_newline w hw), List.append_nil] at hws
  have hskip := skipTo_end (⟨ln, colFold col w⟩ : position) [] f sec calls (by simp)
  unfold do1 do1Body
  simp only [hws]
  rw [getSection_miss _ (by simp)]
  have h1 : ¬ (eofRune = 35 ∨ eofRune = 59 ∨ eofRune = 10) := by decide
  simp only [peek_nil, isAlpha_eof, Bool.false_eq_true, if_false, h1, throw, throwAt, hskip,
    posAfter_nil]

/-- A header left open after its name: `getSection` finds neither `]` nor a
blank after the name and refuses the line at that point. -/
theorem do1_unclosed_header (s : IniSink) (ln : Nat) (k tail f : Bytes)
    (sec : Option IniSection) (calls : List Call) (hne : k ≠ []) (hk : ∀ c ∈ k, IsKeyByte c)
    (ht : AtLineEnd tail) :
    do1 s ⟨⟨ln, 0⟩, 91 :: (k ++ tail), f, sec, calls⟩
      = .ok (some ⟨f, ln + 1, k.length + 2,
            bytes "expected ']' or space followed by quoted-subsection"⟩)
          ⟨⟨ln, k.length + 1⟩, tail, f, sec, calls⟩ := by
  have hws := skipWS_blanks ⟨ln, 0⟩ [] (91 :: (k ++ tail)) f sec calls
    (by intro x hx; simp at hx) (by intro x hx; simp at hx; omega)
  simp only [List.nil_append, posAfter_nil] at hws
  have h1 := match_hit ⟨ln, 0⟩ 91 (k ++ tail) f sec calls
  have hnk : ∀ c ∈ tail.head?, ¬ IsKeyByte c := by
    intro c hc
    have := ht c hc
    unfold IsKeyByte IsLetter
    omega
  have h2 := getKey_front (advance ⟨ln, 0⟩ 91) k tail f sec calls hk hnk
  have hpos : posAfter (advance ⟨ln, 0⟩ 91) k = ⟨ln, k.length + 1⟩ := by
    have hadv : advance ⟨ln, 0⟩ 91 = ⟨ln, 1⟩ := by simp [advance]
    rw [hadv]
    clear h2 h1 hws
    have key : ∀ (k : Bytes) (col : Nat), (∀ c ∈ k, IsKeyByte c) →
        posAfter ⟨ln, col⟩ k = ⟨ln, k.length + col⟩ := by
      intro k
      induction k with
      | nil =>
        intro col _
        simp [posAfter]
      | cons c t ih =>
        intro col hk
        have hc := hk c (by simp)
        have hc' : c ≠ 10 ∧ c ≠ 9 := by
          unfold IsKeyByte IsLetter at hc
          omega
        rw [posAfter_cons]
        have : advance ⟨ln, col⟩ c = ⟨ln, col + 1⟩ := by simp [advance, hc'.1, hc'.2]
        rw [this, ih (col + 1) (fun x hx => hk x (by simp [hx]))]
        simp only [List.length_cons, position.mk.injEq, true_and]
        omega
    exact key k 1 hk
  rw [hpos] at h2
  have h3 : match_ [93] ⟨⟨ln, k.length + 1⟩, tail, f, sec, calls⟩
      = (false, ⟨⟨ln, k.length + 1⟩, tail, f, sec, calls⟩) := by
    apply match_miss
    intro h
    have := ht 93 (by simpa using h)
    omega
  have h4 : skipWS ⟨⟨ln, k.length + 1⟩, tail, f, sec, calls⟩
      = (false, ⟨⟨ln, k.length + 1⟩, tail, f, sec, calls⟩) := by
    apply skipWS_none
    intro c hc
    have := ht c hc
    omega
  have hlen : ¬ k.length = 0 := fun h => hne (List.length_eq_zero.1 h)
  have hskip := skipTo_stop (⟨ln, k.length + 1⟩ : position) [] tail f sec calls (by simp) ht
  simp only [List.nil_append, posAfter_nil] at hskip
  unfold do1 do1Body
  simp only [hws]
  unfold getSection
  simp only [h1, h2, hlen, if_false, h3, h4, throw, throwAt, hskip]

/-- On printable ASCII, `%q` escapes the quote and the backslash only. -/
theorem quoteBytes_printable (sub : Bytes) (h : ∀ c ∈ sub, 32 ≤ c ∧ c ≤ 126) :
    quoteBytes sub = some (quoteBody sub) := by
  induction sub with
  | nil => rfl
  | cons c t ih =>
    have hc := h c (by simp)
    have ht := ih (fun x hx => h x (by simp [hx]))
    by_cases hq : c = 34 ∨ c = 92
    · simp [quoteBytes, quoteByte, quoteBody, hq, ht]
    · simp [quoteBytes, quoteByte, quoteBody, hq, ht, hc]

theorem String_printable (sec : IniSection)
    (h : ∀ sub ∈ sec.Subsection, ∀ c ∈ sub, 32 ≤ c ∧ c ≤ 126) :
    sec.String = some (headerText sec) := by
  obtain ⟨name, sub⟩ := sec
  cases sub with
  | none => rfl
  | some sub =>
    have := quoteBytes_printable sub (h sub rfl)
    simp [IniSection.String, headerText, this]

theorem posAfter_keyBytes (ln : Nat) (k : Bytes) :
    ∀ (col : Nat), (∀ c ∈ k, IsKeyByte c) → posAfter ⟨ln, col⟩ k = ⟨ln, k.length + col⟩ := by
  induction k with
  | nil =>
    intro col _
    simp [posAfter]
  | cons c t ih =>
    intro col hk
    have hc := hk c (by simp)
    have hc' : c ≠ 10 ∧ c ≠ 9 := by
      unfold IsKeyByte IsLetter at hc
      omega
    rw [posAfter_cons]
    have : advance ⟨ln, col⟩ c = ⟨ln, col + 1⟩ := by simp [advance, hc'.1, hc'.2]
    rw [this, ih (col + 1) (fun x hx => hk x (by simp [hx]))]
    simp only [List.length_cons, position.mk.injEq, true_and]
    omega

/-! ## The scan loop of `getSubsection`, turn by turn -/

/-- A run of bytes that the scan copies: none of quote, backslash, NUL,
newline, and something still follows the run. -/
theorem getSubsectionLoop_run (a : Bytes) (ha : ∀ c ∈ a, c ≠ 34 ∧ c ≠ 92 ∧ c ≠ 0 ∧ c ≠ 10) :
    ∀ (fuel k i : Nat) (inp pre more ret : Bytes), inp = pre ++ (a ++ more) → more ≠ [] →
      i = pre.length → fuel = k + a.length →
      getSubsectionLoop inp fuel i ret = getSubsectionLoop inp k (i + a.length) (ret ++ a) := by
  induction a with
  | nil =>
    intro fuel k i inp pre more ret _ _ _ hf
    simp at hf
    simp [hf]
  | cons c t ih =>
    intro fuel k i inp pre more ret hin hmore hi hf
    have hc := ha c (by simp)
    have ht : ∀ x ∈ t, x ≠ 34 ∧ x ≠ 92 ∧ x ≠ 0 ∧ x ≠ 10 := fun x hx => ha x (by simp [hx])
    have e1 : fuel = (k + t.length) + 1 := by
      simp only [List.length_cons] at hf
      omega
    have hlen : i + 1 < inp.length := by
      have : 0 < more.length := List.length_pos.2 hmore
      simp [hin, hi]
      omega
    have hget : inp[i]? = some c := by
      rw [hin, hi]
      exact getElem?_at pre c _
    rw [e1, getSubsectionLoop]
    simp only [hlen, if_true, hget]
    have h1 : ¬ c = 34 := hc.1
    have h2 : ¬ (c = 0 ∨ c = 10) := by omega
    have h3 : ¬ c = 92 := hc.2.1
    simp only [h1, h2, h3, if_false]
    rw [ih ht (k + t.length) k (i + 1) inp (pre ++ [c]) more (ret ++ [c]) (by simp [hin]) hmore
      (by simp [hi]) rfl]
    have e4 : i + 1 + t.length = i + (c :: t).length := by
      simp only [List.length_cons]
      omega
    rw [e4]
    simp

/-- A backslash before a byte that is neither a backslash nor a quote: the
scan steps over both bytes and writes nothing. -/
theorem getSubsectionLoop_drop (fuel i : Nat) (inp pre : Bytes) (x : Nat) (more ret : Bytes)
    (hin : inp = pre ++ 92 :: x :: more) (hi : i = pre.length) (hx : x ≠ 92 ∧ x ≠ 34) :
    getSubsectionLoop inp (fuel + 1) i ret = getSubsectionLoop inp fuel (i + 1 + 1) ret := by
  have hlen : i + 1 < inp.length := by
    simp [hin, hi]
  have hget : inp[i]? = some 92 := by
    rw [hin, hi]
    exact getElem?_at pre 92 _
  have hget2 : inp[i + 1]? = some x := by
    have e : inp = (pre ++ [92]) ++ x :: more := by simp [hin]
    have e2 : i + 1 = (pre ++ [92]).length := by simp [hi]
    rw [e, e2]
    exact getElem?_at _ x _
  rw [getSubsectionLoop]
  simp only [hlen, if_true, hget, hget2]
  have hxx : ¬ (x = 92 ∨ x = 34) := by omega
  simp [hxx]

/-- The closing quote, when it is not the last byte: the scan breaks there. -/
theorem getSubsectionLoop_close (fuel i : Nat) (inp pre more ret : Bytes)
    (hin : inp = pre ++ 34 :: more) (hmore : more ≠ []) (hi : i = pre.length) :
    getSubsectionLoop inp (fuel + 1) i ret = .exit i ret := by
  have hlen : i + 1 < inp.length := by
    have : 0 < more.length := List.length_pos.2 hmore
    simp [hin, hi]
    omega
  have hget : inp[i]? = some 34 := by
    rw [hin, hi]
    exact getElem?_at pre 34 _
  rw [getSubsectionLoop]
  simp [hlen, hget]

/-- A NUL or a newline that is not the last byte: the scan returns nil. -/
theorem getSubsectionLoop_refuse (fuel i : Nat) (inp pre : Bytes) (z : Nat) (more ret : Bytes)
    (hin : inp = pre ++ z :: more) (hmore : more ≠ []) (hi : i = pre.length)
    (hz : z = 0 ∨ z = 10) :
    getSubsectionLoop inp (fuel + 1) i ret = .retNil := by
  have hlen : i + 1 < inp.length := by
    have : 0 < more.length := List.length_pos.2 hmore
    simp [hin, hi]
    omega
  have hget : inp[i]? = some z := by
    rw [hin, hi]
    exact getElem?_at pre z _
  rw [getSubsectionLoop]
  have h1 : ¬ z = 34 := by omega
  simp [hlen, hget, h1, hz]

/-- A quoted subsection `a\Xb` with `X` neither backslash nor quote: it is
accepted and decoded to `a ++ b`. -/
theorem getSubsection_dropped_escape (p : position) (a b : Bytes) (x : Nat) (post f : Bytes)
    (sec : Option IniSection) (calls : List Call)
    (ha : ∀ c ∈ a, c ≠ 34 ∧ c ≠ 92 ∧ c ≠ 0 ∧ c ≠ 10)
    (hb : ∀ c ∈ b, c ≠ 34 ∧ c ≠ 92 ∧ c ≠ 0 ∧ c ≠ 10) (hx : x ≠ 92 ∧ x ≠ 34)
    (hpost : post ≠ []) :
    getSubsection ⟨p, 34 :: (a ++ 92 :: x :: (b ++ 34 :: post)), f, sec, calls⟩
      = .ok (some (a ++ b))
          ⟨posAfter p (34 :: (a ++ 92 :: x :: (b ++ [34]))), post, f, sec, calls⟩ := by
  have hlen : (34 :: (a ++ 92 :: x :: (b ++ 34 :: post))).length
      = (((post.length + 1) + b.length) + 1 + 1) + a.length + 1 := by
    simp only [List.length_cons, List.length_append]
    omega
  generalize hinp : 34 :: (a ++ 92 :: x :: (b ++ 34 :: post)) = inp at hlen ⊢
  have hp1 : 0 < post.length := List.length_pos.2 hpost
  have hloop : getSubsectionLoop inp inp.length 1 []
      = .exit (1 + a.length + 1 + 1 + b.length) (a ++ b) := by
    rw [getSubsectionLoop_run a ha inp.length (((post.length + 3) + b.length) + 1) 1 inp
      [34] (92 :: x :: (b ++ 34 :: post)) [] (by simp [← hinp]) (by simp) rfl (by omega)]
    rw [getSubsectionLoop_drop ((post.length + 3) + b.length) (1 + a.length) inp (34 :: a) x
      (b ++ 34 :: post) _ (by simp [← hinp])
      (by simp only [List.length_cons]; omega) hx]
    rw [getSubsectionLoop_run b hb ((post.length + 3) + b.length) (post.length + 2 + 1)
      (1 + a.length + 1 + 1) inp (34 :: (a ++ [92, x])) (34 :: post) _ (by simp [← hinp])
      (by simp)
      (by simp only [List.length_cons, List.length_append, List.length_nil]; omega)
      (by omega)]
    rw [getSubsectionLoop_close (post.length + 2) (1 + a.length + 1 + 1 + b.length) inp
      (34 :: (a ++ 92 :: x :: b)) post _ (by simp [← hinp]) hpost
      (by simp only [List.length_cons, List.length_append]; omega)]
    simp
  have hget : inp[1 + a.length + 1 + 1 + b.length]? = some 34 := by
    have e : inp = (34 :: (a ++ 92 :: x :: b)) ++ 34 :: post := by simp [← hinp]
    have e2 : 1 + a.length + 1 + 1 + b.length = (34 :: (a ++ 92 :: x :: b)).length := by
      simp only [List.length_cons, List.length_append]
      omega
    rw [e, e2]
    exact getElem?_at _ 34 post
  have hskip := skip_front p (34 :: (a ++ 92 :: x :: (b ++ [34]))) post f sec calls
  have e3 : (34 :: (a ++ 92 :: x :: (b ++ [34]))).length
      = 1 + a.length + 1 + 1 + b.length + 1 := by
    simp only [List.length_cons, List.length_append, List.length_nil]
    omega
  have e4 : 34 :: (a ++ 92 :: x :: (b ++ [34])) ++ post = inp := by
    simp [← hinp]
  rw [e3, e4] at hskip
  have h0 : inp[0]? = some 34 := by simp [← hinp]
  unfold getSubsection
  have hl2 : ¬ (inp.length < 2) := by omega
  simp only [hl2, if_false, h0, hloop]
  simp only [ne_eq, not_true_eq_false, if_false, hget, hskip]

/-- A quoted subsection with a NUL or a newline after `a`: `getSubsection`
returns nil and leaves the parser where it was. -/
theorem getSubsection_refused (l : iniParse) (a : Bytes) (z : Nat) (rest : Bytes)
    (hin : l.input = 34 :: (a ++ z :: rest))
    (ha : ∀ c ∈ a, c ≠ 34 ∧ c ≠ 92 ∧ c ≠ 0 ∧ c ≠ 10) (hz : z = 0 ∨ z = 10)
    (hrest : rest ≠ []) :
    getSubsection l = .ok none l := by
  have hp1 : 0 < rest.length := List.length_pos.2 hrest
  have hlen : l.input.length = ((rest.length) + a.length) + 1 + 1 := by
    rw [hin]
    simp only [List.length_cons, List.length_append]
    omega
  have hloop : getSubsectionLoop l.input l.input.length 1 [] = .retNil := by
    rw [getSubsectionLoop_run a ha l.input.length (rest.length + 1 + 1) 1 l.input
      [34] (z :: rest) [] (by simp [hin]) (by simp) rfl (by omega)]
    exact getSubsectionLoop_refuse _ _ l.input (34 :: a) z rest _ (by simp [hin]) hrest
      (by simp; omega) hz
  have h0 : l.input[0]? = some 34 := by simp [hin]
  unfold getSubsection
  have hl2 : ¬ (l.input.length < 2) := by omega
  simp only [hl2, if_false, h0, hloop]
  simp

theorem skipWS_snd_none (l : iniParse) (h : NoLeadingBlank l.input) : (skipWS l).2 = l := by
  rw [skipWS_none l h]

/-- A header that `getSection` lexes, accepted by the section callback. -/
theorem do1_of_getSection (s : IniSink) (l l1 : iniParse) (sec : IniSection)
    (hnb : NoLeadingBlank l.input) (hget : getSection l = .ok (some sec) l1)
    (hs : ∀ g, s.Section = some g → g l1.calls sec = none) :
    do1 s l = .ok none { l1 with sec := some sec, calls := l1.calls ++ sectionCall s sec } := by
  unfold do1 do1Body
  simp only [skipWS_snd_none l hnb, hget]
  cases hg : s.Section with
  | none => simp [callSection, sectionCall, hg]
  | some g => simp [callSection, sectionCall, hg, hs g hg]

/-- A header that `getSection` refuses: the error is returned and the rest
of the line skipped. -/
theorem do1_of_getSection_throw (s : IniSink) (l l1 : iniParse) (e : ParseError)
    (hnb : NoLeadingBlank l.input) (hget : getSection l = .throw e l1) :
    do1 s l = .ok (some e) (skipTo 10 l1).2 := by
  unfold do1 do1Body
  simp only [skipWS_snd_none l hnb, hget]

/-- The part of `getSection` before the quoted subsection: `[`, the name and
one space. -/
theorem getSection_to_subsection (ln : Nat) (name src f : Bytes) (cur : Option IniSection)
    (calls : List Call) (hne : name ≠ []) (hk : ∀ c ∈ name, IsKeyByte c)
    (hsrc : NoLeadingBlank src) :
    getSection ⟨⟨ln, 0⟩, 91 :: (name ++ 32 :: src), f, cur, calls⟩
      = match getSubsection ⟨⟨ln, name.length + 2⟩, src, f, cur, calls⟩ with
        | .throw e l => .throw e l
        | .fault l => .fault l
        | .outOfFuel => .outOfFuel
        | .ok none l => throw l (bytes "expected quoted subsection after space")
        | .ok (some sub) l =>
          match match_ [93] l with
          | (false, l) => throw l (bytes "expected ']'")
          | (true, l) => .ok (some { Section := name, Subsection := some sub }) l := by
  have hlen : ¬ name.length = 0 := fun h => hne (List.length_eq_zero.1 h)
  have h1 := match_hit ⟨ln, 0⟩ 91 (name ++ 32 :: src) f cur calls
  have hadv : advance ⟨ln, 0⟩ 91 = ⟨ln, 1⟩ := by simp [advance]
  rw [hadv] at h1
  have h2 := getKey_front ⟨ln, 1⟩ name (32 :: src) f cur calls hk
    (by intro c hc; simp at hc; subst hc; exact not_keyByte_32)
  rw [posAfter_keyBytes ln name 1 hk] at h2
  have h3 : match_ [93] ⟨⟨ln, name.length + 1⟩, 32 :: src, f, cur, calls⟩
      = (false, ⟨⟨ln, name.length + 1⟩, 32 :: src, f, cur, calls⟩) :=
    match_miss 93 _ (by simp)
  have h4 := skipWS_nonempty ⟨ln, name.length + 1⟩ [32] src f cur calls
    (by intro c hc; simp at hc; omega) (by simp) hsrc
  have hp : posAfter ⟨ln, name.length + 1⟩ [32] = ⟨ln, name.length + 2⟩ := by
    simp [posAfter, advance]
  simp only [List.singleton_append, hp] at h4
  unfold getSection
  simp only [h1, h2, hlen, if_false, h3, h4]

/-- After a backslash, a byte that is not one of the accepted escapes: the
parser is moved to the backslash and the statement refused there. -/
theorem getValueLoop_badEscape (fuel i : Nat) (p : position) (inp pre : Bytes) (x : Nat)
    (post f : Bytes) (sec : Option IniSection) (calls : List Call) (ret : Bytes)
    (inquote : Bool) (hin : inp = pre ++ 92 :: x :: post) (hi : i = pre.length + 1)
    (hx : x ≠ 34 ∧ x ≠ 92 ∧ x ≠ 110 ∧ x ≠ 116 ∧ x ≠ 98 ∧ x ≠ 10) (hascii : x < 128) :
    getValueLoop (fuel + 1) ⟨p, inp, f, sec, calls⟩ i ret true inquote
      = .throw ⟨f, (posAfter p pre).lineno + 1, (posAfter p pre).colno + 1,
            bytes "invalid escape sequence \\" ++ [x]⟩
          ⟨posAfter p pre, 92 :: x :: post, f, sec, calls⟩ := by
  have hin2 : inp = (pre ++ [92]) ++ x :: post := by simp [hin]
  have hi2 : i = (pre ++ [92]).length := by simp [hi]
  have hlt : i < inp.length := by
    rw [hin2, hi2]
    exact lt_at _ x post
  have hget : inp.getD i 0 = x := by
    rw [hin2, hi2]
    exact getD_at _ x post
  have hskip : skip (i + 1 - 2) ⟨p, inp, f, sec, calls⟩
      = ⟨posAfter p pre, 92 :: x :: post, f, sec, calls⟩ := by
    have e : i + 1 - 2 = pre.length := by omega
    rw [e, hin]
    exact skip_front p pre (92 :: x :: post) f sec calls
  rw [getValueLoop]
  simp only [hlt, if_true, hget]
  have h1 : ¬ ((x : Int) = 34 ∨ (x : Int) = 92) := by omega
  have h2 : ¬ ((x : Int) = 110) := by omega
  have h3 : ¬ ((x : Int) = 116) := by omega
  have h4 : ¬ ((x : Int) = 98) := by omega
  have h5 : ¬ ((x : Int) = 10) := by omega
  have h6 : ¬ (i + 1 < 2) := by omega
  have h7 : ¬ ((x : Int) = eofRune) := by
    unfold eofRune
    omega
  have hfmt : fmtRune (x : Int) = [x] := by
    have : (x : Int) < 128 := by omega
    simp [fmtRune, this]
  simp only [h1, h2, h3, h4, h5, h6, h7, if_false, hskip, throw, throwAt, hfmt]

/-- A backslash as the last byte of the buffer. -/
theorem getValueLoop_escapeEof (fuel i : Nat) (p : position) (inp pre : Bytes)
    (f : Bytes) (sec : Option IniSection) (calls : List Call) (ret : Bytes)
    (inquote : Bool) (hin : inp = pre ++ [92]) (hi : i = pre.length + 1) :
    getValueLoop (fuel + 1) ⟨p, inp, f, sec, calls⟩ i ret true inquote
      = .throw ⟨f, (posAfter p pre).lineno + 1, (posAfter p pre).colno + 1,
            bytes "incomplete escape sequence at EOF"⟩
          ⟨posAfter p pre, [92], f, sec, calls⟩ := by
  have hlt : ¬ (i < inp.length) := by
    simp [hin, hi]
  have hskip : skip (i + 1 - 2) ⟨p, inp, f, sec, calls⟩
      = ⟨posAfter p pre, [92], f, sec, calls⟩ := by
    have e : i + 1 - 2 = pre.length := by omega
    rw [e, hin]
    exact skip_front p pre [92] f sec calls
  rw [getValueLoop]
  simp only [hlt, if_false]
  have h6 : ¬ (i + 1 < 2) := by omega
  simp only [eofRune, h6, if_false, hskip, throw, throwAt]
  simp

/-- The branch of `do1KeyValue` with an '=', when `getValue` refuses the
value text. -/
theorem do1KeyValue_lexThrow (s : IniSink) (keypos p : position) (k w2 w3 src f : Bytes)
    (sec : Option IniSection) (calls : List Call) (e : ParseError) (l' : iniParse)
    (hw2 : IsBlanks w2) (hw3 : IsBlanks w3) (hsrc : NoLeadingBlank src)
    (hget : getValue ⟨posAfter p (w2 ++ 61 :: w3), src, f, sec, calls⟩ = .throw e l') :
    do1KeyValue s keypos k ⟨p, w2 ++ 61 :: (w3 ++ src), f, sec, calls⟩ = .throw e l' := by
  have h1 := skipWS_blanks p w2 (61 :: (w3 ++ src)) f sec calls hw2
    (by intro x hx; simp at hx; omega)
  have h2 := match_hit (posAfter p w2) 61 (w3 ++ src) f sec calls
  have h3 := skipWS_blanks (advance (posAfter p w2) 61) w3 src f sec calls hw3 hsrc
  simp only [posAfter_append, posAfter_cons] at hget
  unfold do1KeyValue
  simp only [h1, h2, h3, hget]

/-- Every byte string splits into its leading blanks and a rest that does
not begin with a blank. -/
theorem split_leading_blanks (p : Bytes) :
    ∃ w q, p = w ++ q ∧ IsBlanks w ∧ NoLeadingBlank q := by
  induction p with
  | nil => exact ⟨[], [], rfl, by intro c hc; simp at hc, by intro c hc; simp at hc⟩
  | cons c t ih =>
    by_cases hc : c = 32 ∨ c = 9
    · obtain ⟨w, q, hq, hw, hn⟩ := ih
      refine ⟨c :: w, q, by simp [hq], ?_, hn⟩
      intro x hx
      rcases List.mem_cons.1 hx with h | h
      · subst h
        exact hc
      · exact hw x h
    · refine ⟨[], c :: t, rfl, by intro x hx; simp at hx, ?_⟩
      intro x hx
      simp at hx
      subst hx
      omega

theorem colFold_no_tab (w : Bytes) : ∀ (x : Nat), 9 ∉ w → colFold x w = x + w.length := by
  induction w with
  | nil =>
    intro x _
    simp [colFold]
  | cons c t ih =>
    intro x h
    have hc : c ≠ 9 := fun e => h (by simp [e])
    have ht : 9 ∉ t := fun e => h (by simp [e])
    have := ih (x + 1) ht
    simp only [colFold, List.foldl_cons, hc, if_false, List.length_cons] at this ⊢
    rw [this]
    omega

/-- The statement `k=p\X...`: what `do1` returns and where it leaves the
parser. -/
theorem do1_invalid_escape (s : IniSink) (f k p : Bytes) (x : Nat) (post : Bytes)
    (hk : IsKey k) (hp : IsPlainValue p)
    (hx : x ≠ 34 ∧ x ≠ 92 ∧ x ≠ 110 ∧ x ≠ 116 ∧ x ≠ 98 ∧ x ≠ 10) (hascii : x < 128) :
    do1 s ⟨⟨0, 0⟩, k ++ 61 :: (p ++ 92 :: x :: post), f, none, []⟩
      = .ok (some ⟨f, 1, colFold 0 (k ++ 61 :: p) + 1, bytes "invalid escape sequence \\" ++ [x]⟩)
          (skipTo 10 ⟨⟨0, colFold 0 (k ++ 61 :: p)⟩, 92 :: x :: post, f, none, []⟩).2 := by
  obtain ⟨w3, q, hpq, hw3, hq0⟩ := split_leading_blanks p
  have hkb := isKey_keyBytes k hk
  have hq : IsPlainValue q := fun c hc => hp c (by simp [hpq, hc])
  have hseg : ∀ c ∈ q, (c ≠ 92 ∧ c ≠ 34 ∧ c ≠ 10) ∧ (false = true ∨ (c ≠ 35 ∧ c ≠ 59)) := by
    intro c hc
    have := hq c hc
    exact ⟨⟨this.1, this.2.1, this.2.2.2.2⟩, Or.inr ⟨this.2.2.1, this.2.2.2.1⟩⟩
  have h1 := do1Body_key s 0 0 [] k ([] ++ 61 :: (w3 ++ (q ++ 92 :: x :: post))) f none []
    (by intro c hc; simp at hc) hk (by intro c hc; simp at hc; subst hc; unfold IsKeyByte IsLetter; omega)
  have hsrc : NoLeadingBlank (q ++ 92 :: x :: post) := by
    cases q with
    | nil =>
      intro c hc
      simp at hc
      omega
    | cons y t =>
      intro c hc
      exact hq0 c (by simpa using hc)
  generalize hvp : posAfter (posAfter ⟨0, colFold 0 []⟩ k) ([] ++ 61 :: w3) = valpos at *
  have hget : getValue ⟨valpos, q ++ 92 :: x :: post, f, none, []⟩
      = .throw ⟨f, (posAfter valpos q).lineno + 1, (posAfter valpos q).colno + 1,
            bytes "invalid escape sequence \\" ++ [x]⟩
          ⟨posAfter valpos q, 92 :: x :: post, f, none, []⟩ := by
    unfold getValue
    have hlen : (q ++ 92 :: x :: post).length + 1 = (((post.length + 1) + 1) + 1) + q.length := by
      simp only [List.length_append, List.length_cons]
      omega
    simp only [hlen]
    rw [getValueLoop_run q false hseg _ (((post.length + 1) + 1) + 1) 0 valpos _ []
      (92 :: x :: post) f none [] [] (by simp) rfl rfl]
    rw [getValueLoop_backslash _ _ valpos _ q (x :: post) f none [] _ false rfl (by simp)]
    rw [getValueLoop_badEscape _ _ valpos _ q x post f none [] _ false rfl (by simp) hx hascii]
  have h2 := do1KeyValue_lexThrow s ⟨0, colFold 0 []⟩ (posAfter ⟨0, colFold 0 []⟩ k) k [] w3
    (q ++ 92 :: x :: post) f none [] _ _ (by intro c hc; simp at hc) hw3 hsrc
    (by rw [hvp]; exact hget)
  have hn : 10 ∉ k ++ 61 :: p := by
    have a := keyByte_no_newline k hkb
    have b : 10 ∉ p := fun h => (hp 10 h).2.2.2.2 rfl
    simp [a, b]
  have hpos : posAfter valpos q = ⟨0, colFold 0 (k ++ 61 :: p)⟩ := by
    rw [← hvp, ← posAfter_line 0 0 _ hn, hpq]
    simp [colFold, posAfter_append, posAfter_cons]
  have e : k ++ 61 :: (p ++ 92 :: x :: post)
      = [] ++ (k ++ ([] ++ 61 :: (w3 ++ (q ++ 92 :: x :: post)))) := by
    simp [hpq]
  unfold do1
  rw [e, h1, h2, hpos]

/-- The statement `k=p\` at the end of the buffer. -/
theorem do1_escape_eof (s : IniSink) (f k p : Bytes) (hk : IsKey k) (hp : IsPlainValue p) :
    do1 s ⟨⟨0, 0⟩, k ++ 61 :: (p ++ [92]), f, none, []⟩
      = .ok (some ⟨f, 1, colFold 0 (k ++ 61 :: p) + 1, bytes "incomplete escape sequence at EOF"⟩)
          (skipTo 10 ⟨⟨0, colFold 0 (k ++ 61 :: p)⟩, [92], f, none, []⟩).2 := by
  obtain ⟨w3, q, hpq, hw3, hq0⟩ := split_leading_blanks p
  have hkb := isKey_keyBytes k hk
  have hq : IsPlainValue q := fun c hc => hp c (by simp [hpq, hc])
  have hseg : ∀ c ∈ q, (c ≠ 92 ∧ c ≠ 34 ∧ c ≠ 10) ∧ (false = true ∨ (c ≠ 35 ∧ c ≠ 59)) := by
    intro c hc
    have := hq c hc
    exact ⟨⟨this.1, this.2.1, this.2.2.2.2⟩, Or.inr ⟨this.2.2.1, this.2.2.2.1⟩⟩
  have h1 := do1Body_key s 0 0 [] k ([] ++ 61 :: (w3 ++ (q ++ [92]))) f none []
    (by intro c hc; simp at hc) hk (by intro c hc; simp at hc; subst hc; unfold IsKeyByte IsLetter; omega)
  have hsrc : NoLeadingBlank (q ++ [92]) := by
    cases q with
    | nil =>
      intro c hc
      simp at hc
      omega
    | cons y t =>
      intro c hc
      exact hq0 c (by simpa using hc)
  generalize hvp : posAfter (posAfter ⟨0, colFold 0 []⟩ k) ([] ++ 61 :: w3) = valpos at *
  have hget : getValue ⟨valpos, q ++ [92], f, none, []⟩
      = .throw ⟨f, (posAfter valpos q).lineno + 1, (posAfter valpos q).colno + 1,
            bytes "incomplete escape sequence at EOF"⟩
          ⟨posAfter valpos q, [92], f, none, []⟩ := by
    unfold getValue
    have hlen : (q ++ [92]).length + 1 = ((0 + 1) + 1) + q.length := by
      simp only [List.length_append, List.length_cons, List.length_nil]
      omega
    simp only [hlen]
    rw [getValueLoop_run q false hseg _ ((0 + 1) + 1) 0 valpos _ []
      [92] f none [] [] (by simp) rfl rfl]
    rw [getValueLoop_backslash _ _ valpos _ q [] f none [] _ false rfl (by simp)]
    rw [getValueLoop_escapeEof _ _ valpos _ q f none [] _ false rfl (by simp)]
  have h2 := do1KeyValue_lexThrow s ⟨0, colFold 0 []⟩ (posAfter ⟨0, colFold 0 []⟩ k) k [] w3
    (q ++ [92]) f none [] _ _ (by intro c hc; simp at hc) hw3 hsrc
    (by rw [hvp]; exact hget)
  have hn : 10 ∉ k ++ 61 :: p := by
    have a := keyByte_no_newline k hkb
    have b : 10 ∉ p := fun h => (hp 10 h).2.2.2.2 rfl
    simp [a, b]
  have hpos : posAfter valpos q = ⟨0, colFold 0 (k ++ 61 :: p)⟩ := by
    rw [← hvp, ← posAfter_line 0 0 _ hn, hpq]
    simp [colFold, posAfter_append, posAfter_cons]
  have e : k ++ 61 :: (p ++ [92]) = [] ++ (k ++ ([] ++ 61 :: (w3 ++ (q ++ [92])))) := by
    simp [hpq]
  unfold do1
  rw [e, h1, h2, hpos]

/-- A header line after the blanks `w` whose section callback returns the
error `e`: the header becomes the current section, the error is reported at
the opening bracket, and the rest of the line is skipped. -/
theorem do1_header_rejected (s : IniSink) (ln col : Nat) (w : Bytes) (sec : IniSection)
    (tail f : Bytes) (cur : Option IniSection) (calls : List Call)
    (g : List Call → IniSection → Option SinkError) (e : SinkError) (hw : IsBlanks w)
    (hwf : WellFormedStmt (.header sec)) (ht : AtLineEnd tail) (hg : s.Section = some g)
    (he : g calls sec = some e) :
    do1 s ⟨⟨ln, col⟩, w ++ (headerText sec ++ tail), f, cur, calls⟩
      = .ok (some ⟨f, ln + 1, colFold col w + 1, e.Error⟩)
          ⟨posAfter ⟨ln, colFold col w⟩ (headerText sec), tail, f, some sec,
            calls ++ [Call.Section sec]⟩ := by
  have hws := skipWS_blanks ⟨ln, col⟩ w (headerText sec ++ tail) f cur calls hw
    (by
      intro x hx
      cases hsub : sec.Subsection <;> simp [headerText, hsub] at hx <;> omega)
  rw [posAfter_line ln col w (blanks_no_newline w hw)] at hws
  have hskip := skipTo_stop (posAfter ⟨ln, colFold col w⟩ (headerText sec)) [] tail f (some sec)
    (calls ++ [Call.Section sec]) (by simp) ht
  simp only [List.nil_append, posAfter_nil] at hskip
  unfold do1 do1Body
  simp only [hws, getSection_header _ sec tail f cur calls hwf]
  simp only [callSection, hg, he, throwAt, hskip]

/-- Lines `key=value` only, with a sink whose `Value` accepts: one `Value`
call a line, all with the section that was current before them. -/
theorem keyValues_loop (s : IniSink) (hv : ∀ h sec k v, s.Value h sec k v = none) (f : Bytes)
    (doc : List Stmt) (hwf : ∀ st ∈ doc, (∃ k v, st = Stmt.keyValue k v) ∧ WellFormedStmt st) :
    ∀ (fuel : Nat) (p : position) (cur : Option IniSection) (calls : List Call)
      (err : ParseErrors), (renderDoc doc).length ≤ fuel →
      (doLoop s fuel ⟨p, renderDoc doc, f, cur, calls⟩ err).result
        = some (err, calls ++ expectedCalls cur doc) := by
  induction doc with
  | nil =>
    intro fuel p cur calls err _
    simp [renderDoc, doLoop_done, Res.result, expectedCalls]
  | cons st more ih =>
    intro fuel p cur calls err hfuel
    obtain ⟨⟨k, v, rfl⟩, hst⟩ := hwf st (by simp)
    have hmore : ∀ x ∈ more, (∃ k v, x = Stmt.keyValue k v) ∧ WellFormedStmt x :=
      fun x hx => hwf x (by simp [hx])
    obtain ⟨p', h1⟩ := do1_keyValue_accept s p k v (renderDoc more) f cur calls hst
      (hv calls cur k v)
    have hne : renderStmt (.keyValue k v) ++ renderDoc more ≠ [] := by
      simp [renderStmt]
    have e : renderDoc (.keyValue k v :: more)
        = renderStmt (.keyValue k v) ++ renderDoc more := rfl
    rw [e] at hfuel ⊢
    obtain ⟨fuel1, rfl⟩ : ∃ n, fuel = n + 1 := ⟨fuel - 1, by
      have : 0 < (renderStmt (.keyValue k v) ++ renderDoc more).length :=
        List.length_pos.2 hne
      omega⟩
    rw [doLoop_none s _ _ _ _ hne h1]
    rw [ih hmore fuel1 p' cur _ err (by
      have : 1 ≤ (renderStmt (.keyValue k v)).length := by
        simp only [renderStmt, List.length_append, List.length_cons]
        omega
      simp only [List.length_append] at hfuel
      omega)]
    simp [expectedCalls]

theorem advance_eq_stepSpec : advance = stepSpec := by
  funext p c
  unfold advance stepSpec tabwidth
  have e : p.colno + (8 - p.colno % 8) = 8 * (p.colno / 8 + 1) := by omega
  rw [e]

/-- The clamp of `skip` is the clamp of `take` and `drop`. -/
theorem skip_take_drop (n : Nat) (l : iniParse) :
    skip n l = { l with toposition := posAfter l.toposition (l.input.take n),
                        input := l.input.drop n } := by
  rw [skip_fold]
  unfold posAfter
  by_cases h : n > l.input.length
  · have h1 : l.input.length ≤ n := by omega
    simp [h, List.take_of_length_le h1, List.drop_eq_nil_of_le h1]
  · simp [h]

theorem posAfter_lineno (bs : Bytes) :
    ∀ (p : position), (posAfter p bs).lineno = p.lineno + bs.count 10 := by
  induction bs with
  | nil =>
    intro p
    simp [posAfter]
  | cons c t ih =>
    intro p
    rw [posAfter_cons, ih]
    by_cases hc : c = 10
    · subst hc
      simp [advance]
      omega
    · have h1 : (advance p c).lineno = p.lineno := by
        unfold advance
        simp only [hc, if_false]
        split <;> rfl
      have h2 : List.count 10 (c :: t) = List.count 10 t := by
        rw [List.count_cons_of_ne]
        exact fun h => hc h.symm
      rw [h1, h2]

/-! ## The parser only advances -/

theorem advances_refl (l : iniParse) : Advances l l :=
  ⟨rfl, [], by simp, rfl⟩

theorem advances_trans {a b c : iniParse} (h1 : Advances a b) (h2 : Advances b c) :
    Advances a c := by
  obtain ⟨f1, x, hx, px⟩ := h1
  obtain ⟨f2, y, hy, py⟩ := h2
  refine ⟨by rw [f2, f1], x ++ y, ?_, ?_⟩
  · rw [hx, hy, List.append_assoc]
  · rw [py, px, posAfter_append]

theorem advances_lineno {l l' : iniParse} (h : Advances l l') : l.lineno ≤ l'.lineno := by
  obtain ⟨_, a, _, pa⟩ := h
  have e : l'.lineno = (posAfter l.toposition a).lineno := by rw [← pa]
  rw [e, posAfter_lineno]
  exact Nat.le_add_right _ _

theorem advances_length {l l' : iniParse} (h : Advances l l') :
    l'.input.length ≤ l.input.length := by
  obtain ⟨_, a, ha, _⟩ := h
  rw [ha, List.length_append]
  exact Nat.le_add_left _ _

theorem advances_suffix {l l' : iniParse} (h : Advances l l') : l'.input <:+ l.input := by
  obtain ⟨_, a, ha, _⟩ := h
  exact ⟨a, ha.symm⟩

theorem skip_advances (n : Nat) (l : iniParse) : Advances l (skip n l) := by
  rw [skip_take_drop]
  exact ⟨rfl, l.input.take n, (List.take_append_drop n l.input).symm, rfl⟩

theorem skip_length (n : Nat) (l : iniParse) :
    (skip n l).input.length = l.input.length - n := by
  rw [skip_take_drop]
  simp

theorem skipWS_advances (l : iniParse) : Advances l (skipWS l).2 := by
  rw [skipWS_snd]
  exact skip_advances _ l

theorem match_advances (text : Bytes) (l : iniParse) : Advances l (match_ text l).2 := by
  unfold match_
  by_cases h : l.input.length ≥ text.length ∧ l.input.take text.length = text
  · simp only [h, and_self, if_true]
    exact skip_advances _ l
  · simp only [h, if_false]
    exact advances_refl l

theorem skipTo_advances (c : Nat) (l : iniParse) : Advances l (skipTo c l).2 := by
  unfold skipTo
  split
  · exact skip_advances _ l
  · exact skip_advances _ l

theorem indexByte_spec (c : Nat) :
    ∀ (bs : Bytes) (i : Nat), indexByte c bs = some i →
      c ∉ bs.take i ∧ (bs.drop i).head? = some c := by
  intro bs
  induction bs with
  | nil =>
    intro i h
    simp [indexByte] at h
  | cons b t ih =>
    intro i h
    unfold indexByte at h
    by_cases hb : b = c
    · simp only [hb, if_true, Option.some.injEq] at h
      subst h
      simp [hb]
    · simp only [hb, if_false, Option.map_eq_some'] at h
      obtain ⟨j, hj, rfl⟩ := h
      obtain ⟨h1, h2⟩ := ih j hj
      refine ⟨?_, ?_⟩
      · simp only [List.take_succ_cons, List.mem_cons, not_or]
        exact ⟨fun e => hb e.symm, h1⟩
      · simpa using h2

theorem indexByte_none_spec (c : Nat) :
    ∀ (bs : Bytes), indexByte c bs = none → c ∉ bs := by
  intro bs
  induction bs with
  | nil =>
    intro _
    simp
  | cons b t ih =>
    intro h
    unfold indexByte at h
    by_cases hb : b = c
    · simp [hb] at h
    · simp only [hb, if_false, Option.map_eq_none'] at h
      simp only [List.mem_cons, not_or]
      exact ⟨fun e => hb e.symm, ih h⟩

/-- The resynchronisation `skipTo('\n')` stops at a newline or at the end of
the input and crosses no newline. -/
theorem skipTo_lineEnd (l : iniParse) :
    AtLineEnd (skipTo 10 l).2.input ∧ (skipTo 10 l).2.lineno = l.lineno := by
  unfold skipTo
  cases h : indexByte 10 l.input with
  | none =>
    have hn := indexByte_none_spec 10 l.input h
    simp only [skip_take_drop]
    refine ⟨?_, ?_⟩
    · simp [AtLineEnd]
    · show (posAfter l.toposition (l.input.take l.input.length)).lineno = l.lineno
      rw [posAfter_lineno, List.take_length, List.count_eq_zero_of_not_mem hn]
      rfl
  | some i =>
    obtain ⟨h1, h2⟩ := indexByte_spec 10 l.input i h
    simp only [skip_take_drop]
    refine ⟨?_, ?_⟩
    · intro c hc
      simp only [h2, Option.mem_def, Option.some.injEq] at hc
      exact hc.symm
    · show (posAfter l.toposition (l.input.take i)).lineno = l.lineno
      rw [posAfter_lineno, List.count_eq_zero_of_not_mem h1]
      rfl

/-- On a non-empty input that does not begin with a newline, `skipTo('\n')`
consumes at least one byte. -/
theorem skipTo_shrinks (l : iniParse) (hne : l.input ≠ []) (hh : l.input.head? ≠ some 10) :
    (skipTo 10 l).2.input.length < l.input.length := by
  have hpos : 0 < l.input.length := List.length_pos.mpr hne
  unfold skipTo
  cases h : indexByte 10 l.input with
  | none =>
    simp only [skip_length]
    omega
  | some i =>
    obtain ⟨_, h2⟩ := indexByte_spec 10 l.input i h
    simp only [skip_length]
    have hi : i ≠ 0 := by
      intro e
      subst e
      simp only [List.drop_zero] at h2
      exact hh h2
    omega

/-! ## Soundness of the parser methods -/

theorem sound_mono {α : Type} {ln ln' : Nat} {l0 l : iniParse} {r : Res α}
    (hln : ln' ≤ ln) (h : Advances l0 l) (hr : r.Sound ln l) : r.Sound ln' l0 := by
  cases r with
  | ok a l' => exact advances_trans h hr
  | throw e l' =>
    obtain ⟨h1, h2, h3, h4⟩ := hr
    exact ⟨advances_trans h h1, by omega, h3, h4⟩
  | fault l' => trivial
  | outOfFuel => exact hr

theorem throwAt_sound {α : Type} (ln : Nat) (l : iniParse) (pos : position) (msg : Bytes)
    (h1 : ln ≤ pos.lineno) (h2 : pos.lineno ≤ l.lineno) :
    (throwAt l pos msg : Res α).Sound ln l := by
  refine ⟨advances_refl l, ?_, ?_, ?_⟩
  · show ln + 1 ≤ pos.lineno + 1
    omega
  · show pos.lineno + 1 ≤ l.lineno + 1
    omega
  · show 1 ≤ pos.colno + 1
    omega

theorem throw_sound {α : Type} (l : iniParse) (msg : Bytes) :
    (throw l msg : Res α).Sound l.lineno l :=
  throwAt_sound l.lineno l l.toposition msg (Nat.le_refl _) (Nat.le_refl _)

theorem countWhile_le (fn : Int → Bool) (bs : Bytes) : countWhile fn bs ≤ bs.length := by
  induction bs with
  | nil => simp [countWhile]
  | cons c t ih =>
    unfold countWhile
    split
    · simp only [List.length_cons]
      omega
    · exact Nat.zero_le _

theorem takeWhile_eq (fn : Int → Bool) (l : iniParse) :
    takeWhile fn l
      = .ok (l.input.take (countWhile fn l.input)) (skip (countWhile fn l.input) l) := by
  unfold takeWhile take
  have h := countWhile_le fn l.input
  simp only [gt_iff_lt, ite_eq_right_iff]
  intro h'
  omega

theorem getKey_eq (l : iniParse) :
    getKey l = .ok (l.input.take (countWhile isKeyChar l.input))
      (skip (countWhile isKeyChar l.input) l) :=
  takeWhile_eq isKeyChar l

theorem throw_sound_from {α : Type} {ln : Nat} {l0 l : iniParse} (msg : Bytes)
    (h : Advances l0 l) (hln : ln ≤ l0.lineno) : (throw l msg : Res α).Sound ln l0 :=
  sound_mono (Nat.le_trans hln (advances_lineno h)) h (throw_sound l msg)

theorem getSubsectionLoop_fuel (input : Bytes) :
    ∀ (fuel i : Nat) (ret : Bytes), i ≤ input.length → input.length + 1 ≤ fuel + i →
      getSubsectionLoop input fuel i ret ≠ .outOfFuel := by
  intro fuel
  induction fuel with
  | zero =>
    intro i ret h1 h2
    omega
  | succ fuel ih =>
    intro i ret h1 h2
    unfold getSubsectionLoop
    by_cases hi : i + 1 < input.length
    · simp only [hi, if_true]
      have e1 : input[i]? = some (input[i]) := List.getElem?_eq_getElem (by omega)
      have e2 : input[i + 1]? = some (input[i + 1]) := List.getElem?_eq_getElem hi
      simp only [e1, e2]
      split_ifs
      all_goals first
        | exact ih _ _ (by omega) (by omega)
        | simp
    · simp [hi]

theorem getSubsection_sound (l : iniParse) : (getSubsection l).Sound l.lineno l := by
  unfold getSubsection
  split
  · exact advances_refl l
  · rename_i hlen
    split
    · trivial
    · split
      · exact advances_refl l
      · have hf := getSubsectionLoop_fuel l.input l.input.length 1 [] (by omega) (by omega)
        split
        · exact advances_refl l
        · trivial
        · rename_i h
          exact hf h
        · split
          · trivial
          · split
            · exact advances_refl l
            · exact skip_advances _ l

theorem match_one_hit (c : Nat) (l : iniParse) (h : l.input.head? = some c) :
    match_ [c] l = (true, skip 1 l) := by
  unfold match_
  cases hin : l.input with
  | nil => simp [hin] at h
  | cons x t =>
    simp only [hin, List.head?_cons, Option.some.injEq] at h
    simp [h]

/-- After the opening bracket, `getSection` is sound from the state behind
the bracket. -/
theorem getSection_hit_sound (l : iniParse) (h : l.input.head? = some 91) :
    (getSection l).Sound l.lineno (skip 1 l) := by
  have a1 : Advances l (skip 1 l) := skip_advances 1 l
  have n1 : l.lineno ≤ (skip 1 l).lineno := advances_lineno a1
  unfold getSection
  rw [match_one_hit 91 l h]
  simp only [getKey_eq]
  generalize hl2 : skip (countWhile isKeyChar (skip 1 l).input) (skip 1 l) = l2
  have a2 : Advances (skip 1 l) l2 := by
    rw [← hl2]
    exact skip_advances _ _
  split
  · exact throw_sound_from _ a2 n1
  · rcases hm : match_ [93] l2 with ⟨b, l3⟩
    have a3 : Advances l2 l3 := by
      have := match_advances [93] l2
      rwa [hm] at this
    have a13 := advances_trans a2 a3
    cases b with
    | true => exact a13
    | false =>
      simp only []
      rcases hw : skipWS l3 with ⟨b2, l4⟩
      have a4 : Advances l3 l4 := by
        have := skipWS_advances l3
        rwa [hw] at this
      have a14 := advances_trans a13 a4
      cases b2 with
      | false => exact throw_sound_from _ a14 n1
      | true =>
        simp only []
        have hs := getSubsection_sound l4
        cases hg : getSubsection l4 with
        | throw e l5 =>
          rw [hg] at hs
          exact sound_mono (Nat.le_trans n1 (advances_lineno a14)) a14 hs
        | fault l5 => trivial
        | outOfFuel =>
          rw [hg] at hs
          exact hs
        | ok o l5 =>
          rw [hg] at hs
          have a15 : Advances (skip 1 l) l5 := advances_trans a14 hs
          cases o with
          | none => exact throw_sound_from _ a15 n1
          | some sub =>
            simp only []
            rcases hm2 : match_ [93] l5 with ⟨b3, l6⟩
            have a6 : Advances l5 l6 := by
              have := match_advances [93] l5
              rwa [hm2] at this
            have a16 := advances_trans a15 a6
            cases b3 with
            | false => exact throw_sound_from _ a16 n1
            | true => exact a16

theorem getValueLoop_sound :
    ∀ (fuel : Nat) (l : iniParse) (i : Nat) (ret : Bytes) (esc inq : Bool),
      1 ≤ fuel → l.input.length + 1 ≤ fuel + i →
      (getValueLoop fuel l i ret esc inq).Sound l.lineno l := by
  intro fuel
  induction fuel with
  | zero =>
    intro l i ret esc inq h1
    omega
  | succ fuel ih =>
    intro l i ret esc inq _ h2
    have hthrow : ∀ (n : Nat) (msg : Bytes),
        (throw (skip n l) msg : Res Bytes).Sound l.lineno l :=
      fun n msg => throw_sound_from msg (skip_advances n l) (Nat.le_refl _)
    unfold getValueLoop
    by_cases hi : i < l.input.length
    · have hf : 1 ≤ fuel := by omega
      have hrec : ∀ ret esc inq, (getValueLoop fuel l (i + 1) ret esc inq).Sound l.lineno l :=
        fun ret esc inq => ih l (i + 1) ret esc inq hf (by omega)
      have hcmt : ∀ ret esc inq,
          (getValueLoop fuel (skipTo 10 (skip (i + 1) l)).2 (i + 1) ret esc inq).Sound
            l.lineno l := by
        intro ret esc inq
        have ha : Advances l (skipTo 10 (skip (i + 1) l)).2 :=
          advances_trans (skip_advances _ l) (skipTo_advances _ _)
        have hlen := advances_length ha
        exact sound_mono (advances_lineno ha) ha (ih _ (i + 1) ret esc inq hf (by omega))
      simp only [hi, if_true]
      split_ifs
      all_goals first
        | exact hrec _ _ _
        | exact hcmt _ _ _
        | exact hthrow _ _
        | exact skip_advances _ l
        | trivial
    · simp only [hi, if_false]
      have e1 : ¬ (eofRune = 34 ∨ eofRune = 92) := by decide
      have e2 : ¬ (eofRune = 110) := by decide
      have e3 : ¬ (eofRune = 116) := by decide
      have e4 : ¬ (eofRune = 98) := by decide
      have e5 : ¬ (eofRune = 10) := by decide
      have e6 : ¬ (eofRune = 92) := by decide
      have e7 : ¬ (eofRune = 34) := by decide
      simp only [e1, e2, e3, e4, e5, e6, e7, if_false, or_true, if_true]
      split_ifs
      all_goals first
        | exact hthrow _ _
        | exact skip_advances _ l
        | trivial

theorem getValue_sound (l : iniParse) : (getValue l).Sound l.lineno l :=
  getValueLoop_sound (l.input.length + 1) l 0 [] false false (by omega) (by omega)

theorem deliverValue_sound (s : IniSink) (keypos valpos : position) (k v : Bytes)
    (l : iniParse) (ln : Nat) (hk1 : ln ≤ keypos.lineno) (hk2 : keypos.lineno ≤ l.lineno)
    (hv1 : ln ≤ valpos.lineno) (hv2 : valpos.lineno ≤ l.lineno) :
    (deliverValue s keypos valpos k v l).Sound ln l := by
  have a : Advances l { l with calls := l.calls ++ [Call.Value l.sec k v] } :=
    ⟨rfl, [], by simp, rfl⟩
  unfold deliverValue callValue
  cases hs : s.Value l.calls l.sec k v with
  | none => exact a
  | some err =>
    cases err with
    | BadKey m => exact sound_mono (Nat.le_refl _) a (throwAt_sound ln _ keypos m hk1 hk2)
    | BadValue m => exact sound_mono (Nat.le_refl _) a (throwAt_sound ln _ valpos m hv1 hv2)
    | other m => exact sound_mono (Nat.le_refl _) a (throwAt_sound ln _ valpos m hv1 hv2)

theorem do1KeyValue_sound (s : IniSink) (keypos : position) (k : Bytes) (l : iniParse)
    (ln : Nat) (hk1 : ln ≤ keypos.lineno) (hk2 : keypos.lineno ≤ l.lineno) :
    (do1KeyValue s keypos k l).Sound ln l := by
  unfold do1KeyValue
  simp only []
  have a1 : Advances l (skipWS l).2 := skipWS_advances l
  rcases hm : match_ [61] (skipWS l).2 with ⟨b, l2⟩
  have a2 : Advances l l2 := by
    have := match_advances [61] (skipWS l).2
    rw [hm] at this
    exact advances_trans a1 this
  have n2 := advances_lineno a2
  cases b with
  | false =>
    simp only []
    split
    · exact throw_sound_from _ a2 (by omega)
    · exact sound_mono (Nat.le_refl _) a2
        (deliverValue_sound s keypos l2.toposition k [] l2 ln hk1 (by omega) (by omega)
          (Nat.le_refl _))
  | true =>
    simp only []
    have a3 : Advances l (skipWS l2).2 := advances_trans a2 (skipWS_advances l2)
    have n3 := advances_lineno a3
    have hs := getValue_sound (skipWS l2).2
    cases hg : getValue (skipWS l2).2 with
    | throw e l5 =>
      rw [hg] at hs
      exact sound_mono (by omega) a3 hs
    | fault l5 => trivial
    | outOfFuel =>
      rw [hg] at hs
      exact hs
    | ok v l5 =>
      rw [hg] at hs
      have n5 := advances_lineno hs
      exact sound_mono (Nat.le_refl _) (advances_trans a3 hs)
        (deliverValue_sound s keypos (skipWS l2).2.toposition k v l5 ln hk1 (by omega)
          (by omega) n5)

/-! ## Progress of one statement -/

/-- Once the opening bracket is matched, `getSection` raises an error or
returns a section. -/
theorem getSection_hit_some (l : iniParse) (h : l.input.head? = some 91) (l' : iniParse) :
    getSection l ≠ .ok none l' := by
  intro hc
  unfold getSection at hc
  rw [match_one_hit 91 l h] at hc
  simp only [getKey_eq] at hc
  split at hc
  · simp [throw, throwAt] at hc
  · split at hc
    · simp at hc
    · split at hc
      · simp [throw, throwAt] at hc
      · split at hc
        · simp at hc
        · simp at hc
        · simp at hc
        · simp [throw, throwAt] at hc
        · split at hc
          · simp [throw, throwAt] at hc
          · simp at hc

theorem peek_of_cons (l : iniParse) (c : Nat) (t : Bytes) (h : l.input = c :: t) :
    peek l = (c : Int) := by
  unfold peek
  rw [h]

theorem peek_of_nil (l : iniParse) (h : l.input = []) : peek l = eofRune := by
  unfold peek
  rw [h]

/-- One statement either consumes a byte before anything can go wrong, or
raises its error in front of a byte that is not a newline. -/
theorem do1Body_progress (s : IniSink) (l : iniParse) (hne : l.input ≠ []) :
    (∃ l1, Advances l l1 ∧ l1.input.length < l.input.length
        ∧ (do1Body s l).Sound l.lineno l1)
      ∨ ((do1Body s l).Sound l.lineno l
        ∧ ∃ e l', do1Body s l = .throw e l' ∧ l'.input ≠ [] ∧ l'.input.head? ≠ some 10) := by
  obtain ⟨l2, hl2⟩ : ∃ l2, (skipWS l).2 = l2 := ⟨_, rfl⟩
  have a2 : Advances l l2 := by
    rw [← hl2]
    exact skipWS_advances l
  have n2 := advances_lineno a2
  have len2 := advances_length a2
  have hpos : 0 < l.input.length := List.length_pos.mpr hne
  cases hin : l2.input with
  | nil =>
    have h91 : l2.input.head? ≠ some 91 := by simp [hin]
    have hp := peek_of_nil l2 hin
    have hb : do1Body s l = throw l2 (bytes "Expected section or key") := by
      unfold do1Body
      simp only [hl2, getSection_miss l2 h91, hp, isAlpha_eof]
      simp [eofRune]
    left
    refine ⟨l2, a2, ?_, ?_⟩
    · rw [hin]
      exact hpos
    · rw [hb]
      exact throw_sound_from _ (advances_refl l2) n2
  | cons c t =>
    have hp := peek_of_cons l2 c t hin
    have hlen : l2.input.length = t.length + 1 := by rw [hin, List.length_cons]
    by_cases h91 : l2.input.head? = some 91
    · left
      refine ⟨skip 1 l2, advances_trans a2 (skip_advances 1 l2), ?_, ?_⟩
      · rw [skip_length]
        omega
      · have hs := getSection_hit_sound l2 h91
        have hsome := getSection_hit_some l2 h91
        have ns : l2.lineno ≤ (skip 1 l2).lineno := advances_lineno (skip_advances 1 l2)
        unfold do1Body
        simp only [hl2]
        cases hg : getSection l2 with
        | throw e l3 =>
          rw [hg] at hs
          exact sound_mono n2 (advances_refl _) hs
        | fault l3 => trivial
        | outOfFuel =>
          rw [hg] at hs
          exact hs
        | ok o l3 =>
          rw [hg] at hs
          cases o with
          | none => exact absurd hg (hsome l3)
          | some sec =>
            simp only []
            have n3 : (skip 1 l2).lineno ≤ l3.lineno := advances_lineno hs
            unfold callSection
            cases hsec : s.Section with
            | none => exact hs
            | some g =>
              simp only []
              have a4 : Advances (skip 1 l2)
                  { l3 with sec := some sec, calls := l3.calls ++ [Call.Section sec] } :=
                advances_trans hs ⟨rfl, [], by simp, rfl⟩
              cases hgs : g l3.calls sec with
              | none => exact a4
              | some err =>
                exact sound_mono (Nat.le_refl _) a4
                  (throwAt_sound l.lineno _ l2.toposition err.Error n2
                    (Nat.le_trans ns n3))
    · by_cases hal : isAlpha (c : Int) = true
      · left
        have hcw : 1 ≤ countWhile isKeyChar l2.input := by
          rw [hin]
          unfold countWhile
          simp [isKeyChar, hal]
        refine ⟨skip (countWhile isKeyChar l2.input) l2,
          advances_trans a2 (skip_advances _ l2), ?_, ?_⟩
        · rw [skip_length]
          omega
        · have hb : do1Body s l = do1KeyValue s l2.toposition
              (l2.input.take (countWhile isKeyChar l2.input))
              (skip (countWhile isKeyChar l2.input) l2) := by
            unfold do1Body
            simp only [hl2, getSection_miss l2 h91, hp, hal, if_true, getKey_eq]
          rw [hb]
          exact do1KeyValue_sound s l2.toposition _ _ l.lineno n2
            (advances_lineno (skip_advances _ l2))
      · by_cases hc : (c : Int) = 35 ∨ (c : Int) = 59 ∨ (c : Int) = 10
        · left
          have hb : do1Body s l = .ok () (skip 1 (skipTo 10 l2).2) := by
            unfold do1Body
            simp only [hl2, getSection_miss l2 h91, hp, hal, hc, if_true]
            simp
          have a3 : Advances l2 (skipTo 10 l2).2 := skipTo_advances 10 l2
          have len3 := advances_length a3
          refine ⟨skip 1 (skipTo 10 l2).2,
            advances_trans a2 (advances_trans a3 (skip_advances 1 _)), ?_, ?_⟩
          · rw [skip_length]
            omega
          · rw [hb]
            exact advances_refl _
        · right
          have hb : do1Body s l = throw l2 (bytes "Expected section or key") := by
            unfold do1Body
            simp only [hl2, getSection_miss l2 h91, hp, hal, hc, if_false]
            simp
          rw [hb]
          refine ⟨throw_sound_from _ a2 (Nat.le_refl _), _, l2, rfl, ?_, ?_⟩
          · rw [hin]
            simp
          · rw [hin]
            simp only [List.head?_cons, ne_eq, Option.some.injEq]
            intro e
            apply hc
            right
            right
            exact_mod_cast e

/-- One call of `do1` on a non-empty input returns with a strictly shorter
input. -/
theorem do1_step (s : IniSink) (l : iniParse) (hne : l.input ≠ []) : Step l (do1 s l) := by
  rcases do1Body_progress s l hne with ⟨l1, a1, hlt, hs⟩ | ⟨hs, e, l', hb, hne', hh⟩
  · unfold do1
    cases hb : do1Body s l with
    | ok u l' =>
      rw [hb] at hs
      have := advances_length hs
      exact ⟨advances_trans a1 hs, by omega⟩
    | throw e l' =>
      rw [hb] at hs
      obtain ⟨a, b1, b2, b3⟩ := hs
      have h1 := advances_length a
      have h2 := advances_length (skipTo_advances 10 l')
      obtain ⟨h3, h4⟩ := skipTo_lineEnd l'
      exact ⟨advances_trans (advances_trans a1 a) (skipTo_advances 10 l'), by omega, b1,
        by omega, b3, h3⟩
    | fault l' => trivial
    | outOfFuel =>
      rw [hb] at hs
      exact hs
  · unfold do1
    rw [hb] at hs ⊢
    obtain ⟨a, b1, b2, b3⟩ := hs
    have h1 := advances_length a
    have h2 := skipTo_shrinks l' hne' hh
    obtain ⟨h3, h4⟩ := skipTo_lineEnd l'
    exact ⟨advances_trans a (skipTo_advances 10 l'), by omega, b1, by omega, b3, h3⟩

/-! ## The loop of `do` -/

theorem prepend_prepend (a b : ParseErrors) (r : Res ParseErrors) :
    Res.prepend a (Res.prepend b r) = Res.prepend (a ++ b) r := by
  cases r <;> simp [Res.prepend]

/-- The errors collected before a turn of the loop stay in front. -/
theorem doLoop_acc (s : IniSink) :
    ∀ (fuel : Nat) (l : iniParse) (errs : ParseErrors),
      doLoop s fuel l errs = Res.prepend errs (doLoop s fuel l []) := by
  intro fuel
  induction fuel with
  | zero =>
    intro l errs
    unfold doLoop
    split <;> simp [Res.prepend]
  | succ fuel ih =>
    intro l errs
    unfold doLoop
    split
    · cases hd : do1 s l with
      | ok o l' =>
        cases o with
        | none => exact ih l' errs
        | some e =>
          simp only []
          rw [ih l' (errs ++ [e]), ih l' ([] ++ [e]), prepend_prepend]
          simp
      | throw e l' => simp [Res.prepend]
      | fault l' => simp [Res.prepend]
      | outOfFuel => simp [Res.prepend]
    · simp [Res.prepend]

/-- The loop of `do` takes at most `len(l.input)` turns: more fuel changes
nothing. -/
theorem doLoop_fuel (s : IniSink) :
    ∀ (f1 : Nat) (l : iniParse) (errs : ParseErrors) (f2 : Nat),
      l.input.length ≤ f1 → l.input.length ≤ f2 →
      doLoop s f1 l errs = doLoop s f2 l errs := by
  have hzero : ∀ (f : Nat) (l : iniParse) (errs : ParseErrors), l.input.length = 0 →
      doLoop s f l errs = .ok errs l := by
    intro f l errs h0
    cases f <;> simp [doLoop, h0]
  intro f1
  induction f1 with
  | zero =>
    intro l errs f2 h1 _
    have h0 : l.input.length = 0 := by omega
    rw [hzero 0 l errs h0, hzero f2 l errs h0]
  | succ f1 ih =>
    intro l errs f2 h1 h2
    by_cases h0 : l.input.length = 0
    · rw [hzero _ l errs h0, hzero f2 l errs h0]
    · have hne : l.input ≠ [] := fun e => h0 (by rw [e]; rfl)
      have hpos : l.input.length > 0 := by omega
      obtain ⟨f2', rfl⟩ : ∃ k, f2 = k + 1 := ⟨f2 - 1, by omega⟩
      have hstep := do1_step s l hne
      unfold doLoop
      simp only [hpos, if_true]
      cases hd : do1 s l with
      | ok o l' =>
        rw [hd] at hstep
        cases o with
        | none =>
          obtain ⟨_, hlt⟩ := hstep
          exact ih l' errs f2' (by omega) (by omega)
        | some e =>
          obtain ⟨_, hlt, _⟩ := hstep
          exact ih l' (errs ++ [e]) f2' (by omega) (by omega)
      | throw e l' => rfl
      | fault l' => rfl
      | outOfFuel => rfl

/-- With `len(l.input)` turns the loop of `do` ends: it returns or a
run-time panic goes through. -/
theorem doLoop_ends (s : IniSink) :
    ∀ (fuel : Nat) (l : iniParse) (errs : ParseErrors), l.input.length ≤ fuel →
      doLoop s fuel l errs ≠ .outOfFuel ∧ ∀ e l', doLoop s fuel l errs ≠ .throw e l' := by
  intro fuel
  induction fuel with
  | zero =>
    intro l errs h
    have h0 : ¬ l.input.length > 0 := by omega
    simp [doLoop, h0]
  | succ fuel ih =>
    intro l errs h
    unfold doLoop
    by_cases hpos : l.input.length > 0
    · have hne : l.input ≠ [] := List.length_pos.mp hpos
      have hstep := do1_step s l hne
      simp only [hpos, if_true]
      cases hd : do1 s l with
      | ok o l' =>
        rw [hd] at hstep
        cases o with
        | none =>
          obtain ⟨_, hlt⟩ := hstep
          exact ih l' errs (by omega)
        | some e =>
          obtain ⟨_, hlt, _⟩ := hstep
          exact ih l' (errs ++ [e]) (by omega)
      | throw e l' =>
        rw [hd] at hstep
        exact absurd hstep (by simp [Step])
      | fault l' => simp
      | outOfFuel =>
        rw [hd] at hstep
        exact absurd hstep (by simp [Step])
    · simp [hpos]

/-- The diagnostics of the loop of `do` have strictly increasing line
numbers. -/
theorem doLoop_lines (s : IniSink) :
    ∀ (fuel : Nat) (l : iniParse) (errs es : ParseErrors) (l' : iniParse),
      List.Pairwise (fun a b : ParseError => a.Lineno < b.Lineno) errs →
      (∀ e ∈ errs, 1 ≤ e.Lineno ∧ 1 ≤ e.Colno) →
      ((∀ e ∈ errs, e.Lineno ≤ l.lineno)
        ∨ ((∀ e ∈ errs, e.Lineno ≤ l.lineno + 1) ∧ AtLineEnd l.input)) →
      doLoop s fuel l errs = .ok es l' →
      List.Pairwise (fun a b : ParseError => a.Lineno < b.Lineno) es
        ∧ ∀ e ∈ es, 1 ≤ e.Lineno ∧ 1 ≤ e.Colno := by
  intro fuel
  induction fuel with
  | zero =>
    intro l errs es l' hp hb _ hrun
    unfold doLoop at hrun
    split at hrun
    · simp at hrun
    · simp only [Res.ok.injEq] at hrun
      rw [← hrun.1]
      exact ⟨hp, hb⟩
  | succ fuel ih =>
    intro l errs es l' hp hb hinv hrun
    unfold doLoop at hrun
    by_cases hpos : l.input.length > 0
    · have hne : l.input ≠ [] := List.length_pos.mp hpos
      simp only [hpos, if_true] at hrun
      by_cases h10 : l.input.head? = some 10
      · obtain ⟨p, inp, f, sec, calls⟩ := l
        cases inp with
        | nil => simp at h10
        | cons c rest =>
          simp only [List.head?_cons, Option.some.injEq] at h10
          subst h10
          rw [do1_newline] at hrun
          simp only [] at hrun
          refine ih _ errs es l' hp hb ?_ hrun
          left
          intro e he
          show e.Lineno ≤ p.lineno + 1
          rcases hinv with h | ⟨h, _⟩
          · have := h e he
            exact Nat.le_succ_of_le this
          · exact h e he
      · have hle : ∀ e ∈ errs, e.Lineno ≤ l.lineno := by
          rcases hinv with h | ⟨_, h⟩
          · exact h
          · exfalso
            cases hin : l.input with
            | nil => exact hne hin
            | cons c t =>
              rw [hin] at h h10
              have := h c (by simp)
              subst this
              exact h10 rfl
        have hstep := do1_step s l hne
        cases hd : do1 s l with
        | ok o l1 =>
          rw [hd] at hstep hrun
          cases o with
          | none =>
            obtain ⟨a, _⟩ := hstep
            have n := advances_lineno a
            refine ih l1 errs es l' hp hb ?_ hrun
            left
            intro e he
            exact Nat.le_trans (hle e he) n
          | some e0 =>
            obtain ⟨a, _, b1, b2, b3, hend⟩ := hstep
            have n := advances_lineno a
            simp only [] at hrun
            refine ih l1 (errs ++ [e0]) es l' ?_ ?_ ?_ hrun
            · rw [List.pairwise_append]
              refine ⟨hp, List.pairwise_singleton _ _, ?_⟩
              intro x hx y hy
              simp only [List.mem_singleton] at hy
              subst hy
              have := hle x hx
              omega
            · intro e he
              rcases List.mem_append.mp he with h | h
              · exact hb e h
              · simp only [List.mem_singleton] at h
                subst h
                exact ⟨by omega, b3⟩
            · right
              refine ⟨?_, hend⟩
              intro e he
              rcases List.mem_append.mp he with h | h
              · have := hle e h
                omega
              · simp only [List.mem_singleton] at h
                subst h
                exact b2
        | throw e l1 =>
          rw [hd] at hrun
          simp at hrun
        | fault l1 =>
          rw [hd] at hrun
          simp at hrun
        | outOfFuel =>
          rw [hd] at hrun
          simp at hrun
    · simp only [hpos, if_false, Res.ok.injEq] at hrun
      rw [← hrun.1]
      exact ⟨hp, hb⟩

/-! ## Unterminated quotes -/

/-- A newline or the end of the buffer inside quotes. -/
theorem getValueLoop_unclosed (fuel i : Nat) (p : position) (inp pre tail f : Bytes)
    (sec : Option IniSection) (calls : List Call) (ret : Bytes)
    (hin : inp = pre ++ tail) (hi : i = pre.length) (ht : AtLineEnd tail) :
    getValueLoop (fuel + 1) ⟨p, inp, f, sec, calls⟩ i ret false true
      = .throw ⟨f, (posAfter p pre).lineno + 1, (posAfter p pre).colno + 1,
            bytes "missing close quotes"⟩
          ⟨posAfter p pre, tail, f, sec, calls⟩ := by
  subst hin hi
  have hs := skip_front p pre tail f sec calls
  rw [getValueLoop]
  cases tail with
  | nil =>
    simp only [List.append_nil, lt_irrefl, if_false]
    simp only [List.append_nil] at hs
    simp [eofRune, hs, throw, throwAt]
  | cons c t =>
    have hc : c = 10 := ht c (by simp)
    subst hc
    simp only [lt_at, if_true, getD_at]
    norm_num [eofRune]
    simp [hs, throw, throwAt]

theorem getValue_unclosed (p : position) (b tail f : Bytes) (sec : Option IniSection)
    (calls : List Call) (hb : ∀ c ∈ b, c ≠ 34 ∧ c ≠ 92 ∧ c ≠ 10) (ht : AtLineEnd tail) :
    getValue ⟨p, 34 :: (b ++ tail), f, sec, calls⟩
      = .throw ⟨f, (posAfter p (34 :: b)).lineno + 1, (posAfter p (34 :: b)).colno + 1,
            bytes "missing close quotes"⟩
          ⟨posAfter p (34 :: b), tail, f, sec, calls⟩ := by
  have hseg : ∀ c ∈ b, (c ≠ 92 ∧ c ≠ 34 ∧ c ≠ 10) ∧ (true = true ∨ (c ≠ 35 ∧ c ≠ 59)) := by
    intro c hc
    have := hb c hc
    exact ⟨⟨this.2.1, this.1, this.2.2⟩, Or.inl rfl⟩
  unfold getValue
  have hlen : (34 :: (b ++ tail)).length + 1 = ((tail.length + 1) + b.length) + 1 := by
    simp only [List.length_append, List.length_cons]
    omega
  simp only [hlen]
  rw [getValueLoop_quote ((tail.length + 1) + b.length) 0 p (34 :: (b ++ tail)) []
    (b ++ tail) f sec calls [] false (by simp) rfl]
  simp only [Bool.not_false]
  rw [getValueLoop_run b true hseg ((tail.length + 1) + b.length) (tail.length + 1) (0 + 1) p
    (34 :: (b ++ tail)) [34] tail f sec calls [] (by simp) rfl rfl]
  rw [getValueLoop_unclosed tail.length (0 + 1 + b.length) p (34 :: (b ++ tail)) (34 :: b) tail
    f sec calls _ (by simp) (by simp; omega) ht]

/-- The statement `k="b` left open at the end of its line. -/
theorem do1_unclosed_quote (s : IniSink) (ln : Nat) (f k b tail : Bytes)
    (sec : Option IniSection) (calls : List Call) (hk : IsKey k)
    (hb : ∀ c ∈ b, c ≠ 34 ∧ c ≠ 92 ∧ c ≠ 10) (ht : AtLineEnd tail) :
    do1 s ⟨⟨ln, 0⟩, k ++ 61 :: 34 :: (b ++ tail), f, sec, calls⟩
      = .ok (some ⟨f, ln + 1, colFold 0 (k ++ 61 :: 34 :: b) + 1, bytes "missing close quotes"⟩)
          ⟨⟨ln, colFold 0 (k ++ 61 :: 34 :: b)⟩, tail, f, sec, calls⟩ := by
  have hkb := isKey_keyBytes k hk
  have h1 := do1Body_key s ln 0 [] k ([] ++ 61 :: ([] ++ 34 :: (b ++ tail))) f sec calls
    (by intro c hc; simp at hc) hk
    (by intro c hc; simp at hc; subst hc; unfold IsKeyByte IsLetter; omega)
  have hsrc : NoLeadingBlank (34 :: (b ++ tail)) := by
    intro c hc
    simp at hc
    omega
  generalize hvp : posAfter (posAfter ⟨ln, colFold 0 []⟩ k) ([] ++ 61 :: []) = valpos at *
  have hget := getValue_unclosed valpos b tail f sec calls hb ht
  have h2 := do1KeyValue_lexThrow s ⟨ln, colFold 0 []⟩ (posAfter ⟨ln, colFold 0 []⟩ k) k [] []
    (34 :: (b ++ tail)) f sec calls _ _ (by intro c hc; simp at hc)
    (by intro c hc; simp at hc) hsrc (by rw [hvp]; exact hget)
  have hn : 10 ∉ k ++ 61 :: 34 :: b := by
    have a := keyByte_no_newline k hkb
    have c : 10 ∉ b := fun h => (hb 10 h).2.2 rfl
    simp [a, c]
  have hpos : posAfter valpos (34 :: b) = ⟨ln, colFold 0 (k ++ 61 :: 34 :: b)⟩ := by
    rw [← hvp, ← posAfter_line ln 0 _ hn]
    simp [colFold, posAfter_append, posAfter_cons, posAfter_nil]
  have e : k ++ 61 :: 34 :: (b ++ tail)
      = [] ++ (k ++ ([] ++ 61 :: ([] ++ 34 :: (b ++ tail)))) := by
    simp
  have hst := skipTo_stop ⟨ln, colFold 0 (k ++ 61 :: 34 :: b)⟩ [] tail f sec calls
    (by simp) ht
  simp only [List.nil_append, posAfter_nil] at hst
  unfold do1
  rw [e, h1, h2, hpos]
  simp only [hst]

/-- Every diagnostic of the loop of `do` is on a line at or after the one
where the loop started. -/
theorem doLoop_lower (s : IniSink) (n : Nat) :
    ∀ (fuel : Nat) (l : iniParse) (errs es : ParseErrors) (l' : iniParse),
      n ≤ l.lineno → (∀ e ∈ errs, n + 1 ≤ e.Lineno) →
      doLoop s fuel l errs = .ok es l' → ∀ e ∈ es, n + 1 ≤ e.Lineno := by
  intro fuel
  induction fuel with
  | zero =>
    intro l errs es l' _ hb hrun
    unfold doLoop at hrun
    split at hrun
    · simp at hrun
    · simp only [Res.ok.injEq] at hrun
      rw [← hrun.1]
      exact hb
  | succ fuel ih =>
    intro l errs es l' hn hb hrun
    unfold doLoop at hrun
    by_cases hpos : l.input.length > 0
    · have hne : l.input ≠ [] := List.length_pos.mp hpos
      simp only [hpos, if_true] at hrun
      have hstep := do1_step s l hne
      cases hd : do1 s l with
      | ok o l1 =>
        rw [hd] at hstep hrun
        cases o with
        | none =>
          obtain ⟨a, _⟩ := hstep
          have := advances_lineno a
          exact ih l1 errs es l' (by omega) hb hrun
        | some e0 =>
          obtain ⟨a, _, b1, _⟩ := hstep
          have := advances_lineno a
          simp only [] at hrun
          refine ih l1 (errs ++ [e0]) es l' (by omega) ?_ hrun
          intro e he
          rcases List.mem_append.mp he with h | h
          · exact hb e h
          · simp only [List.mem_singleton] at h
            subst h
            omega
      | throw e l1 =>
        rw [hd] at hrun
        simp at hrun
      | fault l1 =>
        rw [hd] at hrun
        simp at hrun
      | outOfFuel =>
        rw [hd] at hrun
        simp at hrun
    · simp only [hpos, if_false, Res.ok.injEq] at hrun
      rw [← hrun.1]
      exact hb

/-! ## The claims -/

/-- C1 (fails on the code): on the six bytes `[a "\x` the scan loop of
`getSubsection` leaves `i` equal to `len(l.input)`, the check `l.input[i]`
after the loop is out of range, and the run-time panic passes through the
recover of `do1`: `IniParseContents` does not return, whatever the sink. -/
theorem C1_getSubsection_index_out_of_range (s : IniSink) (file : Bytes) :
    IniParseContents s file [91, 97, 32, 34, 92, 120]
      = .fault ⟨⟨0, 3⟩, [34, 92, 120], file, none, []⟩ := by
  simp [IniParseContents, do_, newParser, doLoop, do1, do1Body, skipWS, skipWhile,
    countWhile, getSection, match_, getKey, takeWhile, take, isKeyChar, isAlpha, clearBit5,
    skip_fold, advance, getSubsection, getSubsectionLoop]

/-- C2 (fails on the code): on `a=1\nb=2\n` with a sink whose `Value` rejects
the first call, `getValue` has already consumed the newline of line 1 when the
error is raised, so the resynchronisation of `do1` skips the whole of line 2:
one `Value` call and one diagnostic, not two. -/
theorem C2_sink_error_swallows_next_line (s : IniSink) (file : Bytes) (e : SinkError)
    (he : s.Value [] none [97] [49] = some e) :
    ∃ d : ParseError, d.Lineno = 1 ∧ d.Msg = e.Error ∧
      (IniParseContents s file (bytes "a=1\nb=2\n")).result
        = some (some [d], [Call.Value none [97] [49]]) := by
  cases e with
  | BadKey m =>
    refine ⟨⟨file, 1, 1, m⟩, rfl, rfl, ?_⟩
    simp [IniParseContents, do_, newParser, doLoop, do1, do1Body, bytes, skipWS,
      skipWhile, countWhile, getSection, match_, isAlpha, peek, clearBit5, getKey, takeWhile,
      take, isKeyChar, skip_fold, advance, do1KeyValue, deliverValue, getValue, getValueLoop, callValue, he,
      throwAt, skipTo, indexByte, Res.result, eofRune]
  | BadValue m =>
    refine ⟨⟨file, 1, 3, m⟩, rfl, rfl, ?_⟩
    simp [IniParseContents, do_, newParser, doLoop, do1, do1Body, bytes, skipWS,
      skipWhile, countWhile, getSection, match_, isAlpha, peek, clearBit5, getKey, takeWhile,
      take, isKeyChar, skip_fold, advance, do1KeyValue, deliverValue, getValue, getValueLoop, callValue, he,
      throwAt, skipTo, indexByte, Res.result, eofRune, SinkError.Error]
  | other m =>
    refine ⟨⟨file, 1, 3, m⟩, rfl, rfl, ?_⟩
    simp [IniParseContents, do_, newParser, doLoop, do1, do1Body, bytes, skipWS,
      skipWhile, countWhile, getSection, match_, isAlpha, peek, clearBit5, getKey, takeWhile,
      take, isKeyChar, skip_fold, advance, do1KeyValue, deliverValue, getValue, getValueLoop, callValue, he,
      throwAt, skipTo, indexByte, Res.result, eofRune, SinkError.Error]

theorem C2_sink_error_swallows_next_line_witness :
    ∃ d : ParseError, d.Lineno = 1 ∧ d.Msg = (SinkError.other [110, 111]).Error ∧
      (IniParseContents (rejectAll (.other [110, 111])) [] (bytes "a=1\nb=2\n")).result
        = some (some [d], [Call.Value none [97] [49]]) :=
  C2_sink_error_swallows_next_line (rejectAll (.other [110, 111])) [] (.other [110, 111]) rfl

/-- C3 (fails on the code): after the comment of `abc#cmt` the loop of
`getValue` goes on at its old index in the shortened buffer, so on
`abc#cmt\nrest` it steps over the newline, copies the `t` of `rest` into the
value and consumes the buffer to its end: the value is `abct`, not `abc`, and
the next line is never parsed as a statement. -/
theorem C3_comment_does_not_end_value :
    getValue ⟨⟨0, 0⟩, bytes "abc#cmt\nrest", [], none, []⟩
        = .ok (bytes "abct") ⟨⟨1, 4⟩, [], [], none, []⟩
      ∧ (IniParseContents acceptAll [] (bytes "k=abc#cmt\nrest")).result
        = some (none, [Call.Value none (bytes "k") (bytes "abct")]) := by
  constructor <;> decide

/-- C4: a document of `n ≥ 1` lines, each non-empty, newline-free and
beginning with a byte that is not a space, tab, letter, '[', '#' or ';',
parsed with any sink, returns exactly `n` diagnostics, the `i`-th at line
`i`, column 1, with message "Expected section or key", and the sink receives
no call. -/
theorem C4_one_diagnostic_per_stray_line (s : IniSink) (file : Bytes) (lines : List Bytes)
    (hn : lines ≠ []) (hl : ∀ x ∈ lines, IsStrayLine x) :
    (IniParseContents s file (joinLines lines)).result
      = some (some ((List.range lines.length).map
          (fun i => ⟨file, i + 1, 1, bytes "Expected section or key"⟩)), []) := by
  have h := stray_lines_loop s file none [] lines hl (joinLines lines).length 0 []
    (le_refl _)
  simp only [List.nil_append, Nat.zero_add] at h
  have hd := do_of_loop s (newParser file (joinLines lines)) _ _ h
  have hne : (List.range lines.length).map
      (fun i => (⟨file, i + 1, 1, bytes "Expected section or key"⟩ : ParseError)) ≠ [] := by
    cases lines with
    | nil => exact absurd rfl hn
    | cons a b => simp [List.range_succ_eq_map]
  unfold IniParseContents
  rw [hd]
  simp only [hne, if_false]

theorem C4_one_diagnostic_per_stray_line_witness :
    ([[33, 120], [63, 121], [45, 122]] : List Bytes) ≠ []
      ∧ (∀ x ∈ ([[33, 120], [63, 121], [45, 122]] : List Bytes), IsStrayLine x)
      ∧ (IniParseContents acceptAll [] (joinLines [[33, 120], [63, 121], [45, 122]])).result
        = some (some ((List.range 3).map
            (fun i => ⟨[], i + 1, 1, bytes "Expected section or key"⟩)), []) :=
  ⟨by simp, by simp [IsStrayLine, IsLetter],
    C4_one_diagnostic_per_stray_line acceptAll [] [[33, 120], [63, 121], [45, 122]]
      (by simp) (by simp [IsStrayLine, IsLetter])⟩

/-- C5: a well-formed document of header lines and `key=value` lines, parsed
with a sink that accepts everything and implements the section callback,
produces no diagnostic and exactly the callbacks of the document in document
order: `Section(sec)` for each header and, for each `key=value` line,
`Value(cur, key, value)` with `cur` nil before the first header and the most
recent preceding header afterwards. -/
theorem C5_section_scoping (s : IniSink) (file : Bytes) (doc : List Stmt)
    (hs : s.Accepts) (hsec : s.Section ≠ none) (hwf : ∀ st ∈ doc, WellFormedStmt st) :
    (IniParseContents s file (renderDoc doc)).result
      = some (none, expectedCalls none doc) := by
  cases hg : s.Section with
  | none => exact absurd hg hsec
  | some g =>
    have h := renderDoc_loop s hs g hg file doc hwf (renderDoc doc).length ⟨0, 0⟩ none [] []
      (le_refl _)
    have hd := do_result s (newParser file (renderDoc doc)) _ _ h
    unfold IniParseContents
    rw [hd]
    simp

theorem C5_section_scoping_witness :
    acceptAll.Accepts ∧ acceptAll.Section ≠ none
      ∧ (∀ st ∈ [Stmt.header ⟨[97], none⟩, Stmt.keyValue [107] [49],
            Stmt.header ⟨[98], none⟩, Stmt.keyValue [107] [50]], WellFormedStmt st)
      ∧ renderDoc [Stmt.header ⟨[97], none⟩, Stmt.keyValue [107] [49],
            Stmt.header ⟨[98], none⟩, Stmt.keyValue [107] [50]] = bytes "[a]\nk=1\n[b]\nk=2\n"
      ∧ (IniParseContents acceptAll []
          (renderDoc [Stmt.header ⟨[97], none⟩, Stmt.keyValue [107] [49],
            Stmt.header ⟨[98], none⟩, Stmt.keyValue [107] [50]])).result
        = some (none, [Call.Section ⟨[97], none⟩, Call.Value (some ⟨[97], none⟩) [107] [49],
            Call.Section ⟨[98], none⟩, Call.Value (some ⟨[98], none⟩) [107] [50]]) :=
  ⟨by simp [IniSink.Accepts, acceptAll], by simp [acceptAll],
    by simp [WellFormedStmt, IsKey, IsKeyByte, IsLetter, IsPlainValue, NoLeadingBlank],
    by decide,
    C5_section_scoping acceptAll [] _ (by simp [IniSink.Accepts, acceptAll])
      (by simp [acceptAll])
      (by simp [WellFormedStmt, IsKey, IsKeyByte, IsLetter, IsPlainValue, NoLeadingBlank])⟩

/-- C6: for every byte string `s`, `getValue` run on the quoted text `enc s`
followed by a newline, or by the end of the buffer, returns exactly `s` and
consumes the whole line (the newline included); the rest of the buffer is
left untouched. -/
theorem C6_escape_round_trip (s : Bytes) (p : position) (rest f : Bytes)
    (sec : Option IniSection) (calls : List Call) :
    getValue ⟨p, enc s ++ 10 :: rest, f, sec, calls⟩
        = .ok s ⟨posAfter p (enc s ++ [10]), rest, f, sec, calls⟩
      ∧ getValue ⟨p, enc s, f, sec, calls⟩
        = .ok s ⟨posAfter p (enc s), [], f, sec, calls⟩ := by
  constructor
  · unfold getValue
    have hlen : (enc s ++ 10 :: rest).length + 1
        = ((((rest.length + 1) + 1) + 1) + (escBody s).length) + 1 := by
      simp only [List.length_append, List.length_cons, enc_length]
      omega
    simp only [hlen]
    rw [getValueLoop_quote _ 0 p (enc s ++ 10 :: rest) [] (escBody s ++ 34 :: 10 :: rest) f
      sec calls [] false (by simp [enc]) rfl]
    simp only [Bool.not_false]
    rw [getValueLoop_escBody s _ (((rest.length + 1) + 1) + 1) (0 + 1) p (enc s ++ 10 :: rest) [34]
      (34 :: 10 :: rest) f sec calls [] (by simp [enc]) rfl rfl]
    rw [getValueLoop_quote _ _ p (enc s ++ 10 :: rest) (34 :: escBody s) (10 :: rest) f sec
      calls _ true (by simp [enc]) (by simp only [List.length_cons]; omega)]
    simp only [Bool.not_true]
    rw [getValueLoop_newline _ _ p (enc s ++ 10 :: rest) (enc s) rest f sec calls _
      rfl (by simp only [enc_length]; omega)]
    simp
  · unfold getValue
    have hlen : (enc s).length + 1 = (((0 + 1) + 1) + (escBody s).length) + 1 := by
      simp only [enc_length]
      omega
    simp only [hlen]
    rw [getValueLoop_quote _ 0 p (enc s) [] (escBody s ++ [34]) f sec calls [] false
      (by simp [enc]) rfl]
    simp only [Bool.not_false]
    rw [getValueLoop_escBody s _ ((0 + 1) + 1) (0 + 1) p (enc s) [34] [34] f sec
      calls [] (by simp [enc]) rfl rfl]
    rw [getValueLoop_quote _ _ p (enc s) (34 :: escBody s) [] f sec calls _ true
      (by simp [enc]) (by simp only [List.length_cons]; omega)]
    simp only [Bool.not_true]
    rw [getValueLoop_eof 0 p (enc s) f sec calls _ _ (by simp only [enc_length]; omega)]
    simp

theorem C6_escape_round_trip_witness :
    enc (bytes "a\"b\\c") = bytes "\"a\\\"b\\\\c\""
      ∧ getValue ⟨⟨0, 2⟩, enc (bytes "a\"b\\c") ++ 10 :: bytes "k=1", [], none, []⟩
        = .ok (bytes "a\"b\\c")
            ⟨posAfter ⟨0, 2⟩ (enc (bytes "a\"b\\c") ++ [10]), bytes "k=1", [], none, []⟩ :=
  ⟨by decide, (C6_escape_round_trip (bytes "a\"b\\c") ⟨0, 2⟩ (bytes "k=1") [] none []).1⟩

/-- C7 as stated fails: on `[core]`, newline,
`name = "hi # not a comment" # real comment`, newline, with an accepting sink
the parse returns nil and makes one `Value` call, but the value delivered is
`hi # not a comment ` with the blank that stands between the closing quote
and the comment marker, not `hi # not a comment`. -/
theorem C7_value_keeps_blank_before_comment :
    (IniParseContents acceptAll []
        (bytes "[core]\nname = \"hi # not a comment\" # real comment\n")).result
      = some (none, [Call.Section ⟨bytes "core", none⟩,
          Call.Value (some ⟨bytes "core", none⟩) (bytes "name") (bytes "hi # not a comment ")])
    ∧ bytes "hi # not a comment " ≠ bytes "hi # not a comment" := by
  constructor <;> decide

/-- C7, amended: for every body `q` free of double quote, backslash and
newline, parsing `[core]`, newline, `name = "q" # real comment`, newline with
an accepting sink returns nil and makes exactly one `Value` call, with section
`core` (no subsection), key `name` and value `q` followed by one blank: the
comment markers inside the quotes are literal, the trailing comment is
dropped, and the blank before its marker is kept. -/
theorem C7_quoted_value_then_comment (s : IniSink) (file q : Bytes) (hs : s.Accepts)
    (hq : ∀ c ∈ q, c ≠ 34 ∧ c ≠ 92 ∧ c ≠ 10) :
    (IniParseContents s file
        (bytes "[core]\nname = \"" ++ (q ++ bytes "\" # real comment\n"))).result
      = some (none, sectionCall s ⟨bytes "core", none⟩
          ++ [Call.Value (some ⟨bytes "core", none⟩) (bytes "name") (q ++ [32])]) := by
  have hcore : bytes "core" = [99, 111, 114, 101] := by decide
  have hname : bytes "name" = [110, 97, 109, 101] := by decide
  have e1 : bytes "[core]\nname = \"" ++ (q ++ bytes "\" # real comment\n")
      = headerText ⟨bytes "core", none⟩ ++ 10 :: ([] ++ (bytes "name" ++ ([32] ++ 61 :: ([32]
          ++ 34 :: (q ++ 34 :: 32 :: 35 :: (bytes " real comment" ++ [10])))))) := by
    have a : bytes "[core]\nname = \""
        = [91, 99, 111, 114, 101, 93, 10, 110, 97, 109, 101, 32, 61, 32, 34] := by decide
    have b : bytes "\" # real comment\n"
        = 34 :: 32 :: 35 :: (bytes " real comment" ++ [10]) := by decide
    rw [a, b, hcore, hname]
    simp [headerText]
  generalize hsrc : (34 :: (q ++ 34 :: 32 :: 35 :: (bytes " real comment" ++ [10]))) = src at e1
  have hwf : WellFormedStmt (.header ⟨bytes "core", none⟩) := by
    rw [hcore]
    simp [WellFormedStmt, IsKeyByte, IsLetter]
  have hkey : IsKey (bytes "name") := by
    rw [hname]
    simp [IsKey, IsKeyByte, IsLetter]
  have hb : IsBlanks [32] := by simp [IsBlanks]
  generalize hcr : (⟨bytes "core", none⟩ : IniSection) = core at e1 hwf ⊢
  generalize bytes "name" = name at e1 hkey ⊢
  -- the header line and its newline
  have h1 := do1_header s ⟨0, 0⟩ core (10 :: ([] ++ (name ++ ([32] ++ 61 :: ([32] ++ src)))))
    file none [] hwf (fun g hg => hs.2 g hg [] core)
  have h2 := do1_newline s (posAfter ⟨0, 0⟩ (headerText core))
    ([] ++ (name ++ ([32] ++ 61 :: ([32] ++ src)))) file (some core) ([] ++ sectionCall s core)
  -- the key/value line
  generalize hp1 : (⟨(posAfter ⟨0, 0⟩ (headerText core)).lineno + 1, 0⟩ : position) = p1 at h2
  obtain ⟨ln, col⟩ := p1
  have h3 := do1Body_key s ln col [] name ([32] ++ 61 :: ([32] ++ src)) file (some core)
    ([] ++ sectionCall s core) (by intro c hc; simp at hc) hkey
    (not_keyByte_blank_or_eq [32] _ hb)
  obtain ⟨p', hget⟩ := getValue_quoted_then_comment
    (posAfter (posAfter ⟨ln, colFold col []⟩ name) ([32] ++ 61 :: [32])) q file (some core)
    ([] ++ sectionCall s core) hq
  rw [hsrc] at hget
  have h4 := do1KeyValue_lexed s ⟨ln, colFold col []⟩ (posAfter ⟨ln, colFold col []⟩ name) name
    [32] [32] src file (some core) ([] ++ sectionCall s core) (q ++ [32]) _ hb hb
    (by
      rw [← hsrc]
      intro c hc
      simp at hc
      omega) hget
  have h5 := deliverValue_accept s ⟨ln, colFold col []⟩
    (posAfter (posAfter ⟨ln, colFold col []⟩ name) ([32] ++ 61 :: [32])) p' name (q ++ [32]) []
    file (some core) ([] ++ sectionCall s core) (hs.1 _ _ _ _)
  have hdo1 : do1 s ⟨⟨ln, col⟩, [] ++ (name ++ ([32] ++ 61 :: ([32] ++ src))), file, some core,
      [] ++ sectionCall s core⟩
      = .ok none ⟨p', [], file, some core,
          [] ++ sectionCall s core ++ [Call.Value (some core) name (q ++ [32])]⟩ := by
    unfold do1
    rw [h3, h4, h5]
  have hne1 : headerText core ++ 10 :: ([] ++ (name ++ ([32] ++ 61 :: ([32] ++ src)))) ≠ [] := by
    simp
  have hne3 : [] ++ (name ++ ([32] ++ 61 :: ([32] ++ src))) ≠ [] := by simp
  obtain ⟨n, hn⟩ : ∃ n, (headerText core ++ 10 :: ([] ++ (name ++ ([32] ++ 61 :: ([32]
      ++ src))))).length = n + 1 + 1 + 1 := by
    refine ⟨(headerText core ++ 10 :: ([] ++ (name ++ ([32] ++ 61 :: ([32]
      ++ src))))).length - 3, ?_⟩
    simp only [List.length_append, List.length_cons, List.length_nil]
    omega
  have hloop : (doLoop s (headerText core ++ 10 :: ([] ++ (name ++ ([32] ++ 61 :: ([32]
      ++ src))))).length (newParser file (headerText core ++ 10 :: ([] ++ (name ++ ([32]
      ++ 61 :: ([32] ++ src)))))) []).result
      = some ([], [] ++ sectionCall s core ++ [Call.Value (some core) name (q ++ [32])]) := by
    rw [hn]
    unfold newParser
    rw [doLoop_none s _ _ _ _ hne1 h1, doLoop_none s _ _ _ _ (by simp) h2,
      doLoop_none s _ _ _ _ hne3 hdo1, doLoop_done]
    simp [Res.result]
  have hd := do_result s (newParser file (headerText core ++ 10 :: ([] ++ (name ++ ([32]
      ++ 61 :: ([32] ++ src)))))) _ _ hloop
  unfold IniParseContents
  rw [e1, hd]
  simp

theorem C7_quoted_value_then_comment_witness :
    acceptAll.Accepts
      ∧ (∀ c ∈ bytes "hi # not a comment", c ≠ 34 ∧ c ≠ 92 ∧ c ≠ 10)
      ∧ (IniParseContents acceptAll []
          (bytes "[core]\nname = \"" ++ (bytes "hi # not a comment"
            ++ bytes "\" # real comment\n"))).result
        = some (none, sectionCall acceptAll ⟨bytes "core", none⟩
            ++ [Call.Value (some ⟨bytes "core", none⟩) (bytes "name")
              (bytes "hi # not a comment" ++ [32])]) :=
  ⟨by simp [IniSink.Accepts, acceptAll], by decide,
    C7_quoted_value_then_comment acceptAll [] (bytes "hi # not a comment")
      (by simp [IniSink.Accepts, acceptAll]) (by decide)⟩

/-- C8: a document of `m` blank lines followed by one statement
`w1 k w2 = w3 v` (`w1`, `w2`, `w3` runs of blanks, `w3` being the whole run
after the '=', `k` a key, `v` a plain value) whose `Value` call the sink
rejects with `e` yields exactly one diagnostic, on line `m + 1`, with the
message of `e`; its column is that of the start of the key (after `w1`) when
`e` is a `BadKey`, and that of the start of the value (after
`w1 k w2 = w3`) when `e` is a `BadValue` or any other error. -/
theorem C8_blame_redirection (s : IniSink) (file : Bytes) (m : Nat)
    (w1 k w2 w3 v : Bytes) (e : SinkError) (hw1 : IsBlanks w1) (hk : IsKey k)
    (hw2 : IsBlanks w2) (hw3 : IsBlanks w3) (hv : IsPlainValue v) (hv0 : NoLeadingBlank v)
    (he : s.Value [] none k v = some e) :
    (IniParseContents s file
        (List.replicate m 10 ++ (w1 ++ (k ++ (w2 ++ 61 :: (w3 ++ v)))))).result
      = some (some [⟨file, m + 1,
            blameColumn e (colFold 0 w1) (colFold 0 (w1 ++ (k ++ (w2 ++ 61 :: w3)))) + 1,
            e.Error⟩],
          [Call.Value none k v]) := by
  obtain ⟨p', h1⟩ := do1_assign_rejected s m w1 k w2 w3 v file none [] e hw1 hk hw2 hw3 hv hv0
    he
  have hne : w1 ++ (k ++ (w2 ++ 61 :: (w3 ++ v))) ≠ [] := by
    cases k with
    | nil => exact absurd hk (by simp [IsKey])
    | cons c t => simp
  obtain ⟨n, hn⟩ : ∃ n, (w1 ++ (k ++ (w2 ++ 61 :: (w3 ++ v)))).length = n + 1 :=
    ⟨_, (Nat.succ_pred_eq_of_pos (List.length_pos.2 hne)).symm⟩
  have hloop : doLoop s
      (List.replicate m 10 ++ (w1 ++ (k ++ (w2 ++ 61 :: (w3 ++ v))))).length
      (newParser file (List.replicate m 10 ++ (w1 ++ (k ++ (w2 ++ 61 :: (w3 ++ v)))))) []
      = .ok [⟨file, m + 1,
            blameColumn e (colFold 0 w1) (colFold 0 (w1 ++ (k ++ (w2 ++ 61 :: w3)))) + 1,
            e.Error⟩]
          ⟨p', [], file, none, [] ++ [Call.Value none k v]⟩ := by
    have e1 : (List.replicate m 10 ++ (w1 ++ (k ++ (w2 ++ 61 :: (w3 ++ v))))).length
        = (n + 1) + m := by
      rw [List.length_append, hn, List.length_replicate]
      omega
    rw [e1]
    unfold newParser
    rw [newlines_loop, Nat.zero_add, doLoop_some s _ _ _ _ _ hne h1, doLoop_done]
    simp
  have hd := do_of_loop s
    (newParser file (List.replicate m 10 ++ (w1 ++ (k ++ (w2 ++ 61 :: (w3 ++ v)))))) _ _ hloop
  unfold IniParseContents
  rw [hd]
  simp

theorem C8_blame_redirection_witness :
    (IniParseContents (rejectAll (.BadKey [120])) []
        (List.replicate 4 10 ++ ([32, 32] ++ ([98, 111, 103, 117, 115]
          ++ ([32] ++ 61 :: ([32] ++ [49])))))).result
      = some (some [⟨[], 5, 3, [120]⟩], [Call.Value none [98, 111, 103, 117, 115] [49]])
    ∧ (IniParseContents (rejectAll (.other [120])) []
        (List.replicate 4 10 ++ ([32, 32] ++ ([98, 111, 103, 117, 115]
          ++ ([32] ++ 61 :: ([32] ++ [49])))))).result
      = some (some [⟨[], 5, 11, [120]⟩], [Call.Value none [98, 111, 103, 117, 115] [49]]) :=
  ⟨C8_blame_redirection (rejectAll (.BadKey [120])) [] 4 [32, 32] [98, 111, 103, 117, 115]
      [32] [32] [49] (.BadKey [120])
      (by simp [IsBlanks]) (by simp [IsKey, IsKeyByte, IsLetter]) (by simp [IsBlanks])
      (by simp [IsBlanks]) (by simp [IsPlainValue]) (by simp [NoLeadingBlank]) rfl,
    C8_blame_redirection (rejectAll (.other [120])) [] 4 [32, 32] [98, 111, 103, 117, 115]
      [32] [32] [49] (.other [120])
      (by simp [IsBlanks]) (by simp [IsKey, IsKeyByte, IsLetter]) (by simp [IsBlanks])
      (by simp [IsBlanks]) (by simp [IsPlainValue]) (by simp [NoLeadingBlank]) rfl⟩

/-- C9: for a key `k` and the run `w` of blanks after it (the statement's
whole key and whole run), (1) when the end of the input, a newline or a
'#'/';' comment follows, the sink receives exactly one `Value` call, with key
`k` and the empty value, and if it accepts that call the parse returns nil;
(2) when any other byte `c` except '=' follows, the sink is not called and
exactly one diagnostic is returned, "Expected '=' after " followed by `k`,
positioned at `c`. -/
theorem C9_bare_key (s : IniSink) (file k w : Bytes) (hk : IsKey k) (hw : IsBlanks w) :
    (∀ tail, IsBareTail tail → s.Value [] none k [] = none →
      (IniParseContents s file (k ++ (w ++ tail))).result
        = some (none, [Call.Value none k []]))
    ∧ (∀ c t tail, (c ≠ 61 ∧ c ≠ 10 ∧ c ≠ 35 ∧ c ≠ 59) → (c ≠ 32 ∧ c ≠ 9) →
        (w = [] → ¬ IsKeyByte c) → 10 ∉ t → (tail = [] ∨ tail = [10]) →
      (IniParseContents s file (k ++ (w ++ c :: (t ++ tail)))).result
        = some (some [⟨file, 1, colFold 0 (k ++ w) + 1, bytes "Expected '=' after " ++ k⟩],
            [])) := by
  have hkb := isKey_keyBytes k hk
  have hkne : k ≠ [] := by
    intro h
    subst h
    exact absurd hk (by simp [IsKey])
  have hkn := keyByte_no_newline k hkb
  have hwn := blanks_no_newline w hw
  have hk1 : 1 ≤ k.length := List.length_pos.2 hkne
  constructor
  · intro tail ht hs
    have htail : ∀ c ∈ tail.head?, c = 10 ∨ c = 35 ∨ c = 59 := by
      intro c hc
      rcases ht with rfl | rfl | ⟨c', cmt, nl, hc', _, _, rfl⟩
      · simp at hc
      · simp at hc
        omega
      · simp at hc
        omega
    have hr : ∀ c ∈ (w ++ tail).head?, ¬ IsKeyByte c := by
      apply not_keyByte_head w tail hw
      intro _ c hc
      have := htail c hc
      unfold IsKeyByte IsLetter
      omega
    have h1 := do1Body_key s 0 0 [] k (w ++ tail) file none [] (by intro c hc; simp at hc) hk hr
    have h2 := do1KeyValue_bare s ⟨0, colFold 0 []⟩ (posAfter ⟨0, colFold 0 []⟩ k) k w tail
      file none [] hw htail
    have h3 := deliverValue_accept s ⟨0, colFold 0 []⟩
      (posAfter (posAfter ⟨0, colFold 0 []⟩ k) w) (posAfter (posAfter ⟨0, colFold 0 []⟩ k) w)
      k [] tail file none [] hs
    simp only [List.nil_append] at h1 h3
    have hdo1 : do1 s ⟨⟨0, 0⟩, k ++ (w ++ tail), file, none, []⟩
        = .ok none ⟨posAfter (posAfter ⟨0, colFold 0 []⟩ k) w, tail, file, none,
            [Call.Value none k []]⟩ := by
      unfold do1
      rw [h1, h2, h3]
    have hne : k ++ (w ++ tail) ≠ [] := by simp [hkne]
    obtain ⟨n, hn⟩ : ∃ n, (k ++ (w ++ tail)).length = n + 1 :=
      ⟨_, (Nat.succ_pred_eq_of_pos (List.length_pos.2 hne)).symm⟩
    have hloop : (doLoop s (k ++ (w ++ tail)).length (newParser file (k ++ (w ++ tail)))
        []).result = some ([], [Call.Value none k []]) := by
      rw [hn]
      unfold newParser
      rw [doLoop_none s _ _ _ _ hne hdo1]
      apply bareTail_loop s _ tail file none _ [] n ht
      simp only [List.length_append] at hn
      omega
    have hd := do_result s (newParser file (k ++ (w ++ tail))) _ _ hloop
    unfold IniParseContents
    rw [hd]
    simp
  · intro c t tail hc hb hkc ht htail
    have hr : ∀ x ∈ (w ++ c :: (t ++ tail)).head?, ¬ IsKeyByte x := by
      apply not_keyByte_head w _ hw
      intro hw0 x hx
      simp at hx
      subst hx
      exact hkc hw0
    have h1 := do1Body_key s 0 0 [] k (w ++ c :: (t ++ tail)) file none []
      (by intro c hc; simp at hc) hk hr
    have h2 := do1KeyValue_noAssign s ⟨0, colFold 0 []⟩ (posAfter ⟨0, colFold 0 []⟩ k) k w c
      (t ++ tail) file none [] hw hc hb
    have hpos : posAfter (posAfter ⟨0, colFold 0 []⟩ k) w = ⟨0, colFold 0 (k ++ w)⟩ := by
      rw [← posAfter_append]
      exact posAfter_line 0 0 (k ++ w) (by simp [hkn, hwn])
    have hat : AtLineEnd tail := by
      rcases htail with rfl | rfl <;> intro x hx <;> simp at hx
      exact hx.symm
    have hskip := skipTo_stop (⟨0, colFold 0 (k ++ w)⟩ : position) (c :: t) tail file none []
      (by simp only [List.mem_cons, not_or]; exact ⟨by omega, ht⟩) hat
    simp only [List.nil_append] at h1
    simp only [List.cons_append] at hskip
    have hdo1 : do1 s ⟨⟨0, 0⟩, k ++ (w ++ c :: (t ++ tail)), file, none, []⟩
        = .ok (some ⟨file, 1, colFold 0 (k ++ w) + 1, bytes "Expected '=' after " ++ k⟩)
            ⟨posAfter ⟨0, colFold 0 (k ++ w)⟩ (c :: t), tail, file, none, []⟩ := by
      unfold do1
      rw [h1, h2, hpos]
      simp only [hskip, Nat.zero_add]
    have hne : k ++ (w ++ c :: (t ++ tail)) ≠ [] := by simp [hkne]
    obtain ⟨n, hn⟩ : ∃ n, (k ++ (w ++ c :: (t ++ tail))).length = n + 1 :=
      ⟨_, (Nat.succ_pred_eq_of_pos (List.length_pos.2 hne)).symm⟩
    have hbt : IsBareTail tail := by
      rcases htail with h | h
      · exact Or.inl h
      · exact Or.inr (Or.inl h)
    have hloop : (doLoop s (k ++ (w ++ c :: (t ++ tail))).length
        (newParser file (k ++ (w ++ c :: (t ++ tail)))) []).result
        = some ([⟨file, 1, colFold 0 (k ++ w) + 1, bytes "Expected '=' after " ++ k⟩], []) := by
      rw [hn]
      unfold newParser
      rw [doLoop_some s _ _ _ _ _ hne hdo1]
      apply bareTail_loop s _ tail file none _ _ n hbt
      simp only [List.length_append, List.length_cons] at hn
      omega
    have hd := do_result s (newParser file (k ++ (w ++ c :: (t ++ tail)))) _ _ hloop
    unfold IniParseContents
    rw [hd]
    simp

theorem C9_bare_key_witness :
    (IniParseContents acceptAll [] ([102, 108, 97, 103] ++ ([] ++ []))).result
      = some (none, [Call.Value none [102, 108, 97, 103] []])
    ∧ (IniParseContents acceptAll [] ([102, 108, 97, 103] ++ ([32] ++ 120 :: ([] ++ [])))).result
      = some (some [⟨[], 1, 6, bytes "Expected '=' after flag"⟩], []) :=
  ⟨(C9_bare_key acceptAll [] [102, 108, 97, 103] []
      (by simp [IsKey, IsKeyByte, IsLetter]) (by simp [IsBlanks])).1 [] (Or.inl rfl) rfl,
    (C9_bare_key acceptAll [] [102, 108, 97, 103] [32]
      (by simp [IsKey, IsKeyByte, IsLetter]) (by simp [IsBlanks])).2 120 [] []
      (by omega) (by omega) (by simp) (by simp) (Or.inl rfl)⟩

/-- C10: for every string `w` of spaces and tabs, parsing `w ++ "!"` yields
exactly one diagnostic, at line 1 and column `c(w) + 1`, where `c` folds over
`w` from 0 with a space mapping `x` to `x + 1` and a tab mapping `x` to
`8 * (x / 8 + 1)`. -/
theorem C10_column_after_blanks (s : IniSink) (file : Bytes) (w : Bytes)
    (hw : IsBlanks w) :
    (IniParseContents s file (w ++ [33])).result
      = some (some [⟨file, 1, colFold 0 w + 1, bytes "Expected section or key"⟩], []) := by
  have h1 := do1_stray s 0 0 33 w [] [] file none [] hw (by omega)
    (by simp [IsLetter]) (by omega) (by simp) (by intro c hc; simp at hc)
  simp only [List.append_nil] at h1
  have hloop : doLoop s (w ++ [33]).length (newParser file (w ++ [33])) []
      = .ok [⟨file, 1, colFold 0 w + 1, bytes "Expected section or key"⟩]
          ⟨posAfter ⟨0, colFold 0 w⟩ [33], [], file, none, []⟩ := by
    have hlen : (w ++ [33]).length = w.length + 1 := by simp
    rw [hlen]
    unfold newParser
    rw [doLoop_some s _ _ _ _ _ (by simp) h1, doLoop_done]
    simp
  have hd := do_of_loop s (newParser file (w ++ [33])) _ _ hloop
  unfold IniParseContents
  rw [hd]
  simp

theorem C10_column_after_blanks_witness :
    IsBlanks [32, 9, 32, 9]
      ∧ (IniParseContents acceptAll [] ([32, 9, 32, 9] ++ [33])).result
        = some (some [⟨[], 1, 17, bytes "Expected section or key"⟩], []) :=
  ⟨by simp [IsBlanks], C10_column_after_blanks acceptAll [] [32, 9, 32, 9] (by simp [IsBlanks])⟩

/-- C11 (fails on the code): a non-empty buffer made only of spaces and tabs
is not classified as a blank line; `IniParseContents` returns one diagnostic,
"Expected section or key", positioned at the end of the buffer. -/
theorem C11_blanks_then_eof_is_refused (s : IniSink) (file w : Bytes) (hw : IsBlanks w)
    (hne : w ≠ []) :
    (IniParseContents s file w).result
      = some (some [⟨file, 1, colFold 0 w + 1, bytes "Expected section or key"⟩], []) := by
  obtain ⟨n, hn⟩ : ∃ n, w.length = n + 1 :=
    ⟨_, (Nat.succ_pred_eq_of_pos (List.length_pos.2 hne)).symm⟩
  have hloop : doLoop s w.length (newParser file w) []
      = .ok [⟨file, 1, colFold 0 w + 1, bytes "Expected section or key"⟩]
          ⟨⟨0, colFold 0 w⟩, [], file, none, []⟩ := by
    rw [hn]
    unfold newParser
    rw [doLoop_some s _ _ _ _ _ hne (do1_blanks_eof s 0 0 w file none [] hw), doLoop_done]
    simp
  have hd := do_of_loop s (newParser file w) _ _ hloop
  unfold IniParseContents
  rw [hd]
  simp

theorem C11_blanks_then_eof_is_refused_witness :
    (IniParseContents acceptAll [] [32, 9, 32]).result
      = some (some [⟨[], 1, 10, bytes "Expected section or key"⟩], []) :=
  C11_blanks_then_eof_is_refused acceptAll [] [32, 9, 32] (by simp [IsBlanks]) (by simp)

/-- C12 as stated fails: on `[s "a\nb"]` (a backslash and the letter n) and a
newline, with an accepting sink, the escape is not rejected; the header is
accepted, the section callback receives the subsection `ab`, and no
diagnostic is reported. -/
theorem C12_other_escape_is_accepted :
    (IniParseContents acceptAll [] (bytes "[s \"a\\nb\"]\n")).result
      = some (none, [Call.Section ⟨bytes "s", some (bytes "ab")⟩]) := by
  decide

/-- C12, amended.  For a non-empty `name` of key characters and a string `a`
free of double quote, backslash, NUL and newline:
(1) an escape other than backslash-backslash and backslash-quote is accepted
and left out: for every byte `X` that is neither a backslash nor a double
quote (`X` may itself be a NUL or a newline) and every `b` free of double
quote, backslash, NUL and newline, parsing the one-line document
`[name "a\Xb"]` and a newline, with a sink that accepts every callback and
implements `Section`, returns nil and invokes the section callback exactly
once, with the subsection `a ++ b`;
(2) an unescaped NUL or newline is refused: when `a` is followed in the
quoted subsection by a NUL or a newline byte `z` and at least one more byte,
`getSubsection` returns no subsection and leaves the parser where it was, and
`do1` on the line `[name "a`, `z`, `rest`, with the header at column 0 and
one space before the quote, returns exactly one diagnostic, "expected quoted
subsection after space", on that line at column `length name + 3` (the
opening quote), without a callback and without changing the current
section. -/
theorem C12_subsection_escapes (s : IniSink) (file name a : Bytes) (hne : name ≠ [])
    (hk : ∀ c ∈ name, IsKeyByte c) (ha : ∀ c ∈ a, c ≠ 34 ∧ c ≠ 92 ∧ c ≠ 0 ∧ c ≠ 10) :
    (∀ (x : Nat) (b : Bytes), s.Accepts → s.Section ≠ none → x ≠ 92 ∧ x ≠ 34 →
        (∀ c ∈ b, c ≠ 34 ∧ c ≠ 92 ∧ c ≠ 0 ∧ c ≠ 10) →
        (IniParseContents s file
            (91 :: (name ++ 32 :: 34 :: (a ++ 92 :: x :: (b ++ [34, 93, 10]))))).result
          = some (none, [Call.Section ⟨name, some (a ++ b)⟩]))
    ∧ (∀ (z ln : Nat) (rest : Bytes) (cur : Option IniSection) (calls : List Call),
        (z = 0 ∨ z = 10) → rest ≠ [] →
        getSubsection ⟨⟨ln, name.length + 2⟩, 34 :: (a ++ z :: rest), file, cur, calls⟩
            = .ok none ⟨⟨ln, name.length + 2⟩, 34 :: (a ++ z :: rest), file, cur, calls⟩
          ∧ ∃ l', do1 s ⟨⟨ln, 0⟩, 91 :: (name ++ 32 :: 34 :: (a ++ z :: rest)), file, cur, calls⟩
              = .ok (some ⟨file, ln + 1, name.length + 3,
                  bytes "expected quoted subsection after space"⟩) l'
            ∧ l'.calls = calls ∧ l'.sec = cur) := by
  constructor
  · intro x b hs hsec hx hb
    have hsub := getSubsection_dropped_escape ⟨0, name.length + 2⟩ a b x [93, 10] file none []
      ha hb hx (by simp)
    have hsrc : NoLeadingBlank (34 :: (a ++ 92 :: x :: (b ++ 34 :: [93, 10]))) := by
      intro c hc
      simp at hc
      omega
    have hget := getSection_to_subsection 0 name (34 :: (a ++ 92 :: x :: (b ++ 34 :: [93, 10])))
      file none [] hne hk hsrc
    rw [hsub] at hget
    simp only [match_hit] at hget
    have hnb : NoLeadingBlank (91 :: (name ++ 32 :: 34 :: (a ++ 92 :: x
        :: (b ++ 34 :: [93, 10])))) := by
      intro c hc
      simp at hc
      omega
    have hdo1 := do1_of_getSection s _ _ _ hnb hget (fun g hg => hs.2 g hg _ _)
    have hcall : sectionCall s ⟨name, some (a ++ b)⟩ = [Call.Section ⟨name, some (a ++ b)⟩] := by
      cases hg : s.Section with
      | none => exact absurd hg hsec
      | some g => simp [sectionCall, hg]
    have e : 91 :: (name ++ 32 :: 34 :: (a ++ 92 :: x :: (b ++ [34, 93, 10])))
        = 91 :: (name ++ 32 :: 34 :: (a ++ 92 :: x :: (b ++ 34 :: [93, 10]))) := by simp
    obtain ⟨n, hn⟩ : ∃ n, (91 :: (name ++ 32 :: 34 :: (a ++ 92 :: x
        :: (b ++ 34 :: [93, 10])))).length = n + 1 + 1 := by
      refine ⟨name.length + a.length + b.length + 6, ?_⟩
      simp only [List.length_cons, List.length_append, List.length_nil]
      omega
    have hloop : (doLoop s (91 :: (name ++ 32 :: 34 :: (a ++ 92 :: x
        :: (b ++ 34 :: [93, 10])))).length (newParser file (91 :: (name ++ 32 :: 34 :: (a ++ 92
        :: x :: (b ++ 34 :: [93, 10]))))) []).result
        = some ([], [Call.Section ⟨name, some (a ++ b)⟩]) := by
      rw [hn]
      unfold newParser
      rw [doLoop_none s _ _ _ _ (by simp) hdo1]
      simp only []
      rw [doLoop_none s _ _ _ _ (by simp) (do1_newline s _ _ file _ _), doLoop_done]
      simp [Res.result, hcall]
    have hd := do_result s (newParser file (91 :: (name ++ 32 :: 34 :: (a ++ 92 :: x
        :: (b ++ 34 :: [93, 10]))))) _ _ hloop
    unfold IniParseContents
    rw [e, hd]
    simp
  · intro z ln rest cur calls hz hrest
    have hsub := getSubsection_refused
      ⟨⟨ln, name.length + 2⟩, 34 :: (a ++ z :: rest), file, cur, calls⟩ a z rest rfl ha hz hrest
    refine ⟨hsub, ?_⟩
    have hsrc : NoLeadingBlank (34 :: (a ++ z :: rest)) := by
      intro c hc
      simp at hc
      omega
    have hget := getSection_to_subsection ln name (34 :: (a ++ z :: rest)) file cur calls hne hk
      hsrc
    rw [hsub] at hget
    simp only [throw, throwAt] at hget
    have hnb : NoLeadingBlank (91 :: (name ++ 32 :: 34 :: (a ++ z :: rest))) := by
      intro c hc
      simp at hc
      omega
    have hdo1 := do1_of_getSection_throw s _ _ _ hnb hget
    refine ⟨_, hdo1, ?_, ?_⟩
    · unfold skipTo
      split <;> simp [skip_fold]
    · unfold skipTo
      split <;> simp [skip_fold]

theorem C12_subsection_escapes_witness :
    ([115] : Bytes) ≠ [] ∧ (∀ c ∈ ([115] : Bytes), IsKeyByte c)
      ∧ (∀ c ∈ ([97] : Bytes), c ≠ 34 ∧ c ≠ 92 ∧ c ≠ 0 ∧ c ≠ 10)
      ∧ (IniParseContents acceptAll []
          (91 :: ([115] ++ 32 :: 34 :: ([97] ++ 92 :: 110 :: ([98] ++ [34, 93, 10]))))).result
        = some (none, [Call.Section ⟨[115], some ([97] ++ [98])⟩])
      ∧ getSubsection ⟨⟨0, ([115] : Bytes).length + 2⟩, 34 :: ([97] ++ 10 :: [98, 34, 93, 10]),
            [], none, []⟩
        = .ok none ⟨⟨0, ([115] : Bytes).length + 2⟩, 34 :: ([97] ++ 10 :: [98, 34, 93, 10]),
            [], none, []⟩
      ∧ ∃ l', do1 acceptAll
            ⟨⟨0, 0⟩, 91 :: ([115] ++ 32 :: 34 :: ([97] ++ 10 :: [98, 34, 93, 10])), [], none, []⟩
          = .ok (some ⟨[], 0 + 1, ([115] : Bytes).length + 3,
              bytes "expected quoted subsection after space"⟩) l'
        ∧ l'.calls = [] ∧ l'.sec = none :=
  ⟨by simp, by simp [IsKeyByte, IsLetter], by simp,
    (C12_subsection_escapes acceptAll [] [115] [97] (by simp) (by simp [IsKeyByte, IsLetter])
      (by simp)).1 110 [98] (by simp [IniSink.Accepts, acceptAll]) (by simp [acceptAll])
      (by omega) (by simp),
    (C12_subsection_escapes acceptAll [] [115] [97] (by simp) (by simp [IsKeyByte, IsLetter])
      (by simp)).2 10 0 [98, 34, 93, 10] none [] (Or.inr rfl) (by simp)⟩

/-- C13: for every section whose name is a non-empty string of key
characters and whose subsection is absent or made of printable ASCII bytes,
`String()` is defined, and parsing it followed by a newline, with a sink that
accepts and implements the section callback, returns nil and invokes the
section callback exactly once, with the original section. -/
theorem C13_section_round_trip (s : IniSink) (file : Bytes) (sec : IniSection)
    (hs : s.Accepts) (hsec : s.Section ≠ none) (hne : sec.Section ≠ [])
    (hk : ∀ c ∈ sec.Section, IsKeyByte c)
    (hp : ∀ sub ∈ sec.Subsection, ∀ c ∈ sub, 32 ≤ c ∧ c ≤ 126) :
    ∃ text, sec.String = some text
      ∧ (IniParseContents s file (text ++ [10])).result = some (none, [Call.Section sec]) := by
  refine ⟨headerText sec, String_printable sec hp, ?_⟩
  cases hg : s.Section with
  | none => exact absurd hg hsec
  | some g =>
    have hwf : ∀ st ∈ [Stmt.header sec], WellFormedStmt st := by
      intro st hst
      simp only [List.mem_singleton] at hst
      subst hst
      refine ⟨hne, hk, ?_⟩
      intro sub hsub c hc
      have := hp sub hsub c hc
      omega
    have h := renderDoc_loop s hs g hg file [Stmt.header sec] hwf
      (renderDoc [Stmt.header sec]).length ⟨0, 0⟩ none [] [] (le_refl _)
    have hd := do_result s (newParser file (renderDoc [Stmt.header sec])) _ _ h
    have e : renderDoc [Stmt.header sec] = headerText sec ++ [10] := by
      simp [renderDoc, renderStmt]
    rw [e] at hd
    unfold IniParseContents
    rw [hd]
    simp [expectedCalls]

theorem C13_section_round_trip_witness :
    (⟨[110, 101, 116], some [112, 117, 98, 108, 105, 99]⟩ : IniSection).String
        = some (bytes "[net \"public\"]")
      ∧ ∃ text, (⟨[110, 101, 116], some [112, 117, 98, 108, 105, 99]⟩ : IniSection).String
          = some text
        ∧ (IniParseContents acceptAll [] (text ++ [10])).result
          = some (none, [Call.Section ⟨[110, 101, 116], some [112, 117, 98, 108, 105, 99]⟩]) :=
  ⟨by decide,
    C13_section_round_trip acceptAll [] ⟨[110, 101, 116], some [112, 117, 98, 108, 105, 99]⟩
      (by simp [IniSink.Accepts, acceptAll]) (by simp [acceptAll]) (by simp)
      (by simp [IsKeyByte, IsLetter]) (by simp)⟩

/-- C14: for every non-empty string `k` of key characters, parsing `[k`
followed by a newline, or by the end of the input, with any sink yields
exactly one diagnostic, at line 1 and column `length k + 2`, with the message
"expected ']' or space followed by quoted-subsection", and no sink call. -/
theorem C14_unclosed_header (s : IniSink) (file k tail : Bytes) (hne : k ≠ [])
    (hk : ∀ c ∈ k, IsKeyByte c) (ht : tail = [] ∨ tail = [10]) :
    (IniParseContents s file (91 :: (k ++ tail))).result
      = some (some [⟨file, 1, k.length + 2,
          bytes "expected ']' or space followed by quoted-subsection"⟩], []) := by
  have hat : AtLineEnd tail := by
    rcases ht with rfl | rfl <;> intro x hx <;> simp at hx
    exact hx.symm
  have hbt : IsBareTail tail := by
    rcases ht with h | h
    · exact Or.inl h
    · exact Or.inr (Or.inl h)
  have h1 := do1_unclosed_header s 0 k tail file none [] hne hk hat
  have hloop : (doLoop s (91 :: (k ++ tail)).length (newParser file (91 :: (k ++ tail)))
      []).result = some ([⟨file, 1, k.length + 2,
          bytes "expected ']' or space followed by quoted-subsection"⟩], []) := by
    rw [List.length_cons]
    unfold newParser
    rw [doLoop_some s _ _ _ _ _ (by simp) h1]
    apply bareTail_loop s _ tail file none _ _ _ hbt
    simp
  have hd := do_result s (newParser file (91 :: (k ++ tail))) _ _ hloop
  unfold IniParseContents
  rw [hd]
  simp

theorem C14_unclosed_header_witness :
    (IniParseContents acceptAll [] (91 :: ([111, 111, 112, 115] ++ [10]))).result
      = some (some [⟨[], 1, 6,
          bytes "expected ']' or space followed by quoted-subsection"⟩], []) :=
  C14_unclosed_header acceptAll [] [111, 111, 112, 115] [10] (by simp)
    (by simp [IsKeyByte, IsLetter]) (Or.inr rfl)

/-- C15: an unterminated quote.  For a key `k` and a body `b` free of double
quote, backslash and newline, parsing `k="b`, a newline and `rest` gives the
result of parsing `rest` on its own from the start of line 2 with no section
open and no callback made, with one diagnostic put in front: "missing close
quotes" at line 1 and at the column of the newline by the position rules over
`k="b`, plus one; every diagnostic of `rest` is on line 2 or later.  When the
buffer ends after `b`, the same diagnostic is the only one and the sink
receives no callback. -/
theorem C15_unterminated_quote (s : IniSink) (file k b rest : Bytes) (hk : IsKey k)
    (hb : ∀ c ∈ b, c ≠ 34 ∧ c ≠ 92 ∧ c ≠ 10) :
    IniParseContents s file (k ++ 61 :: 34 :: (b ++ 10 :: rest))
        = resumeAfter
            ⟨file, 1, colFold 0 (k ++ 61 :: 34 :: b) + 1, bytes "missing close quotes"⟩
            (do_ s ⟨⟨1, 0⟩, rest, file, none, []⟩)
      ∧ (∀ es l', do_ s ⟨⟨1, 0⟩, rest, file, none, []⟩ = .ok (some es) l' →
          ∀ e ∈ es, 2 ≤ e.Lineno)
      ∧ (IniParseContents s file (k ++ 61 :: 34 :: b)).result
        = some (some [⟨file, 1, colFold 0 (k ++ 61 :: 34 :: b) + 1,
            bytes "missing close quotes"⟩], []) := by
  refine ⟨?_, ?_, ?_⟩
  · have h1 := do1_unclosed_quote s 0 file k b (10 :: rest) none [] hk hb
      (by intro c hc; simpa using hc.symm)
    have h2 := do1_newline s ⟨0, colFold 0 (k ++ 61 :: 34 :: b)⟩ rest file none []
    have hlen : (k ++ 61 :: 34 :: (b ++ 10 :: rest)).length
        = (k.length + b.length + 1 + rest.length) + 1 + 1 := by
      simp only [List.length_append, List.length_cons]
      omega
    have hrun : doLoop s (k ++ 61 :: 34 :: (b ++ 10 :: rest)).length
          ⟨⟨0, 0⟩, k ++ 61 :: 34 :: (b ++ 10 :: rest), file, none, []⟩ []
        = Res.prepend
            [⟨file, 0 + 1, colFold 0 (k ++ 61 :: 34 :: b) + 1, bytes "missing close quotes"⟩]
            (doLoop s rest.length ⟨⟨1, 0⟩, rest, file, none, []⟩ []) := by
      rw [hlen, doLoop_some s _ _ _ _ [] (by simp) h1,
        doLoop_none s _ _ _ _ (by simp) h2,
        doLoop_fuel s (k.length + b.length + 1 + rest.length) _ _ rest.length
          (by simp) (by simp),
        doLoop_acc]
      rfl
    unfold IniParseContents newParser do_
    simp only [hrun]
    cases hd : doLoop s rest.length ⟨⟨1, 0⟩, rest, file, none, []⟩ [] with
    | ok es l' =>
      cases es with
      | nil => simp [Res.prepend, resumeAfter]
      | cons e t => simp [Res.prepend, resumeAfter]
    | throw e l' => simp [Res.prepend, resumeAfter]
    | fault l' => simp [Res.prepend, resumeAfter]
    | outOfFuel => simp [Res.prepend, resumeAfter]
  · intro es l' hdo e he
    unfold do_ at hdo
    cases hd : doLoop s rest.length ⟨⟨1, 0⟩, rest, file, none, []⟩ [] with
    | ok es0 l0 =>
      simp only [hd] at hdo
      cases es0 with
      | nil => simp at hdo
      | cons e0 t =>
        simp only [Res.ok.injEq, Option.some.injEq] at hdo
        have := doLoop_lower s 1 rest.length _ [] _ l0 (Nat.le_refl _) (by simp) hd e
          (by rw [hdo.1]; exact he)
        exact this
    | throw e1 l1 =>
      simp only [hd] at hdo
      simp at hdo
    | fault l1 =>
      simp only [hd] at hdo
      simp at hdo
    | outOfFuel =>
      simp only [hd] at hdo
      simp at hdo
  · have h1 := do1_unclosed_quote s 0 file k b [] none [] hk hb (by intro c hc; simp at hc)
    simp only [List.append_nil] at h1
    have hlen : (k ++ 61 :: 34 :: b).length = (k.length + b.length + 1) + 1 := by
      simp only [List.length_append, List.length_cons]
      omega
    have hrun : doLoop s (newParser file (k ++ 61 :: 34 :: b)).input.length
          (newParser file (k ++ 61 :: 34 :: b)) []
        = .ok [⟨file, 1, colFold 0 (k ++ 61 :: 34 :: b) + 1, bytes "missing close quotes"⟩]
            ⟨⟨0, colFold 0 (k ++ 61 :: 34 :: b)⟩, [], file, none, []⟩ := by
      show doLoop s (k ++ 61 :: 34 :: b).length ⟨⟨0, 0⟩, k ++ 61 :: 34 :: b, file, none, []⟩ []
        = _
      rw [hlen, doLoop_some s _ _ _ _ [] (by simp) h1, doLoop_done]
      rfl
    have := do_of_loop s (newParser file (k ++ 61 :: 34 :: b)) _ _ hrun
    unfold IniParseContents
    rw [this]
    simp

theorem C15_unterminated_quote_witness :
    IsKey [107] ∧ (∀ c ∈ ([97, 35, 9] : Bytes), c ≠ 34 ∧ c ≠ 92 ∧ c ≠ 10)
      ∧ (IniParseContents acceptAll [] ([107] ++ 61 :: 34 :: ([97, 35, 9] ++ 10 :: [120, 61, 49]))
          = resumeAfter
              ⟨[], 1, colFold 0 ([107] ++ 61 :: 34 :: [97, 35, 9]) + 1,
                bytes "missing close quotes"⟩
              (do_ acceptAll ⟨⟨1, 0⟩, [120, 61, 49], [], none, []⟩)
        ∧ (∀ es l', do_ acceptAll ⟨⟨1, 0⟩, [120, 61, 49], [], none, []⟩ = .ok (some es) l' →
            ∀ e ∈ es, 2 ≤ e.Lineno)
        ∧ (IniParseContents acceptAll [] ([107] ++ 61 :: 34 :: [97, 35, 9])).result
          = some (some [⟨[], 1, colFold 0 ([107] ++ 61 :: 34 :: [97, 35, 9]) + 1,
              bytes "missing close quotes"⟩], [])) :=
  ⟨by simp [IsKey, IsLetter], by simp,
    C15_unterminated_quote acceptAll [] [107] [97, 35, 9] [120, 61, 49]
      (by simp [IsKey, IsLetter]) (by simp)⟩

/-- C16 as stated fails: on `a=x`, a tab, a backslash and `q`, the backslash
stands in column 8, so the diagnostic has Colno 9, while the length of
`a=x` and the tab gives 4 + 1 = 5. -/
theorem C16_column_is_not_the_length :
    (IniParseContents acceptAll [] (bytes "a=x\t\\q")).result
        = some (some [⟨[], 1, 9, bytes "invalid escape sequence \\q"⟩], [])
      ∧ (bytes "a=x\t").length + 1 = 5 := by
  constructor <;> decide

/-- C16, amended: for every key `k`, every prefix `p` free of backslash,
double quote, '#', ';' and newline, and every ASCII byte `X` other than
'"', backslash, 'n', 't', 'b' and newline, parsing `k=p\X` followed by the
rest of the line yields exactly one diagnostic, "invalid escape sequence \"
followed by `X`, at line 1 and at the column of the backslash as the position
rules give it over `k=p` (a tab moves to the next multiple of 8), plus 1;
when the backslash is the last byte of the input the message is "incomplete
escape sequence at EOF" at the same position; the sink is not invoked.  That
column is the length of `k=p` when `p` holds no tab. -/
theorem C16_invalid_escape (s : IniSink) (file k p : Bytes) (hk : IsKey k)
    (hp : IsPlainValue p) :
    (∀ (x : Nat) (t nl : Bytes), x < 128 →
        (x ≠ 34 ∧ x ≠ 92 ∧ x ≠ 110 ∧ x ≠ 116 ∧ x ≠ 98 ∧ x ≠ 10) → 10 ∉ t →
        (nl = [] ∨ nl = [10]) →
        (IniParseContents s file (k ++ 61 :: (p ++ 92 :: x :: (t ++ nl)))).result
          = some (some [⟨file, 1, colFold 0 (k ++ 61 :: p) + 1,
              bytes "invalid escape sequence \\" ++ [x]⟩], []))
    ∧ (IniParseContents s file (k ++ 61 :: (p ++ [92]))).result
          = some (some [⟨file, 1, colFold 0 (k ++ 61 :: p) + 1,
              bytes "incomplete escape sequence at EOF"⟩], [])
    ∧ (9 ∉ p → colFold 0 (k ++ 61 :: p) = (k ++ 61 :: p).length) := by
  have hkb := isKey_keyBytes k hk
  refine ⟨?_, ?_, ?_⟩
  · intro x t nl hascii hx ht hnl
    have h1 := do1_invalid_escape s file k p x (t ++ nl) hk hp hx hascii
    have hat : AtLineEnd nl := by
      rcases hnl with rfl | rfl <;> intro c hc <;> simp at hc
      exact hc.symm
    have hbt : IsBareTail nl := by
      rcases hnl with h | h
      · exact Or.inl h
      · exact Or.inr (Or.inl h)
    have hskip := skipTo_stop (⟨0, colFold 0 (k ++ 61 :: p)⟩ : position) (92 :: x :: t) nl file
      none [] (by simp only [List.mem_cons, not_or]; exact ⟨by omega, by omega, ht⟩) hat
    simp only [List.cons_append] at hskip
    rw [hskip] at h1
    have hloop : (doLoop s (k ++ 61 :: (p ++ 92 :: x :: (t ++ nl))).length
        (newParser file (k ++ 61 :: (p ++ 92 :: x :: (t ++ nl)))) []).result
        = some ([⟨file, 1, colFold 0 (k ++ 61 :: p) + 1,
              bytes "invalid escape sequence \\" ++ [x]⟩], []) := by
      have hn : (k ++ 61 :: (p ++ 92 :: x :: (t ++ nl))).length
          = (k.length + p.length + 2 + t.length + nl.length) + 1 := by
        simp only [List.length_append, List.length_cons]
        omega
      rw [hn]
      unfold newParser
      rw [doLoop_some s _ _ _ _ _ (by simp) h1]
      apply bareTail_loop s _ nl file none _ _ _ hbt
      omega
    have hd := do_result s (newParser file (k ++ 61 :: (p ++ 92 :: x :: (t ++ nl)))) _ _ hloop
    unfold IniParseContents
    rw [hd]
    simp
  · have h1 := do1_escape_eof s file k p hk hp
    have hskip := skipTo_end (⟨0, colFold 0 (k ++ 61 :: p)⟩ : position) [92] file none []
      (by simp)
    rw [hskip] at h1
    have hloop : (doLoop s (k ++ 61 :: (p ++ [92])).length
        (newParser file (k ++ 61 :: (p ++ [92]))) []).result
        = some ([⟨file, 1, colFold 0 (k ++ 61 :: p) + 1,
              bytes "incomplete escape sequence at EOF"⟩], []) := by
      have hn : (k ++ 61 :: (p ++ [92])).length = (k.length + p.length + 1) + 1 := by
        simp only [List.length_append, List.length_cons, List.length_nil]
        omega
      rw [hn]
      unfold newParser
      rw [doLoop_some s _ _ _ _ _ (by simp) h1, doLoop_done]
      simp [Res.result]
    have hd := do_result s (newParser file (k ++ 61 :: (p ++ [92]))) _ _ hloop
    unfold IniParseContents
    rw [hd]
    simp
  · intro h9
    have hk9 : 9 ∉ k := by
      intro h
      have := hkb 9 h
      unfold IsKeyByte IsLetter at this
      omega
    rw [colFold_no_tab _ 0 (by simp [hk9, h9])]
    omega

theorem C16_invalid_escape_witness :
    (IniParseContents acceptAll [] ([97] ++ 61 :: ([120, 9] ++ 92 :: 113 :: ([] ++ [])))).result
        = some (some [⟨[], 1, 9, bytes "invalid escape sequence \\" ++ [113]⟩], [])
      ∧ (IniParseContents acceptAll [] ([107] ++ 61 :: ([97, 98] ++ [92]))).result
        = some (some [⟨[], 1, 5, bytes "incomplete escape sequence at EOF"⟩], []) :=
  ⟨(C16_invalid_escape acceptAll [] [97] [120, 9] (by simp [IsKey, IsLetter])
      (by simp [IsPlainValue])).1 113 [] [] (by omega) (by omega) (by simp) (Or.inl rfl),
    (C16_invalid_escape acceptAll [] [107] [97, 98] (by simp [IsKey, IsLetter])
      (by simp [IsPlainValue])).2.1⟩

/-- C17: a well-formed header line `w[name]` or `w[name "sub"]` on line
`m + 1` whose section callback returns the error `e` yields exactly one
diagnostic, with the message of `e`, at line `m + 1` and at the column of the
opening bracket plus 1; the header is the current section all the same: the
`Value` calls of the `key=value` lines that follow receive it. -/
theorem C17_rejected_header (s : IniSink) (file : Bytes) (m : Nat) (w : Bytes)
    (sec : IniSection) (doc : List Stmt) (g : List Call → IniSection → Option SinkError)
    (e : SinkError) (hw : IsBlanks w) (hwf : WellFormedStmt (.header sec))
    (hg : s.Section = some g) (he : g [] sec = some e)
    (hv : ∀ h sec k v, s.Value h sec k v = none)
    (hdoc : ∀ st ∈ doc, (∃ k v, st = Stmt.keyValue k v) ∧ WellFormedStmt st) :
    (IniParseContents s file
        (List.replicate m 10 ++ (w ++ (headerText sec ++ 10 :: renderDoc doc)))).result
      = some (some [⟨file, m + 1, colFold 0 w + 1, e.Error⟩],
          Call.Section sec :: expectedCalls (some sec) doc) := by
  have h1 := do1_header_rejected s m 0 w sec (10 :: renderDoc doc) file none [] g e hw hwf
    (by intro c hc; simp at hc; exact hc.symm) hg he
  have hhd : 1 ≤ (headerText sec).length := by
    cases hsub : sec.Subsection <;> simp [headerText, hsub]
  have hne : w ++ (headerText sec ++ 10 :: renderDoc doc) ≠ [] := by
    intro h
    have := congrArg List.length h
    simp only [List.length_append, List.length_cons, List.length_nil] at this
    omega
  have hloop : (doLoop s
      (List.replicate m 10 ++ (w ++ (headerText sec ++ 10 :: renderDoc doc))).length
      (newParser file (List.replicate m 10 ++ (w ++ (headerText sec ++ 10 :: renderDoc doc))))
      []).result
      = some ([⟨file, m + 1, colFold 0 w + 1, e.Error⟩],
          Call.Section sec :: expectedCalls (some sec) doc) := by
    have e1 : (List.replicate m 10 ++ (w ++ (headerText sec ++ 10 :: renderDoc doc))).length
        = ((w.length + (headerText sec).length - 1 + (renderDoc doc).length) + 1 + 1) + m := by
      simp only [List.length_append, List.length_cons, List.length_replicate]
      omega
    rw [e1]
    unfold newParser
    rw [newlines_loop, Nat.zero_add, doLoop_some s _ _ _ _ _ hne h1]
    simp only [List.nil_append]
    rw [doLoop_none s _ _ _ _ (by simp) (do1_newline s _ _ file _ _)]
    rw [keyValues_loop s hv file doc hdoc _ _ (some sec) _ _ (by omega)]
    simp
  have hd := do_result s
    (newParser file (List.replicate m 10 ++ (w ++ (headerText sec ++ 10 :: renderDoc doc))))
    _ _ hloop
  unfold IniParseContents
  rw [hd]
  simp

theorem C17_rejected_header_witness :
    (IniParseContents
        { Value := fun _ _ _ _ => none, Section := some (fun _ _ => some (.other [110, 111])) }
        []
        (List.replicate 1 10 ++ ([32, 32] ++ (headerText ⟨[97], some [98]⟩
          ++ 10 :: renderDoc [Stmt.keyValue [107] [49], Stmt.keyValue [106] [50]])))).result
      = some (some [⟨[], 2, 3, [110, 111]⟩],
          [Call.Section ⟨[97], some [98]⟩, Call.Value (some ⟨[97], some [98]⟩) [107] [49],
            Call.Value (some ⟨[97], some [98]⟩) [106] [50]]) :=
  C17_rejected_header
    { Value := fun _ _ _ _ => none, Section := some (fun _ _ => some (.other [110, 111])) }
    [] 1 [32, 32] ⟨[97], some [98]⟩ [Stmt.keyValue [107] [49], Stmt.keyValue [106] [50]]
    (fun _ _ => some (.other [110, 111])) (.other [110, 111]) (by simp [IsBlanks])
    (by simp [WellFormedStmt, IsKeyByte, IsLetter]) rfl rfl (fun _ _ _ _ => rfl)
    (by simp [WellFormedStmt, IsKey, IsKeyByte, IsLetter, IsPlainValue, NoLeadingBlank])

/-- C18: `skip(n)` removes exactly `min n len` bytes from the front of the
input and sets the position to the left fold over those bytes of the step
newline -> (line + 1, 0), tab -> least multiple of 8 strictly greater than
the column, other -> column + 1; hence `skip(m)` followed by `skip(n)` is
`skip(m + n)`, and the line number grows by the number of newline bytes
consumed. -/
theorem C18_skip_is_a_clamped_fold (n : Nat) (l : iniParse) :
    skip n l = skipSpec n l
      ∧ l.input = l.input.take (min n l.input.length) ++ (skip n l).input
      ∧ (l.input.take (min n l.input.length)).length = min n l.input.length
      ∧ (∀ m, skip n (skip m l) = skip (m + n) l)
      ∧ (skip n l).lineno
          = l.lineno + (l.input.take (min n l.input.length)).count 10
      ∧ (∀ x : Nat, 8 ∣ 8 * (x / 8 + 1) ∧ x < 8 * (x / 8 + 1)
          ∧ ∀ y, 8 ∣ y → x < y → 8 * (x / 8 + 1) ≤ y) := by
  have hmin : l.input.take (min n l.input.length) = l.input.take n := by
    rcases Nat.le_total n l.input.length with h | h
    · rw [Nat.min_eq_left h]
    · rw [Nat.min_eq_right h, List.take_of_length_le h, List.take_of_length_le (le_refl _)]
  have hmind : l.input.drop (min n l.input.length) = l.input.drop n := by
    rcases Nat.le_total n l.input.length with h | h
    · rw [Nat.min_eq_left h]
    · rw [Nat.min_eq_right h, List.drop_eq_nil_of_le h, List.drop_eq_nil_of_le (le_refl _)]
  refine ⟨?_, ?_, ?_, ?_, ?_, ?_⟩
  · rw [skip_take_drop]
    unfold skipSpec posAfter
    rw [hmin, hmind, advance_eq_stepSpec]
  · rw [skip_take_drop, hmin]
    simp
  · simp
  · intro m
    rw [skip_take_drop m l, skip_take_drop n, skip_take_drop (m + n) l]
    simp only [List.drop_drop, List.take_add, posAfter_append]
  · rw [skip_take_drop, hmin]
    exact posAfter_lineno _ _
  · intro x
    refine ⟨Dvd.intro _ rfl, by omega, ?_⟩
    intro y hy hxy
    obtain ⟨k, rfl⟩ := hy
    have : x / 8 < k := by
      rw [Nat.div_lt_iff_lt_mul (by omega)]
      omega
    omega

/-- C19: progress and termination.  From a parser state with non-empty input,
a call of `do1` never runs out of fuel and never lets a `ParseError` panic
escape, and when it returns, with or without a diagnostic, the remaining
input is strictly shorter and is a suffix of the previous one.  So the loop
of `do` takes at most `len(l.input)` turns: with that fuel or more it gives
the same outcome and is never out of fuel, and `do` ends.  The scan loop of
`getValue` ends on every state, with its `len(l.input) + 1` turns or more. -/
theorem C19_progress_and_termination (s : IniSink) (l : iniParse) (hne : l.input ≠ []) :
    (do1 s l ≠ .outOfFuel ∧ ∀ e l', do1 s l ≠ .throw e l')
      ∧ (∀ r l', do1 s l = .ok r l' →
          l'.input.length < l.input.length ∧ ∃ a, l.input = a ++ l'.input)
      ∧ (∀ fuel errs, l.input.length ≤ fuel →
          doLoop s fuel l errs = doLoop s l.input.length l errs
            ∧ doLoop s fuel l errs ≠ .outOfFuel)
      ∧ do_ s l ≠ .outOfFuel
      ∧ ∀ (g : iniParse) (fuel : Nat), g.input.length + 1 ≤ fuel →
          getValueLoop fuel g 0 [] false false ≠ .outOfFuel ∧ getValue g ≠ .outOfFuel := by
  have hstep := do1_step s l hne
  refine ⟨⟨?_, ?_⟩, ?_, ?_, ?_, ?_⟩
  · intro h
    rw [h] at hstep
    exact hstep
  · intro e l' h
    rw [h] at hstep
    exact hstep
  · intro r l' h
    rw [h] at hstep
    cases r with
    | none => exact ⟨hstep.2, hstep.1.2.imp fun a ha => ha.1⟩
    | some e => exact ⟨hstep.2.1, hstep.1.2.imp fun a ha => ha.1⟩
  · intro fuel errs hf
    exact ⟨doLoop_fuel s fuel l errs l.input.length hf (Nat.le_refl _),
      (doLoop_ends s fuel l errs hf).1⟩
  · have h := (doLoop_ends s l.input.length l [] (Nat.le_refl _)).1
    unfold do_
    cases hd : doLoop s l.input.length l [] with
    | ok es l' => cases es <;> simp
    | throw e l' => simp
    | fault l' => simp
    | outOfFuel => exact absurd hd h
  · intro g fuel hf
    have h1 := getValueLoop_sound fuel g 0 [] false false (by omega) (by omega)
    have h2 := getValue_sound g
    refine ⟨?_, ?_⟩
    · intro h
      rw [h] at h1
      exact h1
    · intro h
      rw [h] at h2
      exact h2

theorem C19_progress_and_termination_witness :
    (newParser [] [97, 61, 49, 10, 63]).input ≠ []
      ∧ ((do1 acceptAll (newParser [] [97, 61, 49, 10, 63]) ≠ .outOfFuel
          ∧ ∀ e l', do1 acceptAll (newParser [] [97, 61, 49, 10, 63]) ≠ .throw e l')
        ∧ (∀ r l', do1 acceptAll (newParser [] [97, 61, 49, 10, 63]) = .ok r l' →
            l'.input.length < (newParser [] [97, 61, 49, 10, 63]).input.length
              ∧ ∃ a, (newParser [] [97, 61, 49, 10, 63]).input = a ++ l'.input)
        ∧ (∀ fuel errs, (newParser [] [97, 61, 49, 10, 63]).input.length ≤ fuel →
            doLoop acceptAll fuel (newParser [] [97, 61, 49, 10, 63]) errs
                = doLoop acceptAll (newParser [] [97, 61, 49, 10, 63]).input.length
                    (newParser [] [97, 61, 49, 10, 63]) errs
              ∧ doLoop acceptAll fuel (newParser [] [97, 61, 49, 10, 63]) errs ≠ .outOfFuel)
        ∧ do_ acceptAll (newParser [] [97, 61, 49, 10, 63]) ≠ .outOfFuel
        ∧ ∀ (g : iniParse) (fuel : Nat), g.input.length + 1 ≤ fuel →
            getValueLoop fuel g 0 [] false false ≠ .outOfFuel ∧ getValue g ≠ .outOfFuel) :=
  ⟨by simp [newParser],
    C19_progress_and_termination acceptAll (newParser [] [97, 61, 49, 10, 63])
      (by simp [newParser])⟩

/-- C20: at most one diagnostic per source line, in source order.  Whenever
`IniParseContents` returns a `ParseErrors` list, the list is non-empty, the
`Lineno` fields of its entries are strictly increasing, and every entry has
`Lineno` at least 1 and `Colno` at least 1. -/
theorem C20_diagnostics_strictly_increase (s : IniSink) (file contents : Bytes)
    (errs : ParseErrors) (calls : List Call)
    (h : (IniParseContents s file contents).result = some (some errs, calls)) :
    errs ≠ [] ∧ List.Pairwise (fun a b : Nat => a < b) (errs.map ParseError.Lineno)
      ∧ ∀ e ∈ errs, 1 ≤ e.Lineno ∧ 1 ≤ e.Colno := by
  unfold IniParseContents do_ at h
  cases hd : doLoop s (newParser file contents).input.length (newParser file contents) [] with
  | ok es l' =>
    rw [hd] at h
    have hl := doLoop_lines s _ _ [] es l' List.Pairwise.nil (by simp) (Or.inl (by simp)) hd
    cases es with
    | nil => simp [Res.result] at h
    | cons e t =>
      simp only [Res.result, Option.some.injEq, Prod.mk.injEq] at h
      obtain ⟨he, _⟩ := h
      subst he
      exact ⟨by simp, List.pairwise_map.mpr hl.1, hl.2⟩
  | throw e l' =>
    rw [hd] at h
    simp [Res.result] at h
  | fault l' =>
    rw [hd] at h
    simp [Res.result] at h
  | outOfFuel =>
    rw [hd] at h
    simp [Res.result] at h

theorem C20_diagnostics_strictly_increase_witness :
    (IniParseContents acceptAll [] [63, 10, 10, 33, 10]).result
        = some (some [⟨[], 1, 1, bytes "Expected section or key"⟩,
            ⟨[], 3, 1, bytes "Expected section or key"⟩], [])
      ∧ (([⟨[], 1, 1, bytes "Expected section or key"⟩,
            ⟨[], 3, 1, bytes "Expected section or key"⟩] : ParseErrors) ≠ []
        ∧ List.Pairwise (fun a b : Nat => a < b)
            (([⟨[], 1, 1, bytes "Expected section or key"⟩,
              ⟨[], 3, 1, bytes "Expected section or key"⟩] : ParseErrors).map
              ParseError.Lineno)
        ∧ ∀ e ∈ ([⟨[], 1, 1, bytes "Expected section or key"⟩,
            ⟨[], 3, 1, bytes "Expected section or key"⟩] : ParseErrors),
            1 ≤ e.Lineno ∧ 1 ≤ e.Colno) :=
  ⟨by decide,
    C20_diagnostics_strictly_increase acceptAll [] [63, 10, 10, 33, 10] _ [] (by decide)⟩

end stcdetail
